import Mathlib

/-!
The class `phpcxx::Array` and the argument list of `phpcxx::Function`.

A shallow embedding of `src/phpcxx/array.cpp` and of the two argument-list members of
`src/phpcxx/function.cpp`.

The C++ code is a thin layer over the Zend engine.  The engine is not part of the
repository, so its primitives (`zend_hash_*`, `ZEND_HANDLE_NUMERIC`, `SEPARATE_ARRAY`,
`ZVAL_COPY`, ...) are embedded here after the PHP 7.0 engine the code is written
against, under their engine names.  The functions of `array.cpp` are then translated
line by line on top of them.

Conventions.
* `zend_long` is `Int` (callers pass values in the signed 64-bit range),
  `zend_ulong` is `Nat`; the two casts are written out with `% 2 ^ 64`.
* A `zend_string` is its byte sequence, a `List Nat`.
* Heap objects (`zend_array`, `zend_reference`, the cells INDIRECT slots point to)
  live in an explicit `Heap`; a pointer to one is its address, a `Nat`.
* A hash table is the list of its live buckets in insertion order, together with
  `nNextFreeElement`.
* Reference counts of arrays and references are tracked; reference counts of the
  values stored inside a table are not.
* A `std::vector` is a `List`; `uint32_t` arithmetic is written out with `% 2 ^ 32`.
-/

namespace phpcxx

/-! ## Machine integers and strings -/

/-- Largest `zend_long`. -/
def ZEND_LONG_MAX : Int := 9223372036854775807

/-- Smallest `zend_long`. -/
def ZEND_LONG_MIN : Int := -9223372036854775808

/-- The C cast `static_cast<zend_ulong>(idx)`. -/
def toUlong (idx : Int) : Nat := (idx % 2 ^ 64).toNat

/-- The C cast `static_cast<zend_long>(h)`. -/
def toLong (h : Nat) : Int :=
  if h % 2 ^ 64 < 2 ^ 63 then ((h % 2 ^ 64 : Nat) : Int) else ((h % 2 ^ 64 : Nat) : Int) - 2 ^ 64

/-- The bytes of a string literal, for writing keys such as `bytes "042"`. -/
def bytes (s : String) : List Nat := s.toList.map Char.toNat

/-- Engine constant `MAX_LENGTH_OF_LONG` on a 64-bit build. -/
def MAX_LENGTH_OF_LONG : Nat := 20

/-- The `while (1)` loop of the engine's `_zend_handle_numeric_str_ex`: `cs` is what is
left of the key after `tmp`, `idx` the accumulator (a `zend_ulong`), `neg` says whether
`*key == '-'`.  At the end of the key the range checks are made and, for a negative
number, `idx = 0 - idx`. -/
def numericLoop (neg : Bool) : List Nat → Nat → Option Nat
  | [], idx =>
      if neg then
        if ((idx + 2 ^ 64 - 1) % 2 ^ 64 : Nat) > 9223372036854775807 then none
        else some ((2 ^ 64 - idx) % 2 ^ 64)
      else if idx > 9223372036854775807 then none
      else some idx
  | c :: cs, idx =>
      if 48 ≤ c ∧ c ≤ 57 then numericLoop neg cs ((idx * 10 + (c - 48)) % 2 ^ 64) else none

/-- Engine function `_zend_handle_numeric_str_ex(key, length, idx)`: skips a leading
`'-'`, rejects a leading zero unless the key has length 1, rejects more than
`MAX_LENGTH_OF_LONG - 1` digits, then runs the digit loop.  Reading past the last
byte yields the terminating NUL, hence `headD 0`. -/
def zend_handle_numeric_str_ex (key : List Nat) : Option Nat :=
  let neg : Bool := key.headD 0 = 45
  let tmp := if neg then key.tail else key
  if tmp.headD 0 = 48 ∧ key.length > 1 then none
  else if tmp.length > MAX_LENGTH_OF_LONG - 1 then none
  else numericLoop neg tmp.tail (tmp.headD 0 - 48)

/-- Engine function `zend_handle_numeric_str`: the quick test on the first byte
(a digit, or `'-'` followed by a digit) before the full scan.  Bytes are compared as
unsigned numbers; a byte above 127 is rejected here exactly as a negative `char` is
by the engine (`< '0'` and not `'-'`). -/
def zend_handle_numeric_str (key : List Nat) : Option Nat :=
  let c0 := key.headD 0
  if c0 > 57 then none
  else if c0 < 48 then
    if c0 ≠ 45 then none
    else if key.tail.headD 0 > 57 ∨ key.tail.headD 0 < 48 then none
    else zend_handle_numeric_str_ex key
  else zend_handle_numeric_str_ex key

/-- Engine macro `ZEND_HANDLE_NUMERIC(key, hval)`: `some hval` when the key is a
numeric string, `none` when the macro yields 0. -/
def ZEND_HANDLE_NUMERIC (key : List Nat) : Option Nat := zend_handle_numeric_str key

/-- Decimal digits of a positive number, most significant first, as ASCII bytes;
`"0"` for zero. -/
def decimalNat (n : Nat) : List Nat :=
  if n = 0 then [48] else (Nat.digits 10 n).reverse.map (· + 48)

/-- The canonical decimal string of an integer: an optional `'-'`, then the digits
without leading zero (`"42"`, `"0"`, `"-7"`). -/
def decimal (n : Int) : List Nat :=
  if n < 0 then 45 :: decimalNat n.natAbs else decimalNat n.natAbs

/-! ## Values -/

/-- The engine's `zval`: a type tag with its payload.  Pointer payloads are heap
addresses.  A resource carries the `handle` field of its `zend_resource`. -/
inductive Zval where
  | undef
  | null
  | false_
  | true_
  | long (lval : Int)
  | double (bits : Nat)
  | string (str : List Nat)
  | array (arr : Nat)
  | object (obj : Nat)
  | resource (res : Nat) (handle : Int)
  | reference (ref : Nat)
  | constant (c : Nat)
  | constant_ast (ast : Nat)
  | indirect (zv : Nat)
  | ptr (p : Nat)
  deriving DecidableEq, Repr

/-- The enumeration `phpcxx::Type` (its header is not among the sources): one
enumerator per engine type tag. -/
inductive ValueType where
  | Undefined | Null | False | True | Integer | Double | String | Array | Object
  | Resource | Reference | Constant | ConstantAST | Indirect | Pointer
  deriving DecidableEq, Repr

/-- Modelled from the spec: `Value::type()` (declared in `value.h`, not among the
sources) returns the discriminant of the value and has no side effect. -/
def Value.type : Zval → ValueType
  | .undef => .Undefined
  | .null => .Null
  | .false_ => .False
  | .true_ => .True
  | .long _ => .Integer
  | .double _ => .Double
  | .string _ => .String
  | .array _ => .Array
  | .object _ => .Object
  | .resource _ _ => .Resource
  | .reference _ => .Reference
  | .constant _ => .Constant
  | .constant_ast _ => .ConstantAST
  | .indirect _ => .Indirect
  | .ptr _ => .Pointer

/-- Engine macro `Z_LVAL`: the value union read as a `zend_long`.  For a pointer
payload this is the pointer itself; a tag without payload reads as 0. -/
def Z_LVAL : Zval → Int
  | .long n => n
  | .double bits => toLong bits
  | .array a => toLong a
  | .object o => toLong o
  | .resource r _ => toLong r
  | .reference r => toLong r
  | .constant c => toLong c
  | .constant_ast a => toLong a
  | .indirect c => toLong c
  | .ptr p => toLong p
  | _ => 0

/-- Engine macro `Z_DVAL`: the value union read as a `double`, given by its 64 bits. -/
def Z_DVAL (z : Zval) : Nat := toUlong (Z_LVAL z)

/-- Engine macro `Z_STR`: the string payload (empty for a value that is no string). -/
def Z_STR : Zval → List Nat
  | .string s => s
  | _ => []

/-- Engine macro `Z_RES_HANDLE_P`: the handle of a resource. -/
def Z_RES_HANDLE : Zval → Int
  | .resource _ handle => handle
  | _ => 0

/-- Engine macro `Z_ARR` / `Z_ARRVAL_P`: the address of the table of an array value. -/
def Z_ARR : Zval → Nat
  | .array a => a
  | _ => 0

/-- Engine macro `ZSTR_EMPTY_ALLOC()`: the interned empty string. -/
def ZSTR_EMPTY_ALLOC : List Nat := []

/-! ## The hash table -/

/-- A bucket key: the numeric index `h` of a bucket without string key, or the
string key. -/
inductive Key where
  | idx (h : Nat)
  | str (s : List Nat)
  deriving DecidableEq, Repr

/-- A live bucket of a table. -/
structure Bucket where
  key : Key
  val : Zval
  deriving DecidableEq, Repr

/-- The engine's `zend_array` (`HashTable`): reference count, live buckets in
insertion order, next free numeric index. -/
structure zend_array where
  refcount : Nat
  arData : List Bucket
  nNextFreeElement : Int
  deriving DecidableEq, Repr

/-- The value of the first bucket with the key. -/
def lookupFirst (k : Key) : List Bucket → Option Zval
  | [] => none
  | b :: bs => if b.key = k then some b.val else lookupFirst k bs

/-- Drops the first bucket with the key. -/
def deleteFirst (k : Key) : List Bucket → List Bucket
  | [] => []
  | b :: bs => if b.key = k then bs else b :: deleteFirst k bs

/-- Bucket lookup shared by `zend_hash_find` and `zend_hash_index_find`: the value of
the bucket with the key. -/
def zend_array.lookup (ht : zend_array) (k : Key) : Option Zval := lookupFirst k ht.arData

/-- Bucket removal shared by `zend_hash_del` and `zend_hash_index_del`: the bucket with
the key is dropped, nothing else changes. -/
def zend_array.delete (ht : zend_array) (k : Key) : zend_array :=
  { ht with arData := deleteFirst k ht.arData }

/-- Overwrites the value of the first bucket with the key. -/
def assignFirst (k : Key) (v : Zval) : List Bucket → List Bucket
  | [] => []
  | b :: bs => if b.key = k then { b with val := v } :: bs else b :: assignFirst k v bs

/-- A store through a pointer to the bucket of a key: the value of that bucket is
overwritten, nothing else changes. -/
def zend_array.assign (ht : zend_array) (k : Key) (v : Zval) : zend_array :=
  { ht with arData := assignFirst k v ht.arData }

/-- Engine function `zend_hash_index_find`. -/
def zend_hash_index_find (ht : zend_array) (h : Nat) : Option Zval := ht.lookup (.idx h)

/-- Engine function `zend_hash_find`. -/
def zend_hash_find (ht : zend_array) (key : List Nat) : Option Zval := ht.lookup (.str key)

/-- Engine function `zend_hash_index_exists`. -/
def zend_hash_index_exists (ht : zend_array) (h : Nat) : Bool := (ht.lookup (.idx h)).isSome

/-- Engine function `zend_hash_exists`: a bucket with the key is there, whatever it
holds (an INDIRECT slot is not followed). -/
def zend_hash_exists (ht : zend_array) (key : List Nat) : Bool := (ht.lookup (.str key)).isSome

/-- Engine macro `zend_hash_num_elements`. -/
def zend_hash_num_elements (ht : zend_array) : Nat := ht.arData.length

/-- Engine function `zend_hash_index_add_new`: a new bucket at the tail; afterwards
`if ((zend_long)h >= nNextFreeElement) nNextFreeElement = h < ZEND_LONG_MAX ? h + 1 :
ZEND_LONG_MAX`.  The caller guarantees that the key is absent. -/
def zend_hash_index_add_new (ht : zend_array) (h : Nat) (v : Zval) : zend_array :=
  { ht with
    arData := ht.arData ++ [⟨.idx h, v⟩]
    nNextFreeElement :=
      if toLong h ≥ ht.nNextFreeElement then
        (if (h : Int) < ZEND_LONG_MAX then (h : Int) + 1 else ZEND_LONG_MAX)
      else ht.nNextFreeElement }

/-- Engine function `zend_hash_add_new`: a new bucket with a string key at the tail. -/
def zend_hash_add_new (ht : zend_array) (key : List Nat) (v : Zval) : zend_array :=
  { ht with arData := ht.arData ++ [⟨.str key, v⟩] }

/-- Engine function `zend_hash_next_index_insert`: inserts at index
`nNextFreeElement`; yields `none` (the engine's NULL) when that index is occupied,
else the new table and the index used. -/
def zend_hash_next_index_insert (ht : zend_array) (v : Zval) : Option (zend_array × Nat) :=
  let h := toUlong ht.nNextFreeElement
  if zend_hash_index_exists ht h then none
  else some (zend_hash_index_add_new ht h v, h)

/-- Engine function `zend_hash_index_del`. -/
def zend_hash_index_del (ht : zend_array) (h : Nat) : zend_array := ht.delete (.idx h)

/-- Engine function `zend_hash_del`. -/
def zend_hash_del (ht : zend_array) (key : List Nat) : zend_array := ht.delete (.str key)

/-! ## The heap and the `Array` object -/

/-- The engine's `zend_reference`: a counted cell holding one value. -/
structure zend_reference where
  refcount : Nat
  val : Zval
  deriving DecidableEq, Repr

/-- The engine's memory as far as `Array` touches it: tables, reference cells, the
cells that INDIRECT slots point to, the allocation marks (the next fresh table and
reference addresses) and the address of `EG(symbol_table)`. -/
structure Heap where
  arrays : Nat → zend_array
  refs : Nat → zend_reference
  cells : Nat → Zval
  next_array : Nat
  next_ref : Nat
  symbol_table : Nat

/-- The table at an address is replaced. -/
def Heap.setArray (h : Heap) (addr : Nat) (ht : zend_array) : Heap :=
  { h with arrays := Function.update h.arrays addr ht }

/-- The reference cell at an address is replaced. -/
def Heap.setRef (h : Heap) (addr : Nat) (r : zend_reference) : Heap :=
  { h with refs := Function.update h.refs addr r }

/-- The cell at an address is replaced. -/
def Heap.setCell (h : Heap) (addr : Nat) (v : Zval) : Heap :=
  { h with cells := Function.update h.cells addr v }

/-- An object of class `phpcxx::Array`: its only member `m_z`, in the heap it lives
in. -/
structure Array where
  heap : Heap
  m_z : Zval

/-- A `zval*`: the address of `this->m_z`, of the value inside a reference, of the
value of a bucket, or of a cell an INDIRECT slot points to.  The `Value&` that
`operator[]` returns is such a pointer. -/
inductive ZvalPtr where
  | m_z
  | refval (ref : Nat)
  | bucket (arr : Nat) (key : Key)
  | cell (zv : Nat)
  deriving DecidableEq, Repr

/-- Reads the value a pointer points to. -/
def Array.load (a : Array) : ZvalPtr → Zval
  | .m_z => a.m_z
  | .refval r => (a.heap.refs r).val
  | .bucket arr k => ((a.heap.arrays arr).lookup k).getD .undef
  | .cell c => a.heap.cells c

/-- Writes a value through a pointer. -/
def Array.store (a : Array) : ZvalPtr → Zval → Array
  | .m_z, v => { a with m_z := v }
  | .refval r, v => { a with heap := a.heap.setRef r { a.heap.refs r with val := v } }
  | .bucket arr k, v => { a with heap := a.heap.setArray arr ((a.heap.arrays arr).assign k v) }
  | .cell c, v => { a with heap := a.heap.setCell c v }

/-- The failures of `array.cpp`, all thrown as `std::runtime_error`: "Not an array"
(`TypeMismatch`), "Illegal offset type" (`IllegalKeyType`) and "Cannot add element to
the array as the next element is already occupied" (`SlotOccupied`). -/
inductive Error where
  | TypeMismatch
  | IllegalKeyType
  | SlotOccupied
  deriving DecidableEq, Repr

/-- Engine macro `Z_REFVAL_P(z)` on the value `z` points to.  Applied to a value that
is no reference the macro yields a wild pointer; the value is then left as it is (no
caller looks at it). -/
def Z_REFVAL (h : Heap) : Zval → Zval
  | .reference r => (h.refs r).val
  | z => z

/-- Translation of `derefAndCheck(z)`: one reference is followed, then the value must
be an array. -/
def derefAndCheck (a : Array) (z : ZvalPtr) : Except Error ZvalPtr :=
  let z := match a.load z with
    | .reference r => ZvalPtr.refval r
    | _ => z
  match a.load z with
  | .array _ => .ok z
  | _ => .error .TypeMismatch

/-- Engine function `zend_array_dup`: a fresh table with the same buckets in the same
order and the same `nNextFreeElement`, reference count 1. -/
def zend_array_dup (h : Heap) (src : Nat) : Heap × Nat :=
  ({ h with
      arrays := Function.update h.arrays h.next_array { h.arrays src with refcount := 1 }
      next_array := h.next_array + 1 },
   h.next_array)

/-- Engine macro `SEPARATE_ARRAY(zv)`: when the table `zv` points to has a reference
count above 1, the count is decremented and `zv` is repointed to a duplicate. -/
def SEPARATE_ARRAY (a : Array) (z : ZvalPtr) : Array :=
  let arr := Z_ARR (a.load z)
  if (a.heap.arrays arr).refcount > 1 then
    let h1 := a.heap.setArray arr
      { a.heap.arrays arr with refcount := (a.heap.arrays arr).refcount - 1 }
    let d := zend_array_dup h1 arr
    Array.store { a with heap := d.1 } z (.array d.2)
  else a

/-- Engine function `zend_hash_del_ind`: like `zend_hash_del`, but for an INDIRECT
slot the cell it points to is set to UNDEF and the bucket stays. -/
def zend_hash_del_ind (h : Heap) (ht : Nat) (key : List Nat) : Heap :=
  match zend_hash_find (h.arrays ht) key with
  | some (.indirect c) => if h.cells c = .undef then h else h.setCell c .undef
  | some _ => h.setArray ht (zend_hash_del (h.arrays ht) key)
  | none => h

/-- Engine function `zend_delete_global_variable`:
`zend_hash_del_ind(&EG(symbol_table), name)`. -/
def zend_delete_global_variable (h : Heap) (key : List Nat) : Heap :=
  zend_hash_del_ind h h.symbol_table key

/-! ## Constructors of `Array` -/

/-- Engine macro `array_init`: a fresh empty table (reference count 1,
`nNextFreeElement` 0) and the array value pointing to it. -/
def array_init (h : Heap) : Heap × Zval :=
  ({ h with
      arrays := Function.update h.arrays h.next_array ⟨1, [], 0⟩
      next_array := h.next_array + 1 },
   .array h.next_array)

/-- Engine macro `ZVAL_COPY(dst, src)`: the value is copied and, when it points to a
counted table or reference, that count is incremented. -/
def ZVAL_COPY (h : Heap) (src : Zval) : Heap × Zval :=
  match src with
  | .array a =>
      (h.setArray a { h.arrays a with refcount := (h.arrays a).refcount + 1 }, src)
  | .reference r =>
      (h.setRef r { h.refs r with refcount := (h.refs r).refcount + 1 }, src)
  | _ => (h, src)

/-- Translation of `Array::Array()`. -/
def Array.new (h : Heap) : Array :=
  ⟨(array_init h).1, (array_init h).2⟩

/-- Translation of `Array::Array(zval* z)` (and of `Array::Array(Value& v)`, which
passes `&v.m_z`).  Yields the new Array and what `*z` is afterwards.  For an array
`*z` is turned into a reference (`ZVAL_MAKE_REF`: a fresh reference cell of count 1
holding the value), the count becomes 2 and `m_z` is that reference.  Otherwise the
value is copied and converted; `convert_to_array` is an engine function taken as a
parameter. -/
def Array.fromZval (convert_to_array : Heap → Zval → Heap × Zval) (h : Heap) (z : Zval) :
    Array × Zval :=
  match z with
  | .array _ =>
      let ref := h.next_ref
      let h1 : Heap := { h with refs := Function.update h.refs ref ⟨1, z⟩, next_ref := ref + 1 }
      let h2 := h1.setRef ref { h1.refs ref with refcount := (h1.refs ref).refcount + 1 }
      (⟨h2, .reference ref⟩, .reference ref)
  | _ =>
      let c := ZVAL_COPY h z
      let r := convert_to_array c.1 c.2
      (⟨r.1, r.2⟩, z)

/-- Translation of `Array::Array(Array& other)`: `ZVAL_COPY(&this->m_z, &other.m_z)`. -/
def Array.copy (other : Array) : Array :=
  ⟨(ZVAL_COPY other.heap other.m_z).1, (ZVAL_COPY other.heap other.m_z).2⟩

/-- Translation of `Array::Array(Array&& other)`: yields the new Array and `other`
afterwards, whose `m_z` is UNDEF. -/
def Array.move (other : Array) : Array × Array :=
  (⟨other.heap, other.m_z⟩, ⟨other.heap, .undef⟩)

/-! ## Member functions of `Array`

A member function yields the Array afterwards together with its result or the
exception thrown.  `const` members yield the result only. -/

/-- Modelled from the spec: `Value(placement_construct)` (declared in `value.h`, not
among the sources) wraps the slot in place as the mutable handle that is returned;
the slot is not changed by it. -/
def placement_construct (retval : ZvalPtr) : ZvalPtr := retval

/-- Translation of `Array::operator[](std::nullptr_t)`, the spec's `append`. -/
def Array.append (a : Array) : Array × Except Error ZvalPtr :=
  match derefAndCheck a .m_z with
  | .error e => (a, .error e)
  | .ok z =>
    let a := SEPARATE_ARRAY a z
    let ht := Z_ARR (a.load z)
    match zend_hash_next_index_insert (a.heap.arrays ht) .null with
    | none => (a, .error .SlotOccupied)
    | some (t, h) =>
        ({ a with heap := a.heap.setArray ht t }, .ok (placement_construct (.bucket ht (.idx h))))

/-- Translation of `Array::operator[](zend_long idx)`, the spec's `at` with an integer
key. -/
def Array.at_long (a : Array) (idx : Int) : Array × Except Error ZvalPtr :=
  match derefAndCheck a .m_z with
  | .error e => (a, .error e)
  | .ok z =>
    let a := SEPARATE_ARRAY a z
    let h := toUlong idx
    let ht := Z_ARR (a.load z)
    match zend_hash_index_find (a.heap.arrays ht) h with
    | some _ => (a, .ok (placement_construct (.bucket ht (.idx h))))
    | none =>
        ({ a with heap := a.heap.setArray ht (zend_hash_index_add_new (a.heap.arrays ht) h .null) },
         .ok (placement_construct (.bucket ht (.idx h))))

/-- Translation of `Array::operator[](zend_string* key)`, the spec's `at` with a string
key. -/
def Array.at_string (a : Array) (key : List Nat) : Array × Except Error ZvalPtr :=
  match ZEND_HANDLE_NUMERIC key with
  | some hval => a.at_long (toLong hval)
  | none =>
    match derefAndCheck a .m_z with
    | .error e => (a, .error e)
    | .ok z =>
      let a := SEPARATE_ARRAY a z
      let ht := Z_ARR (a.load z)
      match zend_hash_find (a.heap.arrays ht) key with
      | some (.indirect c) =>
          if a.heap.cells c = .undef then
            ({ a with heap := a.heap.setCell c .null }, .ok (placement_construct (.cell c)))
          else (a, .ok (placement_construct (.cell c)))
      | some _ => (a, .ok (placement_construct (.bucket ht (.str key))))
      | none =>
          ({ a with heap := a.heap.setArray ht (zend_hash_add_new (a.heap.arrays ht) key .null) },
           .ok (placement_construct (.bucket ht (.str key))))

/-- Translation of `Array::size()`. -/
def Array.size (a : Array) : Except Error Nat :=
  match derefAndCheck a .m_z with
  | .error e => .error e
  | .ok z => .ok (zend_hash_num_elements (a.heap.arrays (Z_ARR (a.load z))))

/-- Translation of `Array::contains(zend_long idx)`. -/
def Array.contains_long (a : Array) (idx : Int) : Except Error Bool :=
  match derefAndCheck a .m_z with
  | .error e => .error e
  | .ok z => .ok (zend_hash_index_exists (a.heap.arrays (Z_ARR (a.load z))) (toUlong idx))

/-- Translation of `Array::contains(zend_string* key)`. -/
def Array.contains_string (a : Array) (key : List Nat) : Except Error Bool :=
  match ZEND_HANDLE_NUMERIC key with
  | some hval => a.contains_long (toLong hval)
  | none =>
    match derefAndCheck a .m_z with
    | .error e => .error e
    | .ok z => .ok (zend_hash_exists (a.heap.arrays (Z_ARR (a.load z))) key)

/-- Translation of `Array::unset(zend_long idx)`. -/
def Array.unset_long (a : Array) (idx : Int) : Array × Except Error Unit :=
  match derefAndCheck a .m_z with
  | .error e => (a, .error e)
  | .ok z =>
    let a := SEPARATE_ARRAY a z
    let ht := Z_ARR (a.load z)
    ({ a with heap := a.heap.setArray ht (zend_hash_index_del (a.heap.arrays ht) (toUlong idx)) },
     .ok ())

/-- Translation of `Array::unset(zend_string* key)`. -/
def Array.unset_string (a : Array) (key : List Nat) : Array × Except Error Unit :=
  match ZEND_HANDLE_NUMERIC key with
  | some hval => a.unset_long (toLong hval)
  | none =>
    match derefAndCheck a .m_z with
    | .error e => (a, .error e)
    | .ok z =>
      let a := SEPARATE_ARRAY a z
      let ht := Z_ARR (a.load z)
      if ht = a.heap.symbol_table then
        ({ a with heap := zend_delete_global_variable a.heap key }, .ok ())
      else
        ({ a with heap := a.heap.setArray ht (zend_hash_del (a.heap.arrays ht) key) }, .ok ())

/-- The `while (true)` loop of `Array::operator[](const Value& key)`.  `z` is the value
the local `zval* z` points to.  Each turn of the loop takes one unit of fuel; `none`
means that the fuel ran out with the loop still running.  `zend_dval_to_lval` is the
engine's conversion of a double (given by its bits) to a `zend_long`, a parameter. -/
def Array.at_value_loop (zend_dval_to_lval : Nat → Int) (a : Array) (key : Zval) :
    Nat → Zval → Option (Array × Except Error ZvalPtr)
  | 0, _ => none
  | fuel + 1, z =>
    match Value.type key with
    | .String => some (a.at_string (Z_STR key))
    | .Integer => some (a.at_long (Z_LVAL a.m_z))
    | .Double => some (a.at_long (zend_dval_to_lval (Z_DVAL a.m_z)))
    | .True => some (a.at_long 1)
    | .False => some (a.at_long 0)
    | .Resource => some (a.at_long (Z_RES_HANDLE z))
    | .Undefined => some (a.at_string ZSTR_EMPTY_ALLOC)
    | .Null => some (a.at_string ZSTR_EMPTY_ALLOC)
    | .Reference => Array.at_value_loop zend_dval_to_lval a key fuel (Z_REFVAL a.heap z)
    | _ => some (a, .error .IllegalKeyType)

/-- Translation of `Array::operator[](const Value& key)`: `zval* z = &key.m_z`, then
the loop. -/
def Array.at_value (zend_dval_to_lval : Nat → Int) (a : Array) (key : Zval) (fuel : Nat) :
    Option (Array × Except Error ZvalPtr) :=
  Array.at_value_loop zend_dval_to_lval a key fuel key

/-- The `while (true)` loop of `Array::contains(const Value& key)`. -/
def Array.contains_value_loop (zend_dval_to_lval : Nat → Int) (a : Array) (key : Zval) :
    Nat → Zval → Option (Except Error Bool)
  | 0, _ => none
  | fuel + 1, z =>
    match Value.type key with
    | .String => some (a.contains_string (Z_STR key))
    | .Integer => some (a.contains_long (Z_LVAL a.m_z))
    | .Double => some (a.contains_long (zend_dval_to_lval (Z_DVAL a.m_z)))
    | .True => some (a.contains_long 1)
    | .False => some (a.contains_long 0)
    | .Resource => some (a.contains_long (Z_RES_HANDLE z))
    | .Undefined => some (a.contains_string ZSTR_EMPTY_ALLOC)
    | .Null => some (a.contains_string ZSTR_EMPTY_ALLOC)
    | .Reference => Array.contains_value_loop zend_dval_to_lval a key fuel (Z_REFVAL a.heap z)
    | _ => some (.error .IllegalKeyType)

/-- Translation of `Array::contains(const Value& key)`. -/
def Array.contains_value (zend_dval_to_lval : Nat → Int) (a : Array) (key : Zval)
    (fuel : Nat) : Option (Except Error Bool) :=
  Array.contains_value_loop zend_dval_to_lval a key fuel key

/-- The `while (true)` loop of `Array::unset(const Value& key)`. -/
def Array.unset_value_loop (zend_dval_to_lval : Nat → Int) (a : Array) (key : Zval) :
    Nat → Zval → Option (Array × Except Error Unit)
  | 0, _ => none
  | fuel + 1, z =>
    match Value.type key with
    | .String => some (a.unset_string (Z_STR key))
    | .Integer => some (a.unset_long (Z_LVAL a.m_z))
    | .Double => some (a.unset_long (zend_dval_to_lval (Z_DVAL a.m_z)))
    | .True => some (a.unset_long 1)
    | .False => some (a.unset_long 0)
    | .Resource => some (a.unset_long (Z_RES_HANDLE z))
    | .Undefined => some (a.unset_string ZSTR_EMPTY_ALLOC)
    | .Null => some (a.unset_string ZSTR_EMPTY_ALLOC)
    | .Reference => Array.unset_value_loop zend_dval_to_lval a key fuel (Z_REFVAL a.heap z)
    | _ => some (a, .error .IllegalKeyType)

/-- Translation of `Array::unset(const Value& key)`. -/
def Array.unset_value (zend_dval_to_lval : Nat → Int) (a : Array) (key : Zval) (fuel : Nat) :
    Option (Array × Except Error Unit) :=
  Array.unset_value_loop zend_dval_to_lval a key fuel key

/-! ## Observing an Array -/

/-- Modelled from the spec: assigning a value through the mutable handle that `at` or
`append` returned (`Value::operator=`, declared in `value.h`, not among the sources)
stores the value in the slot the handle refers to.  After a failed call nothing is
stored. -/
def writeThrough (r : Array × Except Error ZvalPtr) (v : Zval) : Array :=
  match r.2 with
  | .ok p => r.1.store p v
  | .error _ => r.1

/-- Reading through the handle that `at` or `append` returned: the value of the slot
the handle refers to, or the failure of the call. -/
def readThrough (r : Array × Except Error ZvalPtr) : Except Error Zval :=
  match r.2 with
  | .ok p => .ok (r.1.load p)
  | .error e => .error e

/-- The table an Array currently works on: the table `derefAndCheck` leads to (an
empty table when the Array is not array-shaped). -/
def Array.storage (a : Array) : zend_array :=
  match derefAndCheck a .m_z with
  | .ok z => a.heap.arrays (Z_ARR (a.load z))
  | .error _ => ⟨0, [], 0⟩

/-- An Array is array-shaped when `derefAndCheck` accepts its `m_z`: the value is an
array, directly or behind one reference. -/
def Array.isArray (a : Array) : Bool :=
  match derefAndCheck a .m_z with
  | .ok _ => true
  | .error _ => false

/-- The Array reaches the table at address `t` through the pointer `z` that
`derefAndCheck` yields. -/
def Array.PointsTo (a : Array) (z : ZvalPtr) (t : Nat) : Prop :=
  derefAndCheck a .m_z = .ok z ∧ a.load z = .array t

/-- The spec's canonical integer string, in its own words: the exact decimal text of
some in-range signed 64-bit integer (no leading zero except "0", no leading '+'). -/
def IsCanonicalIntString (s : List Nat) : Prop :=
  ∃ n : Int, ZEND_LONG_MIN ≤ n ∧ n ≤ ZEND_LONG_MAX ∧ s = decimal n

/-- The writes of the spec: `at` and `unset` with an integer or a string key, and
`append`. -/
inductive WriteOp where
  | at_long (idx : Int)
  | at_string (key : List Nat)
  | append
  | unset_long (idx : Int)
  | unset_string (key : List Nat)
  deriving DecidableEq, Repr

/-- The Array after a write, whether the call returned or threw. -/
def Array.apply (a : Array) : WriteOp → Array
  | .at_long idx => (a.at_long idx).1
  | .at_string key => (a.at_string key).1
  | .append => a.append.1
  | .unset_long idx => (a.unset_long idx).1
  | .unset_string key => (a.unset_string key).1

/-- The Array after a sequence of writes. -/
def Array.run (a : Array) (ops : List WriteOp) : Array := ops.foldl Array.apply a

/-- What `at` reads for a slot: a slot that is absent is created holding NULL, an
INDIRECT slot of a string key yields its cell (NULL when the cell is UNDEF), any other
slot yields its value. -/
def readSlot (cells : Nat → Zval) : Option Zval → Zval
  | none => .null
  | some (.indirect c) => if cells c = .undef then .null else cells c
  | some v => v

/-- Two Arrays show the same to a caller: equal size, equal `contains` and equal value
read by `at`, for every integer and every string key. -/
def Array.SameView (a b : Array) : Prop :=
  a.size = b.size ∧
  (∀ n : Int, a.contains_long n = b.contains_long n) ∧
  (∀ s : List Nat, a.contains_string s = b.contains_string s) ∧
  (∀ n : Int, readThrough (a.at_long n) = readThrough (b.at_long n)) ∧
  (∀ s : List Nat, readThrough (a.at_string s) = readThrough (b.at_string s))

/-- The spec's formula for the index `append` inserts at: one more than the largest
non-negative integer key present in the table, 0 when there is none. -/
def specAppendIndex (ht : zend_array) : Int :=
  (ht.arData.filterMap (fun b =>
    match b.key with
    | .idx h => if 0 ≤ toLong h then some (toLong h + 1) else none
    | .str _ => none)).foldl max 0

/-- The next free index after an insertion at integer key `k`, as
`zend_hash_index_add_new` updates it. -/
def bump (nf k : Int) : Int :=
  if k ≥ nf then (if k < ZEND_LONG_MAX then k + 1 else ZEND_LONG_MAX) else nf

/-- How one write moves the next free index: `at` with an integer key (or a canonical
integer string) bumps it by that key, `append` by the index itself, `unset` leaves
it. -/
def nextFreeStep (nf : Int) : WriteOp → Int
  | .at_long idx => bump nf (toLong (toUlong idx))
  | .at_string key =>
      match ZEND_HANDLE_NUMERIC key with
      | some hval => bump nf (toLong hval)
      | none => nf
  | .append => bump nf nf
  | .unset_long _ => nf
  | .unset_string _ => nf

/-- The next free index of a new array after a sequence of writes, computed from the
writes alone: one more than the largest non-negative integer key inserted so far
(`ZEND_LONG_MAX` at most), 0 if there was none, whether or not the key is still
present. -/
def nextFree (ops : List WriteOp) : Int := ops.foldl nextFreeStep 0

/-- A key as a caller passes it to `at`: an integer (`zend_long`) or a string. -/
inductive KeyArg where
  | int (n : Int)
  | str (s : List Nat)
  deriving DecidableEq, Repr

/-- `at` with an integer or a string key: `operator[](zend_long)` or
`operator[](zend_string*)`. -/
def Array.at_key (a : Array) : KeyArg → Array × Except Error ZvalPtr
  | .int n => a.at_long n
  | .str s => a.at_string s

/-- The bucket key under which `at`, `contains` and `unset` look a caller's key up: an
integer is cast to `zend_ulong`, a numeric string goes the way of its integer, any other
string is itself. -/
def KeyArg.canon : KeyArg → Key
  | .int n => .idx (toUlong n)
  | .str s =>
      match ZEND_HANDLE_NUMERIC s with
      | some hval => .idx (toUlong (toLong hval))
      | none => .str s

/-- `contains` with an integer or a string key. -/
def Array.contains_key (a : Array) : KeyArg → Except Error Bool
  | .int n => a.contains_long n
  | .str s => a.contains_string s

/-- `unset` with an integer or a string key. -/
def Array.unset_key (a : Array) : KeyArg → Array × Except Error Unit
  | .int n => a.unset_long n
  | .str s => a.unset_string s

/-- The Array after `at(key)` for each key of a sequence, in order. -/
def Array.insertAll (a : Array) (keys : List KeyArg) : Array :=
  keys.foldl (fun b k => (b.at_key k).1) a

/-- The keys of a table, in insertion order. -/
def zend_array.keys (ht : zend_array) : List Key := ht.arData.map (·.key)

/-- The value an Array holds for a key: the value of the slot, NULL for a slot that
is not there (a slot `at` would create); for a string key that is not numeric an
INDIRECT slot stands for the cell it points to, an UNDEF cell reading as NULL. -/
def Array.valueOf (a : Array) (k : KeyArg) : Zval :=
  match k.canon with
  | .idx h => (a.storage.lookup (.idx h)).getD .null
  | .str s => readSlot a.heap.cells (a.storage.lookup (.str s))

/-- The address of the table an Array currently reaches (0 when the Array is not
array-shaped). -/
def Array.tableAddr (a : Array) : Nat :=
  match derefAndCheck a .m_z with
  | .ok z => Z_ARR (a.load z)
  | .error _ => 0

/-- Invariant of the tables that `at`, `append` and `unset` build from a new array:
`nNextFreeElement` lies between 0 and `ZEND_LONG_MAX`, every integer key is a
`zend_ulong`, and an insertion at a key that is present would not move
`nNextFreeElement` (the key is below it, or both are `ZEND_LONG_MAX`). -/
def TableInv (T : zend_array) : Prop :=
  0 ≤ T.nNextFreeElement ∧ T.nNextFreeElement ≤ ZEND_LONG_MAX ∧
  ∀ h, Key.idx h ∈ T.keys → h < 2 ^ 64 ∧ bump T.nNextFreeElement (toLong h) = T.nNextFreeElement

/-- A heap in which nothing is allocated yet; `EG(symbol_table)` is at address 0 and
the first fresh table is at address 1. -/
def Heap.empty : Heap :=
  { arrays := fun _ => ⟨1, [], 0⟩
    refs := fun _ => ⟨0, .undef⟩
    cells := fun _ => .undef
    next_array := 1
    next_ref := 0
    symbol_table := 0 }

/-- The spec's scenario `a.append(10)`, `a.append(20)`, `a.at("x") = 30` on a new
array. -/
def exampleScenario : Array :=
  writeThrough
    ((writeThrough (writeThrough (Array.new Heap.empty).append (.long 10)).append
      (.long 20)).at_string (bytes "x"))
    (.long 30)

/-- A heap whose `EG(symbol_table)` (address 0) holds one binding: the INDIRECT slot "x"
pointing to cell 0, which holds the integer 1. -/
def globalsHeap : Heap :=
  { Heap.empty with
    arrays := Function.update Heap.empty.arrays 0 ⟨1, [⟨.str (bytes "x"), .indirect 0⟩], 0⟩
    cells := Function.update Heap.empty.cells 0 (.long 1) }

/-- An Array on the variable-binding table, constructed by `Array(zval*)` from the array
value that points to `EG(symbol_table)`. -/
def exampleGlobals : Array :=
  (Array.fromZval (fun h z => (h, z)) globalsHeap (.array globalsHeap.symbol_table)).1

/-- The Array after a call of `contains` with an integer or string key, with the result.
`contains` is a `const` member without any store: `derefAndCheck` moves only its local
pointer and `zend_hash_index_exists` / `zend_hash_exists` only read.  The Array and the
heap after the call are those before it. -/
def Array.contains_call (a : Array) (k : KeyArg) : Array × Except Error Bool :=
  (a, a.contains_key k)

/-- The Array after a call of `contains(const Value&)`, with the result; `none` while the
loop is still running. -/
def Array.contains_value_call (zend_dval_to_lval : Nat → Int) (a : Array) (key : Zval)
    (fuel : Nat) : Option (Array × Except Error Bool) :=
  (a.contains_value zend_dval_to_lval key fuel).map (fun r => (a, r))

/-- The outcome of a write, without the handle. -/
def Array.applyResult (a : Array) : WriteOp → Except Error Unit
  | .at_long idx => (a.at_long idx).2.map (fun _ => ())
  | .at_string key => (a.at_string key).2.map (fun _ => ())
  | .append => a.append.2.map (fun _ => ())
  | .unset_long idx => (a.unset_long idx).2
  | .unset_string key => (a.unset_string key).2

/-- A heap whose `EG(symbol_table)` (address 0) holds an INDIRECT slot under the integer
key 5, pointing to cell 0, which is UNDEF. -/
def indirectIndexHeap : Heap :=
  { Heap.empty with
    arrays := Function.update Heap.empty.arrays 0 ⟨1, [⟨.idx 5, .indirect 0⟩], 6⟩ }

/-- An Array on the table of `indirectIndexHeap`, constructed by `Array(zval*)`. -/
def exampleIndirectIndex : Array :=
  (Array.fromZval (fun h z => (h, z)) indirectIndexHeap
    (.array indirectIndexHeap.symbol_table)).1

/-- The engine routines that `unset` calls to delete an entry: `zend_hash_index_del(ht, h)`,
`zend_hash_del(ht, key)` and `zend_delete_global_variable(key)`. -/
inductive DeleteRoutine where
  | hash_index_del (ht : Nat) (h : Nat)
  | hash_del (ht : Nat) (key : List Nat)
  | delete_global_variable (key : List Nat)
  deriving DecidableEq, Repr

/-- The heap after a call of the routine. -/
def DeleteRoutine.run (h : Heap) : DeleteRoutine → Heap
  | .hash_index_del ht k => h.setArray ht (zend_hash_index_del (h.arrays ht) k)
  | .hash_del ht key => h.setArray ht (zend_hash_del (h.arrays ht) key)
  | .delete_global_variable key => zend_delete_global_variable h key

/-- The control flow of `Array::unset(zend_long idx)` up to its engine call: the Array
after `SEPARATE_ARRAY` and the call that is made. -/
def Array.unset_long_call (a : Array) (idx : Int) : Array × Except Error DeleteRoutine :=
  match derefAndCheck a .m_z with
  | .error e => (a, .error e)
  | .ok z =>
    let a := SEPARATE_ARRAY a z
    (a, .ok (.hash_index_del (Z_ARR (a.load z)) (toUlong idx)))

/-- The control flow of `Array::unset(zend_string* key)` up to its engine call: the Array
after `SEPARATE_ARRAY` and the call that is made. -/
def Array.unset_string_call (a : Array) (key : List Nat) :
    Array × Except Error DeleteRoutine :=
  match ZEND_HANDLE_NUMERIC key with
  | some hval => a.unset_long_call (toLong hval)
  | none =>
    match derefAndCheck a .m_z with
    | .error e => (a, .error e)
    | .ok z =>
      let a := SEPARATE_ARRAY a z
      let ht := Z_ARR (a.load z)
      if ht = a.heap.symbol_table then (a, .ok (.delete_global_variable key))
      else (a, .ok (.hash_del ht key))

/-- The engine call of `unset` with an integer or a string key. -/
def Array.unset_call (a : Array) : KeyArg → Array × Except Error DeleteRoutine
  | .int n => a.unset_long_call n
  | .str s => a.unset_string_call s

/-! ## The class `Function`

The argument list of `src/phpcxx/function.cpp`. -/

/-- Engine structure `zend_internal_arg_info` (PHP 7.0): one entry of an argument list.
Entry 0 of a list describes the return value. -/
structure zend_internal_arg_info where
  name : List Nat
  class_name : Option (List Nat)
  type_hint : Nat
  pass_by_reference : Nat
  allow_null : Bool
  is_variadic : Bool
  deriving DecidableEq, Repr

/-- Library function `std::vector::insert(pos, value)` with `pos = begin() + i`: the value
is placed before the element at index `i`.  An index past the end is undefined
behaviour, here `none`. -/
def vector_insert {α : Type} (v : List α) (pos : Nat) (x : α) : Option (List α) :=
  if pos ≤ v.length then some (v.take pos ++ x :: v.drop pos) else none

/-- The members of `FunctionPrivate` (the object behind `d_ptr`; the class is declared in
`function_p.h`) that `function.cpp` reads and writes: `m_fe.num_args` (a `uint32_t`),
what `m_fe.arg_info` points to, and the vector `m_arginfo`. -/
structure FunctionPrivate where
  num_args : Nat
  arg_info : List zend_internal_arg_info
  m_arginfo : List zend_internal_arg_info
  deriving DecidableEq, Repr

/-- Translation of `Function::addRequiredArgument(const Argument& arg)`; `arg` is the
entry `arg.get()`.  The index `begin() + nreq + 1` is computed on iterators, so it does
not wrap; `++nreq` is computed on a `uint32_t`. -/
def Function.addRequiredArgument (d : FunctionPrivate) (arg : zend_internal_arg_info) :
    Option FunctionPrivate :=
  match vector_insert d.m_arginfo (d.num_args + 1) arg with
  | none => none
  | some args => some { num_args := (d.num_args + 1) % 2 ^ 32, arg_info := args, m_arginfo := args }

/-- Translation of `Function::addOptionalArgument(const Argument& arg)`. -/
def Function.addOptionalArgument (d : FunctionPrivate) (arg : zend_internal_arg_info) :
    FunctionPrivate :=
  { d with m_arginfo := d.m_arginfo ++ [arg], arg_info := d.m_arginfo ++ [arg] }

/-- A call that adds an argument. -/
inductive ArgumentOp where
  | required (arg : zend_internal_arg_info)
  | optional (arg : zend_internal_arg_info)
  deriving DecidableEq, Repr

/-- A sequence of calls of `addRequiredArgument` and `addOptionalArgument`, in order. -/
def Function.addArguments (d : FunctionPrivate) : List ArgumentOp → Option FunctionPrivate
  | [] => some d
  | .required arg :: ops =>
      match Function.addRequiredArgument d arg with
      | none => none
      | some d1 => Function.addArguments d1 ops
  | .optional arg :: ops => Function.addArguments (Function.addOptionalArgument d arg) ops

/-- The arguments a sequence of calls adds as required, in call order. -/
def requiredArguments : List ArgumentOp → List zend_internal_arg_info
  | [] => []
  | .required arg :: ops => arg :: requiredArguments ops
  | .optional _ :: ops => requiredArguments ops

/-- The arguments a sequence of calls adds as optional, in call order. -/
def optionalArguments : List ArgumentOp → List zend_internal_arg_info
  | [] => []
  | .required _ :: ops => optionalArguments ops
  | .optional arg :: ops => arg :: optionalArguments ops

/-- An argument entry named by a string, without type hint. -/
def exampleArgument (name : String) : zend_internal_arg_info :=
  ⟨bytes name, none, 0, 0, false, false⟩

/-- A function with one required argument "a" and one optional argument "z". -/
def exampleFunction : FunctionPrivate :=
  ⟨1, [exampleArgument "", exampleArgument "a", exampleArgument "z"],
   [exampleArgument "", exampleArgument "a", exampleArgument "z"]⟩

/-- A function whose `4294967295` arguments are all required: `num_args` is the largest
`uint32_t`. -/
def fullFunction : FunctionPrivate :=
  ⟨4294967295, List.replicate 4294967296 (exampleArgument ""),
   List.replicate 4294967296 (exampleArgument "")⟩

/-- The control flow of `Array::unset(const Value& key)` up to the engine call: the loop
of `unset_value_loop`, with each overload replaced by its control flow up to the engine
call. -/
def Array.unset_value_call_loop (zend_dval_to_lval : Nat → Int) (a : Array) (key : Zval) :
    Nat → Zval → Option (Array × Except Error DeleteRoutine)
  | 0, _ => none
  | fuel + 1, z =>
    match Value.type key with
    | .String => some (a.unset_string_call (Z_STR key))
    | .Integer => some (a.unset_long_call (Z_LVAL a.m_z))
    | .Double => some (a.unset_long_call (zend_dval_to_lval (Z_DVAL a.m_z)))
    | .True => some (a.unset_long_call 1)
    | .False => some (a.unset_long_call 0)
    | .Resource => some (a.unset_long_call (Z_RES_HANDLE z))
    | .Undefined => some (a.unset_string_call ZSTR_EMPTY_ALLOC)
    | .Null => some (a.unset_string_call ZSTR_EMPTY_ALLOC)
    | .Reference =>
        Array.unset_value_call_loop zend_dval_to_lval a key fuel (Z_REFVAL a.heap z)
    | _ => some (a, .error .IllegalKeyType)

/-- The engine call of `unset` with a `Value` key; `none` while the loop is still
running. -/
def Array.unset_value_call (zend_dval_to_lval : Nat → Int) (a : Array) (key : Zval)
    (fuel : Nat) : Option (Array × Except Error DeleteRoutine) :=
  Array.unset_value_call_loop zend_dval_to_lval a key fuel key

/-- Value of a sequence of decimal digits read after an accumulator, as the digit loop
computes it without the reduction modulo `2 ^ 64`. -/
def digitsValue (acc : Nat) (ds : List Nat) : Nat := ds.foldl (fun a d => a * 10 + d) acc

deriving instance DecidableEq for Except

/-! ## Casts and the numeric-string test -/


theorem toLong_toUlong (n : Int) (h1 : -9223372036854775808 ≤ n) (h2 : n ≤ 9223372036854775807) :
    toLong (toUlong n) = n := by
  unfold toLong toUlong
  split <;> omega

theorem toUlong_toLong (h : Nat) (hh : h < 2 ^ 64) : toUlong (toLong h) = h := by
  unfold toLong toUlong
  split <;> omega

theorem toUlong_lt (n : Int) : toUlong n < 2 ^ 64 := by
  unfold toUlong
  omega

theorem digitsValue_reverse (L : List Nat) : digitsValue 0 L.reverse = Nat.ofDigits 10 L := by
  induction L with
  | nil => simp [digitsValue]
  | cons a L ih =>
    unfold digitsValue at ih ⊢
    rw [List.reverse_cons, List.foldl_append, ih, Nat.ofDigits_cons]
    simp [List.foldl]
    ring

theorem le_digitsValue (ds : List Nat) : ∀ acc, acc ≤ digitsValue acc ds := by
  induction ds with
  | nil => intro acc; simp [digitsValue]
  | cons d ds ih =>
    intro acc
    have := ih (acc * 10 + d)
    simp only [digitsValue, List.foldl_cons] at this ⊢
    omega

theorem numericLoop_digits (neg : Bool) (ds : List Nat) :
    ∀ idx, (∀ d ∈ ds, d < 10) → digitsValue idx ds < 2 ^ 64 →
      numericLoop neg (ds.map (· + 48)) idx = numericLoop neg [] (digitsValue idx ds) := by
  induction ds with
  | nil => intro idx _ _; simp [digitsValue]
  | cons d ds ih =>
    intro idx hd hv
    have hd0 : d < 10 := hd d (List.mem_cons_self _ _)
    have hv' : digitsValue (idx * 10 + d) ds < 2 ^ 64 := by
      simpa [digitsValue] using hv
    have hle := le_digitsValue ds (idx * 10 + d)
    have hmod : (idx * 10 + (d + 48 - 48)) % 2 ^ 64 = idx * 10 + d := by
      rw [Nat.add_sub_cancel]; exact Nat.mod_eq_of_lt (by omega)
    simp only [List.map_cons, numericLoop]
    rw [if_pos (by omega), hmod]
    rw [ih _ (fun x hx => hd x (List.mem_cons_of_mem _ hx)) hv']
    rfl


theorem numericLoop_nil_nonneg (m : Nat) (h : m ≤ 9223372036854775807) :
    numericLoop false [] m = some m := by
  simp only [numericLoop]
  rw [if_neg (by simp), if_neg (by omega)]

theorem numericLoop_nil_neg (m : Nat) (h0 : 0 < m) (h : m ≤ 9223372036854775808) :
    numericLoop true [] m = some (2 ^ 64 - m) := by
  simp only [numericLoop, if_true]
  rw [if_neg (by omega)]
  congr 1
  omega

/-- The digits of a positive number, most significant first. -/
theorem digits_reverse_cons (m : Nat) (hm : 0 < m) :
    ∃ d0 ds, (Nat.digits 10 m).reverse = d0 :: ds ∧ 0 < d0 ∧ d0 < 10 ∧ (∀ d ∈ ds, d < 10) ∧
      digitsValue d0 ds = m ∧ (d0 :: ds).length = (Nat.digits 10 m).length := by
  have hne : Nat.digits 10 m ≠ [] := Nat.digits_ne_nil_iff_ne_zero.mpr (by omega)
  have hlast := Nat.getLast_digit_ne_zero 10 (m := m) (by omega)
  have hlt : ∀ d ∈ Nat.digits 10 m, d < 10 := fun d hd => Nat.digits_lt_base (by norm_num) hd
  have hval := digitsValue_reverse (Nat.digits 10 m)
  rw [Nat.ofDigits_digits] at hval
  cases hrev : (Nat.digits 10 m).reverse with
  | nil => simp at hrev; exact absurd hrev hne
  | cons d0 ds =>
    have hmem : ∀ d ∈ d0 :: ds, d < 10 := by
      intro d hd
      rw [← hrev] at hd
      exact hlt d (List.mem_reverse.mp hd)
    have hd0 : d0 = (Nat.digits 10 m).getLast hne := by
      have : (Nat.digits 10 m).reverse.head? = some d0 := by rw [hrev]; rfl
      rw [List.head?_reverse, List.getLast?_eq_getLast _ hne] at this
      exact (Option.some.inj this).symm
    refine ⟨d0, ds, rfl, ?_, hmem d0 (List.mem_cons_self _ _),
      fun d hd => hmem d (List.mem_cons_of_mem _ hd), ?_, ?_⟩
    · rw [hd0]; exact Nat.pos_of_ne_zero hlast
    · rw [hrev] at hval
      simpa [digitsValue] using hval
    · rw [← hrev, List.length_reverse]

theorem digits_length_le (m : Nat) (h : m ≤ 9223372036854775808) :
    (Nat.digits 10 m).length ≤ 19 := by
  by_cases hm : m = 0
  · subst hm; simp
  · have h1 := Nat.base_pow_length_digits_le 10 m (by norm_num) hm
    by_contra hlen
    have h2 : 10 ^ 20 ≤ 10 ^ (Nat.digits 10 m).length :=
      Nat.pow_le_pow_right (by norm_num) (by omega)
    have h3 : (10 : Nat) ^ 20 = 100000000000000000000 := by norm_num
    omega


theorem handle_numeric_pos (c0 : Nat) (cs : List Nat) (h1 : 49 ≤ c0) (h2 : c0 ≤ 57)
    (hlen : cs.length + 1 ≤ 19) :
    ZEND_HANDLE_NUMERIC (c0 :: cs) = numericLoop false cs (c0 - 48) := by
  have e1 : ¬ c0 > 57 := by omega
  have e2 : ¬ c0 < 48 := by omega
  have e3 : ¬ c0 = 45 := by omega
  have e4 : ¬ c0 = 48 := by omega
  have e5 : ¬ cs.length + 1 > MAX_LENGTH_OF_LONG - 1 := by simp [MAX_LENGTH_OF_LONG]; omega
  simp [ZEND_HANDLE_NUMERIC, zend_handle_numeric_str, zend_handle_numeric_str_ex, e1, e2, e3, e4]
  intro h
  simp [MAX_LENGTH_OF_LONG] at h
  omega

theorem handle_numeric_neg (c0 : Nat) (cs : List Nat) (h1 : 49 ≤ c0) (h2 : c0 ≤ 57)
    (hlen : cs.length + 1 ≤ 19) :
    ZEND_HANDLE_NUMERIC (45 :: c0 :: cs) = numericLoop true cs (c0 - 48) := by
  have e1 : ¬ c0 > 57 := by omega
  have e2 : ¬ c0 < 48 := by omega
  have e4 : ¬ c0 = 48 := by omega
  simp [ZEND_HANDLE_NUMERIC, zend_handle_numeric_str, zend_handle_numeric_str_ex, e1, e2, e4]
  intro h
  simp [MAX_LENGTH_OF_LONG] at h
  omega

/-- The parser accepts the canonical decimal string of every `zend_long` and yields
that number (as `zend_ulong`). -/
theorem handle_numeric_decimal (n : Int) (h1 : -9223372036854775808 ≤ n)
    (h2 : n ≤ 9223372036854775807) : ZEND_HANDLE_NUMERIC (decimal n) = some (toUlong n) := by
  by_cases h0 : n.natAbs = 0
  · have : n = 0 := Int.natAbs_eq_zero.mp h0
    subst this
    decide
  · obtain ⟨d0, ds, hrev, hd0, hd0', hds, hval, hlen⟩ := digits_reverse_cons n.natAbs (by omega)
    have hl := digits_length_le n.natAbs (by omega)
    have hdec : decimalNat n.natAbs = (d0 + 48) :: ds.map (· + 48) := by
      simp [decimalNat, h0, hrev]
    have hlen' : (ds.map (· + 48)).length + 1 ≤ 19 := by
      simp only [List.length_map]; simp only [List.length_cons] at hlen; omega
    by_cases hneg : n < 0
    · rw [decimal, if_pos hneg, hdec, handle_numeric_neg _ _ (by omega) (by omega) hlen',
        Nat.add_sub_cancel, numericLoop_digits _ _ _ hds (by rw [hval]; omega), hval,
        numericLoop_nil_neg _ (by omega) (by omega)]
      congr 1
      unfold toUlong
      omega
    · rw [decimal, if_neg hneg, hdec, handle_numeric_pos _ _ (by omega) (by omega) hlen',
        Nat.add_sub_cancel, numericLoop_digits _ _ _ hds (by rw [hval]; omega), hval,
        numericLoop_nil_nonneg _ (by omega)]
      congr 1
      unfold toUlong
      omega


theorem numericLoop_some_digits (neg : Bool) (cs : List Nat) :
    ∀ idx h, numericLoop neg cs idx = some h →
      ∃ ds : List Nat, cs = ds.map (· + 48) ∧ ∀ d ∈ ds, d < 10 := by
  induction cs with
  | nil => intro _ _ _; exact ⟨[], rfl, by simp⟩
  | cons c cs ih =>
    intro idx h hh
    simp only [numericLoop] at hh
    by_cases hc : 48 ≤ c ∧ c ≤ 57
    · rw [if_pos hc] at hh
      obtain ⟨ds, hds, hlt⟩ := ih _ _ hh
      refine ⟨(c - 48) :: ds, ?_, ?_⟩
      · simp only [List.map_cons, ← hds]
        congr 1
        omega
      · intro d hd
        rcases List.mem_cons.mp hd with rfl | hd
        · omega
        · exact hlt d hd
    · rw [if_neg hc] at hh
      exact absurd hh (by simp)

theorem digitsValue_lt (d0 : Nat) (ds : List Nat) (hd0 : d0 < 10) (hds : ∀ d ∈ ds, d < 10) :
    digitsValue d0 ds < 10 ^ (ds.length + 1) := by
  have h := digitsValue_reverse (d0 :: ds).reverse
  rw [List.reverse_reverse] at h
  have h' : digitsValue 0 (d0 :: ds) = digitsValue d0 ds := by simp [digitsValue]
  rw [← h', h]
  have := Nat.ofDigits_lt_base_pow_length (b := 10) (l := (d0 :: ds).reverse) (by norm_num)
    (by
      intro x hx
      rcases List.mem_cons.mp (List.mem_reverse.mp hx) with rfl | hx
      · exact hd0
      · exact hds x hx)
  simpa using this

theorem digits_digitsValue (d0 : Nat) (ds : List Nat) (h0 : 0 < d0) (hd0 : d0 < 10)
    (hds : ∀ d ∈ ds, d < 10) : (Nat.digits 10 (digitsValue d0 ds)).reverse = d0 :: ds := by
  have h := digitsValue_reverse (d0 :: ds).reverse
  rw [List.reverse_reverse] at h
  have h' : digitsValue 0 (d0 :: ds) = digitsValue d0 ds := by simp [digitsValue]
  rw [← h', h, Nat.digits_ofDigits 10 (by norm_num)]
  · simp
  · intro x hx
    rcases List.mem_cons.mp (List.mem_reverse.mp hx) with rfl | hx
    · exact hd0
    · exact hds x hx
  · intro hne
    simp only [List.reverse_cons, List.getLast_append_singleton] 
    omega

/-- A key the parser accepts, with a first digit from 1 to 9, is the canonical decimal
string of the number it yields. -/
theorem numericLoop_sound (neg : Bool) (c0 : Nat) (cs : List Nat) (h : Nat) (h1 : 49 ≤ c0)
    (h2 : c0 ≤ 57) (hlen : cs.length + 1 ≤ 19) (hh : numericLoop neg cs (c0 - 48) = some h) :
    ∃ m : Nat, 0 < m ∧ c0 :: cs = decimalNat m ∧
      ((neg = false ∧ m ≤ 9223372036854775807 ∧ h = m) ∨
       (neg = true ∧ m ≤ 9223372036854775808 ∧ h = 2 ^ 64 - m)) := by
  obtain ⟨ds, hcs, hds⟩ := numericLoop_some_digits neg cs _ _ hh
  have hd0 : c0 - 48 < 10 := by omega
  have hlt := digitsValue_lt (c0 - 48) ds hd0 hds
  have hlen2 : ds.length + 1 ≤ 19 := by rw [hcs, List.length_map] at hlen; exact hlen
  have hpow : 10 ^ (ds.length + 1) ≤ 10 ^ 19 := Nat.pow_le_pow_right (by norm_num) hlen2
  have h19 : (10 : Nat) ^ 19 = 10000000000000000000 := by norm_num
  have hge := le_digitsValue ds (c0 - 48)
  rw [hcs, numericLoop_digits neg ds _ hds (by omega)] at hh
  have hdig := digits_digitsValue (c0 - 48) ds (by omega) hd0 hds
  refine ⟨digitsValue (c0 - 48) ds, by omega, ?_, ?_⟩
  · have hne : digitsValue (c0 - 48) ds ≠ 0 := by omega
    simp only [decimalNat, hne, if_false, hdig, hcs, List.map_cons]
    congr 1
    omega
  · cases neg with
    | false =>
      left
      simp only [numericLoop, Bool.false_eq_true, if_false] at hh
      by_cases hm : digitsValue (c0 - 48) ds > 9223372036854775807
      · rw [if_pos hm] at hh; exact absurd hh (by simp)
      · rw [if_neg hm] at hh
        exact ⟨rfl, by omega, (Option.some.inj hh).symm⟩
    | true =>
      right
      simp only [numericLoop, if_true] at hh
      by_cases hm : (digitsValue (c0 - 48) ds + 2 ^ 64 - 1) % 2 ^ 64 > 9223372036854775807
      · rw [if_pos hm] at hh; exact absurd hh (by simp)
      · rw [if_neg hm] at hh
        have := (Option.some.inj hh).symm
        exact ⟨rfl, by omega, by omega⟩


/-- A key the parser accepts is the canonical decimal string of a `zend_long`, and the
parser yields that number. -/
theorem handle_numeric_sound (s : List Nat) (h : Nat) (hh : ZEND_HANDLE_NUMERIC s = some h) :
    ∃ n : Int, -9223372036854775808 ≤ n ∧ n ≤ 9223372036854775807 ∧ s = decimal n ∧
      h = toUlong n := by
  cases s with
  | nil =>
    have e : ZEND_HANDLE_NUMERIC [] = none := by decide
    rw [e] at hh; exact absurd hh (by simp)
  | cons c0 cs =>
    by_cases hc0 : 49 ≤ c0 ∧ c0 ≤ 57
    · by_cases hlen : cs.length + 1 ≤ 19
      · rw [handle_numeric_pos c0 cs hc0.1 hc0.2 hlen] at hh
        obtain ⟨m, hm, hdec, hcase⟩ := numericLoop_sound false c0 cs h hc0.1 hc0.2 hlen hh
        rcases hcase with ⟨_, hle, rfl⟩ | ⟨hf, _, _⟩
        · refine ⟨(h : Int), by omega, by omega, ?_, ?_⟩
          · rw [decimal, if_neg (by omega), hdec]; simp
          · unfold toUlong; omega
        · exact absurd hf (by simp)
      · exfalso
        have e1 : ¬ c0 > 57 := by omega
        have e2 : ¬ c0 < 48 := by omega
        have e3 : ¬ c0 = 45 := by omega
        have e5 : cs.length + 1 > MAX_LENGTH_OF_LONG - 1 := by simp [MAX_LENGTH_OF_LONG]; omega
        simp [ZEND_HANDLE_NUMERIC, zend_handle_numeric_str, zend_handle_numeric_str_ex,
          e1, e2, e3, e5] at hh
    · by_cases h48 : c0 = 48
      · subst h48
        cases cs with
        | nil => 
          have : h = 0 := by
            have e : ZEND_HANDLE_NUMERIC [48] = some 0 := by decide
            rw [e] at hh; exact (Option.some.inj hh).symm
          subst this
          exact ⟨0, by omega, by omega, by decide, by decide⟩
        | cons c1 cs =>
          exfalso
          simp [ZEND_HANDLE_NUMERIC, zend_handle_numeric_str, zend_handle_numeric_str_ex] at hh
      · by_cases h45 : c0 = 45
        · subst h45
          cases cs with
          | nil =>
            have e : ZEND_HANDLE_NUMERIC [45] = none := by decide
            rw [e] at hh; exact absurd hh (by simp)
          | cons c1 cs =>
            by_cases hc1 : 49 ≤ c1 ∧ c1 ≤ 57
            · by_cases hlen : cs.length + 1 ≤ 19
              · rw [handle_numeric_neg c1 cs hc1.1 hc1.2 hlen] at hh
                obtain ⟨m, hm, hdec, hcase⟩ :=
                  numericLoop_sound true c1 cs h hc1.1 hc1.2 hlen hh
                rcases hcase with ⟨hf, _, _⟩ | ⟨_, hle, rfl⟩
                · exact absurd hf (by simp)
                · refine ⟨-(m : Int), by omega, by omega, ?_, ?_⟩
                  · rw [decimal, if_pos (by omega), hdec]; simp
                  · unfold toUlong; omega
              · exfalso
                have e1 : ¬ c1 > 57 := by omega
                have e2 : ¬ c1 < 48 := by omega
                have e5 : cs.length + 1 > MAX_LENGTH_OF_LONG - 1 := by
                  simp [MAX_LENGTH_OF_LONG]; omega
                simp [ZEND_HANDLE_NUMERIC, zend_handle_numeric_str, zend_handle_numeric_str_ex,
                  e1, e2, e5] at hh
            · exfalso
              by_cases e1 : c1 > 57
              · simp [ZEND_HANDLE_NUMERIC, zend_handle_numeric_str, e1] at hh
              · by_cases e2 : c1 < 48
                · simp [ZEND_HANDLE_NUMERIC, zend_handle_numeric_str, e2] at hh
                · have : c1 = 48 := by omega
                  subst this
                  simp [ZEND_HANDLE_NUMERIC, zend_handle_numeric_str,
                    zend_handle_numeric_str_ex] at hh
        · exfalso
          by_cases e1 : c0 > 57
          · simp [ZEND_HANDLE_NUMERIC, zend_handle_numeric_str, e1] at hh
          · have e2 : c0 < 48 := by omega
            simp [ZEND_HANDLE_NUMERIC, zend_handle_numeric_str, e1, e2, h45] at hh


/-! ## Reaching the table -/

theorem derefAndCheck_error (a : Array) (z : ZvalPtr) (e : Error)
    (h : derefAndCheck a z = .error e) : e = .TypeMismatch := by
  simp only [derefAndCheck] at h
  split at h
  · exact absurd h (by simp)
  · exact (Except.error.inj h).symm

theorem derefAndCheck_cases (a : Array) (z : ZvalPtr) (h : derefAndCheck a .m_z = .ok z) :
    (z = .m_z ∧ ∃ t, a.m_z = .array t) ∨
    (∃ r t, z = .refval r ∧ a.m_z = .reference r ∧ (a.heap.refs r).val = .array t) := by
  unfold derefAndCheck at h
  cases hm : a.m_z <;> simp [Array.load, hm] at h
  case array t => exact Or.inl ⟨h.symm, t, rfl⟩
  case reference r =>
    cases hr : (a.heap.refs r).val <;> simp [hr] at h
    case array t => exact Or.inr ⟨r, t, h.symm, rfl, hr⟩

theorem Array.PointsTo.of_isArray (a : Array) (h : a.isArray = true) : ∃ z t, a.PointsTo z t := by
  unfold Array.isArray at h
  cases hd : derefAndCheck a .m_z with
  | error e => rw [hd] at h; exact absurd h (by simp)
  | ok z =>
    rcases derefAndCheck_cases a z hd with ⟨rfl, t, ht⟩ | ⟨r, t, rfl, _, hr⟩
    · exact ⟨_, t, hd, by simp [Array.load, ht]⟩
    · exact ⟨_, t, hd, by simp [Array.load, hr]⟩

theorem Array.PointsTo.isArray {a : Array} {z : ZvalPtr} {t : Nat} (h : a.PointsTo z t) :
    a.isArray = true := by
  simp [Array.isArray, h.1]

theorem Array.PointsTo.storage {a : Array} {z : ZvalPtr} {t : Nat} (h : a.PointsTo z t) :
    a.storage = a.heap.arrays t := by
  simp [Array.storage, h.1, h.2, Z_ARR]

/-- Replacing tables or cells does not change how the Array reaches its table. -/
theorem Array.PointsTo.frame {a : Array} {z : ZvalPtr} {t : Nat} (h : a.PointsTo z t) (b : Array)
    (hm : b.m_z = a.m_z) (hr : b.heap.refs = a.heap.refs) : b.PointsTo z t := by
  obtain ⟨h1, h2⟩ := h
  rcases derefAndCheck_cases a z h1 with ⟨rfl, t', ht⟩ | ⟨r, t', rfl, hmr, hrv⟩
  · simp only [Array.load] at h2
    constructor
    · simp [derefAndCheck, Array.load, hm, ht]
    · simp [Array.load, hm, h2]
  · simp only [Array.load] at h2
    constructor
    · simp [derefAndCheck, Array.load, hm, hmr, hr, hrv]
    · simp [Array.load, hr, h2]


theorem Array.PointsTo.setArray {a : Array} {z : ZvalPtr} {t : Nat} (h : a.PointsTo z t) (t' : Nat)
    (T : zend_array) : Array.PointsTo { a with heap := a.heap.setArray t' T } z t :=
  h.frame _ rfl rfl

theorem Array.PointsTo.setCell {a : Array} {z : ZvalPtr} {t : Nat} (h : a.PointsTo z t) (c : Nat)
    (v : Zval) : Array.PointsTo { a with heap := a.heap.setCell c v } z t :=
  h.frame _ rfl rfl

theorem SEPARATE_ARRAY_unshared {a : Array} {z : ZvalPtr} {t : Nat} (h : a.PointsTo z t)
    (hrc : (a.heap.arrays t).refcount ≤ 1) : SEPARATE_ARRAY a z = a := by
  simp only [SEPARATE_ARRAY, h.2, Z_ARR]
  rw [if_neg (by omega)]

/-- Separation of a shared table: the Array now reaches a duplicate at the first fresh
address; the old table only loses one count. -/
theorem SEPARATE_ARRAY_shared {a : Array} {z : ZvalPtr} {t : Nat} (h : a.PointsTo z t)
    (hrc : 1 < (a.heap.arrays t).refcount) :
    (SEPARATE_ARRAY a z).PointsTo z a.heap.next_array ∧
    (SEPARATE_ARRAY a z).heap.arrays =
      Function.update
        (Function.update a.heap.arrays t
          { a.heap.arrays t with refcount := (a.heap.arrays t).refcount - 1 })
        a.heap.next_array { a.heap.arrays t with refcount := 1 } ∧
    (SEPARATE_ARRAY a z).heap.cells = a.heap.cells ∧
    (SEPARATE_ARRAY a z).heap.symbol_table = a.heap.symbol_table ∧
    (SEPARATE_ARRAY a z).heap.next_array = a.heap.next_array + 1 := by
  obtain ⟨h1, h2⟩ := h
  simp only [SEPARATE_ARRAY, h2, Z_ARR]
  rw [if_pos (by omega)]
  rcases derefAndCheck_cases a z h1 with ⟨rfl, t', ht⟩ | ⟨r, t', rfl, hmr, hrv⟩
  · refine ⟨⟨?_, ?_⟩, ?_, rfl, rfl, rfl⟩
    · simp [derefAndCheck, Array.load, Array.store]
    · simp [Array.load, Array.store, zend_array_dup, Heap.setArray]
    · simp [Array.store, zend_array_dup, Heap.setArray]
  · refine ⟨⟨?_, ?_⟩, ?_, rfl, rfl, rfl⟩
    · simp [derefAndCheck, Array.load, Array.store, hmr, Heap.setRef, zend_array_dup,
        Heap.setArray]
    · simp [Array.load, Array.store, zend_array_dup, Heap.setArray, Heap.setRef]
    · simp [Array.store, zend_array_dup, Heap.setArray, Heap.setRef]

/-- What `SEPARATE_ARRAY` establishes: the Array reaches a table with the same buckets
and the same `nNextFreeElement` whose reference count is at most 1. -/
theorem SEPARATE_ARRAY_spec {a : Array} {z : ZvalPtr} {t : Nat} (h : a.PointsTo z t) :
    ∃ t1 rc, rc ≤ 1 ∧ (SEPARATE_ARRAY a z).PointsTo z t1 ∧
      (SEPARATE_ARRAY a z).heap.arrays t1 = { a.heap.arrays t with refcount := rc } ∧
      (SEPARATE_ARRAY a z).heap.cells = a.heap.cells ∧
      (SEPARATE_ARRAY a z).heap.symbol_table = a.heap.symbol_table ∧
      ((t1 = t ∧ (a.heap.arrays t).refcount ≤ 1) ∨
       (t1 = a.heap.next_array ∧ 1 < (a.heap.arrays t).refcount)) := by
  by_cases hrc : (a.heap.arrays t).refcount ≤ 1
  · rw [SEPARATE_ARRAY_unshared h hrc]
    exact ⟨t, (a.heap.arrays t).refcount, hrc, h, rfl, rfl, rfl, Or.inl ⟨rfl, hrc⟩⟩
  · obtain ⟨hp, ha, hc, hs, _⟩ := SEPARATE_ARRAY_shared h (by omega)
    refine ⟨a.heap.next_array, 1, le_refl _, hp, ?_, hc, hs, Or.inr ⟨rfl, by omega⟩⟩
    rw [ha]
    simp


/-! ## What each member function does to the table -/

theorem size_eq {a : Array} {z : ZvalPtr} {t : Nat} (h : a.PointsTo z t) :
    a.size = .ok (a.heap.arrays t).arData.length := by
  simp [Array.size, h.1, h.2, Z_ARR, zend_hash_num_elements]

theorem contains_long_eq {a : Array} {z : ZvalPtr} {t : Nat} (h : a.PointsTo z t) (idx : Int) :
    a.contains_long idx = .ok ((a.heap.arrays t).lookup (.idx (toUlong idx))).isSome := by
  simp [Array.contains_long, h.1, h.2, Z_ARR, zend_hash_index_exists]

theorem contains_string_eq {a : Array} {z : ZvalPtr} {t : Nat} (h : a.PointsTo z t)
    (key : List Nat) (hk : ZEND_HANDLE_NUMERIC key = none) :
    a.contains_string key = .ok ((a.heap.arrays t).lookup (.str key)).isSome := by
  simp [Array.contains_string, hk, h.1, h.2, Z_ARR, zend_hash_exists]

theorem at_long_spec {a : Array} {z : ZvalPtr} {t : Nat} (h : a.PointsTo z t) (idx : Int) :
    ∃ t1 rc, rc ≤ 1 ∧ (a.at_long idx).2 = .ok (.bucket t1 (.idx (toUlong idx))) ∧
      (a.at_long idx).1.PointsTo z t1 ∧
      (a.at_long idx).1.heap.arrays t1 =
        { (match (a.heap.arrays t).lookup (.idx (toUlong idx)) with
            | some _ => a.heap.arrays t
            | none => zend_hash_index_add_new (a.heap.arrays t) (toUlong idx) .null)
          with refcount := rc } ∧
      (a.at_long idx).1.heap.cells = a.heap.cells ∧
      (a.at_long idx).1.heap.symbol_table = a.heap.symbol_table := by
  obtain ⟨t1, rc, hrc, hp, ha, hc, hs, _⟩ := SEPARATE_ARRAY_spec h
  refine ⟨t1, rc, hrc, ?_⟩
  simp only [Array.at_long, h.1, hp.2, Z_ARR, placement_construct, zend_hash_index_find, ha]
  have hl : zend_array.lookup { a.heap.arrays t with refcount := rc } (.idx (toUlong idx)) =
      (a.heap.arrays t).lookup (.idx (toUlong idx)) := rfl
  rw [hl]
  cases hk : (a.heap.arrays t).lookup (.idx (toUlong idx)) with
  | some v => exact ⟨rfl, hp, ha, hc, hs⟩
  | none =>
    refine ⟨rfl, hp.setArray _ _, ?_, hc, hs⟩
    simp [Heap.setArray, zend_hash_index_add_new]

theorem at_string_numeric (a : Array) (key : List Nat) (hval : Nat)
    (hk : ZEND_HANDLE_NUMERIC key = some hval) : a.at_string key = a.at_long (toLong hval) := by
  simp [Array.at_string, hk]

theorem at_string_spec {a : Array} {z : ZvalPtr} {t : Nat} (h : a.PointsTo z t)
    (key : List Nat) (hk : ZEND_HANDLE_NUMERIC key = none) :
    ∃ t1 rc, rc ≤ 1 ∧ (a.at_string key).1.PointsTo z t1 ∧
      (a.at_string key).1.heap.arrays t1 =
        { (match (a.heap.arrays t).lookup (.str key) with
            | some _ => a.heap.arrays t
            | none => zend_hash_add_new (a.heap.arrays t) key .null)
          with refcount := rc } ∧
      (a.at_string key).1.heap.symbol_table = a.heap.symbol_table ∧
      (match (a.heap.arrays t).lookup (.str key) with
        | some (.indirect c) =>
            (a.at_string key).2 = .ok (.cell c) ∧
            (a.at_string key).1.heap.cells =
              (if a.heap.cells c = .undef then Function.update a.heap.cells c .null
               else a.heap.cells)
        | _ =>
            (a.at_string key).2 = .ok (.bucket t1 (.str key)) ∧
            (a.at_string key).1.heap.cells = a.heap.cells) := by
  obtain ⟨t1, rc, hrc, hp, ha, hc, hs, _⟩ := SEPARATE_ARRAY_spec h
  refine ⟨t1, rc, hrc, ?_⟩
  simp only [Array.at_string, hk, h.1, hp.2, Z_ARR, placement_construct, zend_hash_find, ha]
  have hl : zend_array.lookup { a.heap.arrays t with refcount := rc } (.str key) =
      (a.heap.arrays t).lookup (.str key) := rfl
  rw [hl]
  cases hk : (a.heap.arrays t).lookup (.str key) with
  | none =>
    refine ⟨hp.setArray _ _, ?_, hs, rfl, hc⟩
    simp [Heap.setArray, zend_hash_add_new]
  | some v =>
    cases v
    case indirect c =>
      simp only [hc]
      by_cases hu : a.heap.cells c = .undef
      · simp only [hu, if_true]
        exact ⟨hp.setCell _ _, ha, hs, trivial, by simp [Heap.setCell, hc]⟩
      · simp only [hu, if_false]
        exact ⟨hp, ha, hs, trivial, hc⟩
    all_goals exact ⟨hp, ha, hs, rfl, hc⟩


/-! ## Buckets -/

theorem lookup_refcount (T : zend_array) (rc : Nat) (k : Key) :
    zend_array.lookup { T with refcount := rc } k = T.lookup k := rfl

theorem lookupFirst_isSome_iff (k : Key) (l : List Bucket) :
    (lookupFirst k l).isSome = true ↔ k ∈ l.map (·.key) := by
  induction l with
  | nil => simp [lookupFirst]
  | cons b bs ih =>
    by_cases hb : b.key = k
    · simp [lookupFirst, hb]
    · have : ¬ k = b.key := fun h => hb h.symm
      simp [lookupFirst, hb, ih, this]

theorem lookupFirst_eq_none_iff (k : Key) (l : List Bucket) :
    lookupFirst k l = none ↔ k ∉ l.map (·.key) := by
  rw [← lookupFirst_isSome_iff]
  cases lookupFirst k l <;> simp

theorem lookupFirst_append_single (l : List Bucket) (k k' : Key) (v : Zval) :
    lookupFirst k' (l ++ [⟨k, v⟩]) =
      match lookupFirst k' l with
      | some w => some w
      | none => if k = k' then some v else none := by
  induction l with
  | nil => simp [lookupFirst]
  | cons b bs ih =>
    by_cases hb : b.key = k'
    · simp [lookupFirst, hb]
    · simp [lookupFirst, hb, ih]

theorem lookupFirst_assignFirst_same (k : Key) (v : Zval) (l : List Bucket)
    (h : (lookupFirst k l).isSome = true) : lookupFirst k (assignFirst k v l) = some v := by
  induction l with
  | nil => simp [lookupFirst] at h
  | cons b bs ih =>
    by_cases hb : b.key = k
    · simp [assignFirst, hb, lookupFirst]
    · simp only [lookupFirst, hb, if_false] at h
      simp only [assignFirst, hb, if_false, lookupFirst]
      exact ih h

theorem lookupFirst_assignFirst_other (k k' : Key) (v : Zval) (hk : k' ≠ k) (l : List Bucket) :
    lookupFirst k' (assignFirst k v l) = lookupFirst k' l := by
  induction l with
  | nil => rfl
  | cons b bs ih =>
    by_cases hb : b.key = k
    · have : ¬ b.key = k' := fun h => hk (h ▸ hb)
      simp [assignFirst, hb, lookupFirst, hk.symm]
    · by_cases hb' : b.key = k'
      · simp [assignFirst, hb, lookupFirst, hb', hk]
      · simp only [assignFirst, hb, if_false, lookupFirst, hb']
        exact ih

theorem assignFirst_length (k : Key) (v : Zval) (l : List Bucket) :
    (assignFirst k v l).length = l.length := by
  induction l with
  | nil => rfl
  | cons b bs ih =>
    by_cases hb : b.key = k
    · simp [assignFirst, hb]
    · simp [assignFirst, hb, ih]

theorem assignFirst_keys (k : Key) (v : Zval) (l : List Bucket) :
    (assignFirst k v l).map (·.key) = l.map (·.key) := by
  induction l with
  | nil => rfl
  | cons b bs ih =>
    by_cases hb : b.key = k
    · simp [assignFirst, hb]
    · simp [assignFirst, hb, ih]

theorem lookupFirst_deleteFirst_other (k k' : Key) (hk : k' ≠ k) (l : List Bucket) :
    lookupFirst k' (deleteFirst k l) = lookupFirst k' l := by
  induction l with
  | nil => rfl
  | cons b bs ih =>
    by_cases hb : b.key = k
    · have : ¬ b.key = k' := fun h => hk (h ▸ hb)
      simp [deleteFirst, hb, lookupFirst, hk.symm]
    · by_cases hb' : b.key = k'
      · simp [deleteFirst, hb, lookupFirst, hb', hk]
      · simp only [deleteFirst, hb, if_false, lookupFirst, hb']
        exact ih

theorem deleteFirst_absent (k : Key) (l : List Bucket) (h : lookupFirst k l = none) :
    deleteFirst k l = l := by
  induction l with
  | nil => rfl
  | cons b bs ih =>
    by_cases hb : b.key = k
    · simp [lookupFirst, hb] at h
    · simp only [lookupFirst, hb, if_false] at h
      simp [deleteFirst, hb, ih h]

theorem deleteFirst_nodup (k : Key) (l : List Bucket) (hn : (l.map (·.key)).Nodup) :
    ((deleteFirst k l).map (·.key)).Nodup := by
  induction l with
  | nil => exact hn
  | cons b bs ih =>
    have hn' := List.nodup_cons.mp hn
    by_cases hb : b.key = k
    · simpa [deleteFirst, hb] using hn'.2
    · simp only [deleteFirst, hb, if_false, List.map_cons, List.nodup_cons]
      refine ⟨fun hmem => hn'.1 ?_, ih hn'.2⟩
      rw [← lookupFirst_isSome_iff] at hmem ⊢
      rwa [lookupFirst_deleteFirst_other k b.key hb] at hmem


/-! ## Writing and reading through `at` -/

theorem readThrough_ok (r : Array × Except Error ZvalPtr) (p : ZvalPtr) (h : r.2 = .ok p) :
    readThrough r = .ok (r.1.load p) := by
  simp [readThrough, h]

theorem writeThrough_bucket (r : Array × Except Error ZvalPtr) (t : Nat) (k : Key) (v : Zval)
    (h : r.2 = .ok (.bucket t k)) :
    writeThrough r v =
      { r.1 with heap := r.1.heap.setArray t ((r.1.heap.arrays t).assign k v) } := by
  simp [writeThrough, h, Array.store]

/-- After writing `v` through `at(n)`, `contains(n)` holds, `at(n)` reads `v`, and the
size is what it was or one more. -/
theorem at_long_write_read (a : Array) (ha : a.isArray = true) (n : Int) (v : Zval) :
    (writeThrough (a.at_long n) v).contains_long n = .ok true ∧
    readThrough ((writeThrough (a.at_long n) v).at_long n) = .ok v ∧
    ∃ m, a.size = .ok m ∧
      ((writeThrough (a.at_long n) v).size = .ok m ∨
       (writeThrough (a.at_long n) v).size = .ok (m + 1)) := by
  obtain ⟨z, t, hp⟩ := Array.PointsTo.of_isArray a ha
  obtain ⟨t1, rc, _, hres, hp1, harr, _, _⟩ := at_long_spec hp n
  rw [writeThrough_bucket _ t1 _ v hres]
  have hpb := hp1.setArray t1 (((a.at_long n).1.heap.arrays t1).assign (.idx (toUlong n)) v)
  have hbt : (Heap.setArray (a.at_long n).1.heap t1
      (((a.at_long n).1.heap.arrays t1).assign (.idx (toUlong n)) v)).arrays t1 =
      ((a.at_long n).1.heap.arrays t1).assign (.idx (toUlong n)) v := by
    simp [Heap.setArray]
  have hpresent : (((a.at_long n).1.heap.arrays t1).lookup (.idx (toUlong n))).isSome = true := by
    rw [harr, lookup_refcount]
    cases hk : (a.heap.arrays t).lookup (.idx (toUlong n)) with
    | some w => simp [hk]
    | none =>
      simp only [zend_array.lookup] at hk
      simp [zend_array.lookup, zend_hash_index_add_new, lookupFirst_append_single, hk]
  have hlook : zend_array.lookup (((a.at_long n).1.heap.arrays t1).assign (.idx (toUlong n)) v)
      (.idx (toUlong n)) = some v :=
    lookupFirst_assignFirst_same _ _ _ hpresent
  refine ⟨?_, ?_, ?_⟩
  · rw [contains_long_eq hpb, hbt, hlook]; rfl
  · obtain ⟨t2, rc2, _, hres2, _, harr2, _, _⟩ := at_long_spec hpb n
    rw [readThrough_ok _ _ hres2]
    simp only [Array.load]
    rw [harr2, lookup_refcount, hbt, hlook]
    simp only [hlook]
    rfl
  · refine ⟨_, size_eq hp, ?_⟩
    rw [size_eq hpb, hbt]
    simp only [zend_array.assign, assignFirst_length, harr]
    cases hk : (a.heap.arrays t).lookup (.idx (toUlong n)) with
    | some w => left; rfl
    | none => right; simp [zend_hash_index_add_new]

/-- C1: the canonical decimal string of a `zend_long` and the number itself select the
same slot.  `at(s)` and `at(n)` are the same call; after writing `v` through `at(s)`,
`contains(n)` holds and `at(n)` reads `v`; after writing `v` through `at(n)`,
`contains(s)` holds and `at(s)` reads `v`; either way the size is what it was or one
more. -/
theorem C1_key_canonicalisation_round_trip (a : Array) (n : Int) (v : Zval)
    (ha : a.isArray = true) (h1 : ZEND_LONG_MIN ≤ n) (h2 : n ≤ ZEND_LONG_MAX) :
    a.at_string (decimal n) = a.at_long n ∧
    ((writeThrough (a.at_string (decimal n)) v).contains_long n = .ok true ∧
     readThrough ((writeThrough (a.at_string (decimal n)) v).at_long n) = .ok v ∧
     ∃ m, a.size = .ok m ∧
       ((writeThrough (a.at_string (decimal n)) v).size = .ok m ∨
        (writeThrough (a.at_string (decimal n)) v).size = .ok (m + 1))) ∧
    ((writeThrough (a.at_long n) v).contains_string (decimal n) = .ok true ∧
     readThrough ((writeThrough (a.at_long n) v).at_string (decimal n)) = .ok v ∧
     ∃ m, a.size = .ok m ∧
       ((writeThrough (a.at_long n) v).size = .ok m ∨
        (writeThrough (a.at_long n) v).size = .ok (m + 1))) := by
  have hnum := handle_numeric_decimal n h1 h2
  have hcast := toLong_toUlong n h1 h2
  have hat : ∀ b : Array, b.at_string (decimal n) = b.at_long n := by
    intro b; rw [at_string_numeric b _ _ hnum, hcast]
  have hct : ∀ b : Array, b.contains_string (decimal n) = b.contains_long n := by
    intro b; simp [Array.contains_string, hnum, hcast]
  rw [hat a, hat, hct]
  exact ⟨rfl, at_long_write_read a ha n v, at_long_write_read a ha n v⟩

theorem C1_key_canonicalisation_round_trip_witness :
    (Array.new Heap.empty).isArray = true ∧ ZEND_LONG_MIN ≤ (-7 : Int) ∧
    (-7 : Int) ≤ ZEND_LONG_MAX ∧
    (writeThrough ((Array.new Heap.empty).at_string (decimal (-7))) (.long 5)).contains_long (-7)
      = .ok true :=
  ⟨by decide, by decide, by decide,
   (C1_key_canonicalisation_round_trip (Array.new Heap.empty) (-7) (.long 5) (by decide)
      (by decide) (by decide)).2.1.1⟩


/-! ## Strings that are not canonical integers -/

/-- The engine's numeric-string test accepts exactly the spec's canonical integer
strings. -/
theorem canonical_iff (s : List Nat) :
    IsCanonicalIntString s ↔ (ZEND_HANDLE_NUMERIC s).isSome = true := by
  constructor
  · rintro ⟨n, h1, h2, rfl⟩
    rw [handle_numeric_decimal n h1 h2]; rfl
  · intro h
    cases hh : ZEND_HANDLE_NUMERIC s with
    | none => rw [hh] at h; exact absurd h (by simp)
    | some hval =>
      obtain ⟨n, h1, h2, hs, _⟩ := handle_numeric_sound s hval hh
      exact ⟨n, h1, h2, hs⟩

theorem not_canonical (s : List Nat) (hs : ¬ IsCanonicalIntString s) :
    ZEND_HANDLE_NUMERIC s = none := by
  rw [canonical_iff] at hs
  cases hh : ZEND_HANDLE_NUMERIC s with
  | none => rfl
  | some _ => rw [hh] at hs; exact absurd rfl hs

theorem isArray_of_contains_long (a : Array) (n : Int) (b : Bool)
    (h : a.contains_long n = .ok b) : a.isArray = true := by
  unfold Array.contains_long at h
  unfold Array.isArray
  cases hd : derefAndCheck a .m_z with
  | ok z => rfl
  | error e => rw [hd] at h; exact absurd h (by simp)

theorem at_string_spec_indirect {a : Array} {z : ZvalPtr} {t : Nat} (h : a.PointsTo z t)
    (key : List Nat) (hk : ZEND_HANDLE_NUMERIC key = none) (c : Nat)
    (hl : (a.heap.arrays t).lookup (.str key) = some (.indirect c)) :
    ∃ t1 rc, rc ≤ 1 ∧ (a.at_string key).1.PointsTo z t1 ∧
      (a.at_string key).1.heap.arrays t1 = { a.heap.arrays t with refcount := rc } ∧
      (a.at_string key).1.heap.symbol_table = a.heap.symbol_table ∧
      (a.at_string key).2 = .ok (.cell c) ∧
      (a.at_string key).1.heap.cells =
        (if a.heap.cells c = .undef then Function.update a.heap.cells c .null
         else a.heap.cells) := by
  obtain ⟨t1, rc, hrc, hp, ha, hs, hm⟩ := at_string_spec h key hk
  rw [hl] at ha hm
  exact ⟨t1, rc, hrc, hp, ha, hs, hm.1, hm.2⟩

theorem at_string_spec_direct {a : Array} {z : ZvalPtr} {t : Nat} (h : a.PointsTo z t)
    (key : List Nat) (hk : ZEND_HANDLE_NUMERIC key = none)
    (hl : ∀ c, (a.heap.arrays t).lookup (.str key) ≠ some (.indirect c)) :
    ∃ t1 rc, rc ≤ 1 ∧ (a.at_string key).1.PointsTo z t1 ∧
      (a.at_string key).1.heap.arrays t1 =
        { (match (a.heap.arrays t).lookup (.str key) with
            | some _ => a.heap.arrays t
            | none => zend_hash_add_new (a.heap.arrays t) key .null)
          with refcount := rc } ∧
      (a.at_string key).1.heap.symbol_table = a.heap.symbol_table ∧
      (a.at_string key).2 = .ok (.bucket t1 (.str key)) ∧
      (a.at_string key).1.heap.cells = a.heap.cells := by
  obtain ⟨t1, rc, hrc, hp, ha, hs, hm⟩ := at_string_spec h key hk
  refine ⟨t1, rc, hrc, hp, ha, hs, ?_⟩
  cases hv : (a.heap.arrays t).lookup (.str key) with
  | none => rw [hv] at hm; exact hm
  | some v =>
    rw [hv] at hm
    cases v
    case indirect c => exact absurd hv (hl c)
    all_goals exact hm


theorem new_pointsTo (h : Heap) : (Array.new h).PointsTo .m_z h.next_array := by
  constructor <;> simp [Array.new, array_init, derefAndCheck, Array.load]

theorem new_table (h : Heap) : (Array.new h).heap.arrays h.next_array = ⟨1, [], 0⟩ := by
  simp [Array.new, array_init]

theorem new_contains_long (h : Heap) (n : Int) : (Array.new h).contains_long n = .ok false := by
  rw [contains_long_eq (new_pointsTo h), new_table]
  rfl

/-- C2: a string that is not a canonical integer string stays a string key.  In an
array without integer keys, after writing through `at(s)`, `contains(s)` holds and
`contains(n)` fails for every integer `n`. -/
theorem C2_non_canonical_strings_never_collide (a : Array) (s : List Nat) (v : Zval)
    (hs : ¬ IsCanonicalIntString s) (hint : ∀ n : Int, a.contains_long n = .ok false) :
    (writeThrough (a.at_string s) v).contains_string s = .ok true ∧
    ∀ n : Int, (writeThrough (a.at_string s) v).contains_long n = .ok false := by
  have hk := not_canonical s hs
  obtain ⟨z, t, hp⟩ := Array.PointsTo.of_isArray a (isArray_of_contains_long a 0 false (hint 0))
  have hnone : ∀ n : Int, (a.heap.arrays t).lookup (.idx (toUlong n)) = none := by
    intro n
    have := hint n
    rw [contains_long_eq hp] at this
    cases hl : (a.heap.arrays t).lookup (.idx (toUlong n)) with
    | none => rfl
    | some w => rw [hl] at this; exact absurd this (by simp)
  by_cases hind : ∃ c, (a.heap.arrays t).lookup (.str s) = some (.indirect c)
  · obtain ⟨c, hl⟩ := hind
    obtain ⟨t1, rc, _, hp1, harr, _, hres, _⟩ := at_string_spec_indirect hp s hk c hl
    have hw : writeThrough (a.at_string s) v =
        { (a.at_string s).1 with heap := (a.at_string s).1.heap.setCell c v } := by
      simp [writeThrough, hres, Array.store]
    rw [hw]
    have hpb := hp1.setCell c v
    have hbt : ((a.at_string s).1.heap.setCell c v).arrays t1 =
        { a.heap.arrays t with refcount := rc } := by
      rw [← harr]; rfl
    refine ⟨?_, fun n => ?_⟩
    · rw [contains_string_eq hpb s hk, hbt, lookup_refcount, hl]; rfl
    · rw [contains_long_eq hpb, hbt, lookup_refcount, hnone n]; rfl
  · have hdir : ∀ c, (a.heap.arrays t).lookup (.str s) ≠ some (.indirect c) :=
      fun c hc => hind ⟨c, hc⟩
    obtain ⟨t1, rc, _, hp1, harr, _, hres, _⟩ := at_string_spec_direct hp s hk hdir
    rw [writeThrough_bucket _ t1 _ v hres]
    have hpb := hp1.setArray t1 (((a.at_string s).1.heap.arrays t1).assign (.str s) v)
    have hbt : (Heap.setArray (a.at_string s).1.heap t1
        (((a.at_string s).1.heap.arrays t1).assign (.str s) v)).arrays t1 =
        ((a.at_string s).1.heap.arrays t1).assign (.str s) v := by
      simp [Heap.setArray]
    have hpresent : (((a.at_string s).1.heap.arrays t1).lookup (.str s)).isSome = true := by
      rw [harr, lookup_refcount]
      cases hl : (a.heap.arrays t).lookup (.str s) with
      | some w => simp [hl]
      | none =>
        simp only [zend_array.lookup] at hl
        simp [zend_array.lookup, zend_hash_add_new, lookupFirst_append_single, hl]
    refine ⟨?_, fun n => ?_⟩
    · rw [contains_string_eq hpb s hk, hbt]
      simp only [zend_array.lookup, zend_array.assign]
      rw [lookupFirst_assignFirst_same _ _ _ hpresent]; rfl
    · rw [contains_long_eq hpb, hbt]
      simp only [zend_array.lookup, zend_array.assign]
      rw [lookupFirst_assignFirst_other _ _ _ (by simp), harr]
      have hn := hnone n
      simp only [zend_array.lookup] at hn
      cases hl : (a.heap.arrays t).lookup (.str s) with
      | some w => simp [hn]
      | none => simp [zend_hash_add_new, lookupFirst_append_single, hn]

theorem C2_non_canonical_strings_never_collide_witness :
    ¬ IsCanonicalIntString (bytes "042") ∧
    (∀ n : Int, (Array.new Heap.empty).contains_long n = .ok false) ∧
    (writeThrough ((Array.new Heap.empty).at_string (bytes "042")) (.long 1)).contains_string
      (bytes "042") = .ok true ∧
    (writeThrough ((Array.new Heap.empty).at_string (bytes "042")) (.long 1)).contains_long 42
      = .ok false :=
  have hs : ¬ IsCanonicalIntString (bytes "042") := by rw [canonical_iff]; decide
  ⟨hs, new_contains_long Heap.empty,
   (C2_non_canonical_strings_never_collide (Array.new Heap.empty) (bytes "042") (.long 1) hs
      (new_contains_long Heap.empty)).1,
   (C2_non_canonical_strings_never_collide (Array.new Heap.empty) (bytes "042") (.long 1) hs
      (new_contains_long Heap.empty)).2 42⟩

/-- The strings the spec names as non-canonical are rejected by the numeric-string test,
and the canonical ones are accepted. -/
theorem non_canonical_examples :
    ¬ IsCanonicalIntString (bytes "042") ∧ ¬ IsCanonicalIntString (bytes "08") ∧
    ¬ IsCanonicalIntString (bytes "-0") ∧ ¬ IsCanonicalIntString (bytes "+1") ∧
    ¬ IsCanonicalIntString (bytes "9223372036854775808") ∧
    ¬ IsCanonicalIntString (bytes "-9223372036854775809") ∧
    ¬ IsCanonicalIntString (bytes "") ∧
    IsCanonicalIntString (bytes "0") ∧ IsCanonicalIntString (bytes "-7") ∧
    IsCanonicalIntString (bytes "42") := by
  simp only [canonical_iff]
  decide


/-! ## Copy-on-write -/

/-- Separation for an Array that holds a shared table directly: `m_z` is repointed to a
duplicate at the first fresh address and the old table loses one count. -/
theorem SEPARATE_ARRAY_direct_shared (a : Array) (t : Nat) (hm : a.m_z = .array t)
    (hrc : 1 < (a.heap.arrays t).refcount) :
    SEPARATE_ARRAY a .m_z =
      { heap :=
          { a.heap with
            arrays := Function.update
              (Function.update a.heap.arrays t
                { a.heap.arrays t with refcount := (a.heap.arrays t).refcount - 1 })
              a.heap.next_array { a.heap.arrays t with refcount := 1 }
            next_array := a.heap.next_array + 1 }
        m_z := .array a.heap.next_array } := by
  simp only [SEPARATE_ARRAY, Array.load, hm, Z_ARR]
  rw [if_pos (by omega)]
  simp [Array.store, zend_array_dup, Heap.setArray]

theorem read_at_long_eq {a : Array} {z : ZvalPtr} {t : Nat} (h : a.PointsTo z t) (idx : Int) :
    readThrough (a.at_long idx) =
      .ok (((a.heap.arrays t).lookup (.idx (toUlong idx))).getD .null) := by
  obtain ⟨t1, rc, _, hres, _, harr, _, _⟩ := at_long_spec h idx
  rw [readThrough_ok _ _ hres]
  simp only [Array.load, harr, lookup_refcount]
  cases hk : (a.heap.arrays t).lookup (.idx (toUlong idx)) with
  | some w => simp [hk]
  | none =>
    simp only [zend_array.lookup] at hk
    simp [zend_array.lookup, zend_hash_index_add_new, lookupFirst_append_single, hk]

theorem read_at_string_eq {a : Array} {z : ZvalPtr} {t : Nat} (h : a.PointsTo z t)
    (key : List Nat) (hk : ZEND_HANDLE_NUMERIC key = none) :
    readThrough (a.at_string key) =
      .ok (readSlot a.heap.cells ((a.heap.arrays t).lookup (.str key))) := by
  by_cases hind : ∃ c, (a.heap.arrays t).lookup (.str key) = some (.indirect c)
  · obtain ⟨c, hl⟩ := hind
    obtain ⟨t1, rc, _, _, _, _, hres, hcells⟩ := at_string_spec_indirect h key hk c hl
    rw [readThrough_ok _ _ hres, hl]
    simp only [Array.load, hcells, readSlot]
    by_cases hu : a.heap.cells c = .undef
    · simp [hu]
    · simp [hu]
  · have hdir : ∀ c, (a.heap.arrays t).lookup (.str key) ≠ some (.indirect c) :=
      fun c hc => hind ⟨c, hc⟩
    obtain ⟨t1, rc, _, _, harr, _, hres, _⟩ := at_string_spec_direct h key hk hdir
    rw [readThrough_ok _ _ hres]
    simp only [Array.load, harr, lookup_refcount]
    cases hl : (a.heap.arrays t).lookup (.str key) with
    | none =>
      simp only [zend_array.lookup] at hl
      simp [zend_array.lookup, zend_hash_add_new, lookupFirst_append_single, hl, readSlot]
    | some w =>
      simp only [hl, Option.getD_some]
      cases w with
      | indirect c => exact absurd hl (hdir c)
      | _ => rfl

theorem at_string_eq_at_long (a : Array) (s : List Nat) (hval : Nat)
    (hk : ZEND_HANDLE_NUMERIC s = some hval) :
    a.at_string s = a.at_long (toLong hval) ∧
    a.contains_string s = a.contains_long (toLong hval) := by
  simp [Array.at_string, Array.contains_string, hk]

/-- Two Arrays whose tables hold the same buckets show the same, also when some cells
that were UNDEF for the first are NULL for the second. -/
theorem sameView_of_buckets {a b : Array} {z z' : ZvalPtr} {t t' : Nat} (ha : a.PointsTo z t)
    (hb : b.PointsTo z' t') (hd : (b.heap.arrays t').arData = (a.heap.arrays t).arData)
    (hc : ∀ c, b.heap.cells c = a.heap.cells c ∨
      (a.heap.cells c = .undef ∧ b.heap.cells c = .null)) : b.SameView a := by
  have hl : ∀ k, (b.heap.arrays t').lookup k = (a.heap.arrays t).lookup k := by
    intro k; simp [zend_array.lookup, hd]
  have hrl : ∀ n : Int, readThrough (b.at_long n) = readThrough (a.at_long n) := by
    intro n; rw [read_at_long_eq hb, read_at_long_eq ha, hl]
  have hcl : ∀ n : Int, b.contains_long n = a.contains_long n := by
    intro n; rw [contains_long_eq hb, contains_long_eq ha, hl]
  refine ⟨?_, hcl, ?_, hrl, ?_⟩
  · rw [size_eq hb, size_eq ha, hd]
  · intro s
    cases hk : ZEND_HANDLE_NUMERIC s with
    | some hval =>
      rw [(at_string_eq_at_long b s hval hk).2, (at_string_eq_at_long a s hval hk).2]
      exact hcl _
    | none => rw [contains_string_eq hb s hk, contains_string_eq ha s hk, hl]
  · intro s
    cases hk : ZEND_HANDLE_NUMERIC s with
    | some hval =>
      rw [(at_string_eq_at_long b s hval hk).1, (at_string_eq_at_long a s hval hk).1]
      exact hrl _
    | none =>
      rw [read_at_string_eq hb s hk, read_at_string_eq ha s hk, hl]
      congr 1
      cases hv : (a.heap.arrays t).lookup (.str s) with
      | none => rfl
      | some w =>
        cases w
        case indirect c =>
          simp only [readSlot]
          rcases hc c with he | ⟨hu, hn⟩
          · rw [he]
          · simp [hu, hn]
        all_goals rfl


theorem pointsTo_direct (a : Array) (t : Nat) (hm : a.m_z = .array t) : a.PointsTo .m_z t := by
  constructor <;> simp [derefAndCheck, Array.load, hm]

theorem append_spec {a : Array} {z : ZvalPtr} {t : Nat} (h : a.PointsTo z t) :
    ∃ t1 rc, rc ≤ 1 ∧ a.append.1.PointsTo z t1 ∧
      a.append.1.heap.cells = a.heap.cells ∧
      a.append.1.heap.symbol_table = a.heap.symbol_table ∧
      (match zend_hash_next_index_insert (a.heap.arrays t) .null with
        | none =>
            a.append.2 = .error .SlotOccupied ∧
            a.append.1.heap.arrays t1 = { a.heap.arrays t with refcount := rc }
        | some (T, k) =>
            a.append.2 = .ok (.bucket t1 (.idx k)) ∧
            a.append.1.heap.arrays t1 = { T with refcount := rc }) := by
  obtain ⟨t1, rc, hrc, hp, ha, hc, hs, _⟩ := SEPARATE_ARRAY_spec h
  refine ⟨t1, rc, hrc, ?_⟩
  simp only [Array.append, h.1, hp.2, Z_ARR, placement_construct, ha]
  have hi : zend_hash_next_index_insert { a.heap.arrays t with refcount := rc } .null =
      (zend_hash_next_index_insert (a.heap.arrays t) .null).map
        (fun r => ({ r.1 with refcount := rc }, r.2)) := by
    simp only [zend_hash_next_index_insert, zend_hash_index_exists, lookup_refcount]
    split <;> rfl
  rw [hi]
  cases hn : zend_hash_next_index_insert (a.heap.arrays t) .null with
  | none => exact ⟨hp, hc, hs, rfl, ha⟩
  | some r =>
    refine ⟨hp.setArray _ _, hc, hs, rfl, ?_⟩
    simp [Heap.setArray]

theorem unset_long_spec {a : Array} {z : ZvalPtr} {t : Nat} (h : a.PointsTo z t) (idx : Int) :
    ∃ t1 rc, rc ≤ 1 ∧ (a.unset_long idx).1.PointsTo z t1 ∧
      (a.unset_long idx).2 = .ok () ∧
      (a.unset_long idx).1.heap.arrays t1 =
        { (a.heap.arrays t).delete (.idx (toUlong idx)) with refcount := rc } ∧
      (a.unset_long idx).1.heap.cells = a.heap.cells ∧
      (a.unset_long idx).1.heap.symbol_table = a.heap.symbol_table := by
  obtain ⟨t1, rc, hrc, hp, ha, hc, hs, _⟩ := SEPARATE_ARRAY_spec h
  refine ⟨t1, rc, hrc, ?_⟩
  simp only [Array.unset_long, h.1, hp.2, Z_ARR, ha, zend_hash_index_del]
  refine ⟨hp.setArray _ _, trivial, ?_, hc, hs⟩
  simp [Heap.setArray, zend_array.delete]

/-- What `unset` with a string key that is not numeric does.  `t1` is the table the
Array works on after separation.  Unless that table is `EG(symbol_table)` and the slot
is INDIRECT, the bucket of the key is dropped; in that case the bucket stays and the
cell the slot points to becomes UNDEF. -/
theorem unset_string_spec {a : Array} {z : ZvalPtr} {t : Nat} (h : a.PointsTo z t)
    (key : List Nat) (hk : ZEND_HANDLE_NUMERIC key = none) :
    ∃ t1 rc, rc ≤ 1 ∧ (a.unset_string key).1.PointsTo z t1 ∧
      (a.unset_string key).2 = .ok () ∧
      (a.unset_string key).1.heap.symbol_table = a.heap.symbol_table ∧
      ((t1 = t ∧ (a.heap.arrays t).refcount ≤ 1) ∨
       (t1 = a.heap.next_array ∧ 1 < (a.heap.arrays t).refcount)) ∧
      ((t1 = a.heap.symbol_table ∧
          ∃ c, (a.heap.arrays t).lookup (.str key) = some (.indirect c) ∧
            (a.unset_string key).1.heap.arrays t1 = { a.heap.arrays t with refcount := rc } ∧
            (a.unset_string key).1.heap.cells = Function.update a.heap.cells c .undef) ∨
       ((t1 = a.heap.symbol_table → ∀ c, (a.heap.arrays t).lookup (.str key) ≠ some (.indirect c)) ∧
          (a.unset_string key).1.heap.arrays t1 =
            { (a.heap.arrays t).delete (.str key) with refcount := rc } ∧
          (a.unset_string key).1.heap.cells = a.heap.cells)) := by
  obtain ⟨t1, rc, hrc, hp, ha, hc, hs, haddr⟩ := SEPARATE_ARRAY_spec h
  refine ⟨t1, rc, hrc, ?_⟩
  simp only [Array.unset_string, hk, h.1, hp.2, Z_ARR]
  by_cases hsym : t1 = (SEPARATE_ARRAY a z).heap.symbol_table
  · rw [if_pos hsym]
    simp only [zend_delete_global_variable, zend_hash_del_ind, ← hsym, ha, zend_hash_find,
      lookup_refcount]
    cases hl : (a.heap.arrays t).lookup (.str key) with
    | none =>
      refine ⟨hp, trivial, hs, haddr, Or.inr ⟨fun _ c => by simp, ?_, hc⟩⟩
      simp only [zend_array.lookup] at hl
      simp [ha, zend_array.delete, deleteFirst_absent _ _ hl]
    | some w =>
      by_cases hind : ∃ c, w = .indirect c
      · obtain ⟨c, rfl⟩ := hind
        simp only
        by_cases hu : (SEPARATE_ARRAY a z).heap.cells c = .undef
        · rw [if_pos hu]
          refine ⟨hp, trivial, hs, haddr, Or.inl ⟨hsym.trans hs, c, rfl, ha, ?_⟩⟩
          rw [hc] at hu ⊢
          funext x
          by_cases hx : x = c
          · subst hx; simp [hu]
          · simp [Function.update, hx]
        · rw [if_neg hu]
          refine ⟨hp.setCell _ _, trivial, hs, haddr, Or.inl ⟨hsym.trans hs, c, rfl, ha, ?_⟩⟩
          simp [Heap.setCell, hc]
      · have hd : ∀ c, w ≠ .indirect c := fun c hc => hind ⟨c, hc⟩
        cases w with
        | indirect c => exact absurd rfl (hd c)
        | _ =>
          refine ⟨hp.setArray _ _, trivial, hs, haddr, Or.inr ⟨fun _ c => by simp, ?_, hc⟩⟩
          simp [Heap.setArray, zend_hash_del, ha, zend_array.delete]
  · rw [if_neg hsym]
    refine ⟨hp.setArray _ _, rfl, hs, haddr,
      Or.inr ⟨fun e => absurd (e.trans hs.symm) hsym, ?_, hc⟩⟩
    simp [Heap.setArray, zend_hash_del, ha, zend_array.delete]


/-! ## The next free index -/

theorem toLong_bounds (h : Nat) :
    -9223372036854775808 ≤ toLong h ∧ toLong h ≤ 9223372036854775807 := by
  unfold toLong
  split <;> omega

theorem toLong_toUlong_toLong (h : Nat) : toLong (toUlong (toLong h)) = toLong h :=
  toLong_toUlong _ (toLong_bounds h).1 (toLong_bounds h).2

theorem toUlong_toLong_toUlong (n : Int) : toUlong (toLong (toUlong n)) = toUlong n :=
  toUlong_toLong _ (toUlong_lt n)

theorem bump_ge (nf k : Int) (h : nf ≤ ZEND_LONG_MAX) : nf ≤ bump nf k ∧ bump nf k ≤ ZEND_LONG_MAX := by
  unfold bump ZEND_LONG_MAX at *
  split_ifs <;> omega

theorem bump_stable (nf k k' : Int) (hk' : k' ≤ 9223372036854775807)
    (h : bump nf k' = nf) : bump (bump nf k) k' = bump nf k := by
  unfold bump ZEND_LONG_MAX at *
  split_ifs at h ⊢ <;> omega

theorem bump_self_stable (nf k : Int) (hk : k ≤ 9223372036854775807) :
    bump (bump nf k) k = bump nf k := by
  unfold bump ZEND_LONG_MAX
  split_ifs <;> omega

theorem TableInv.refcount {T : zend_array} (h : TableInv T) (rc : Nat) :
    TableInv { T with refcount := rc } := h

theorem add_index_next (T : zend_array) (h : Nat) (v : Zval) (hh : h < 2 ^ 64)
    (h0 : 0 ≤ T.nNextFreeElement) :
    (zend_hash_index_add_new T h v).nNextFreeElement = bump T.nNextFreeElement (toLong h) := by
  simp only [zend_hash_index_add_new, bump, ZEND_LONG_MAX]
  unfold toLong
  split_ifs <;> omega

theorem TableInv.add_index {T : zend_array} (hT : TableInv T) (h : Nat) (v : Zval)
    (hh : h < 2 ^ 64) : TableInv (zend_hash_index_add_new T h v) := by
  obtain ⟨h0, h1, hk⟩ := hT
  have hn := add_index_next T h v hh h0
  have hb := bump_ge T.nNextFreeElement (toLong h) h1
  refine ⟨by rw [hn]; omega, by rw [hn]; exact hb.2, ?_⟩
  intro h' hmem
  rw [hn]
  simp only [zend_array.keys, zend_hash_index_add_new, List.map_append, List.map_cons,
    List.map_nil, List.mem_append, List.mem_singleton] at hmem
  rcases hmem with hmem | hmem
  · exact ⟨(hk h' hmem).1, bump_stable _ _ _ (toLong_bounds h').2 (hk h' hmem).2⟩
  · cases hmem
    exact ⟨hh, bump_self_stable _ _ (toLong_bounds h).2⟩

theorem TableInv.add_str {T : zend_array} (hT : TableInv T) (key : List Nat) (v : Zval) :
    TableInv (zend_hash_add_new T key v) := by
  obtain ⟨h0, h1, hk⟩ := hT
  refine ⟨h0, h1, ?_⟩
  intro h' hmem
  simp only [zend_array.keys, zend_hash_add_new, List.map_append, List.map_cons,
    List.map_nil, List.mem_append, List.mem_singleton] at hmem
  rcases hmem with hmem | hmem
  · exact hk h' hmem
  · cases hmem

theorem mem_keys_deleteFirst (k k' : Key) (l : List Bucket)
    (h : k' ∈ (deleteFirst k l).map (·.key)) : k' ∈ l.map (·.key) := by
  induction l with
  | nil => exact h
  | cons b bs ih =>
    by_cases hb : b.key = k
    · simp only [deleteFirst, hb, if_true] at h
      exact List.mem_cons_of_mem _ h
    · simp only [deleteFirst, hb, if_false, List.map_cons, List.mem_cons] at h ⊢
      rcases h with h | h
      · exact Or.inl h
      · exact Or.inr (ih h)

theorem TableInv.delete {T : zend_array} (hT : TableInv T) (k : Key) : TableInv (T.delete k) := by
  obtain ⟨h0, h1, hk⟩ := hT
  exact ⟨h0, h1, fun h' hmem => hk h' (mem_keys_deleteFirst k _ _ hmem)⟩

theorem TableInv.present {T : zend_array} (hT : TableInv T) (h : Nat) (w : Zval)
    (hl : T.lookup (.idx h) = some w) :
    bump T.nNextFreeElement (toLong h) = T.nNextFreeElement := by
  have : Key.idx h ∈ T.keys := by
    rw [zend_array.keys, ← lookupFirst_isSome_iff]
    simp only [zend_array.lookup] at hl
    rw [hl]; rfl
  exact (hT.2.2 h this).2


theorem at_long_inv {a : Array} {z : ZvalPtr} {t : Nat} (h : a.PointsTo z t)
    (hT : TableInv (a.heap.arrays t)) (idx : Int) :
    ∃ t1, (a.at_long idx).1.PointsTo z t1 ∧ TableInv ((a.at_long idx).1.heap.arrays t1) ∧
      ((a.at_long idx).1.heap.arrays t1).nNextFreeElement =
        bump (a.heap.arrays t).nNextFreeElement (toLong (toUlong idx)) := by
  obtain ⟨t1, rc, _, _, hp, harr, _, _⟩ := at_long_spec h idx
  refine ⟨t1, hp, ?_⟩
  rw [harr]
  cases hl : (a.heap.arrays t).lookup (.idx (toUlong idx)) with
  | some w => exact ⟨hT.refcount rc, (hT.present _ w hl).symm⟩
  | none =>
    exact ⟨(hT.add_index (toUlong idx) .null (toUlong_lt idx)).refcount rc,
      add_index_next (a.heap.arrays t) (toUlong idx) .null (toUlong_lt idx) hT.1⟩

theorem apply_inv {a : Array} {z : ZvalPtr} {t : Nat} (h : a.PointsTo z t)
    (hT : TableInv (a.heap.arrays t)) (op : WriteOp) :
    ∃ t1, (a.apply op).PointsTo z t1 ∧ TableInv ((a.apply op).heap.arrays t1) ∧
      ((a.apply op).heap.arrays t1).nNextFreeElement =
        nextFreeStep (a.heap.arrays t).nNextFreeElement op := by
  cases op with
  | at_long idx => exact at_long_inv h hT idx
  | at_string key =>
    simp only [Array.apply, nextFreeStep]
    cases hk : ZEND_HANDLE_NUMERIC key with
    | some hval =>
      rw [at_string_numeric a key hval hk]
      have := at_long_inv h hT (toLong hval)
      rwa [toLong_toUlong_toLong] at this
    | none =>
      obtain ⟨t1, rc, _, hp, harr, _, _⟩ := at_string_spec h key hk
      refine ⟨t1, hp, ?_⟩
      rw [harr]
      cases hl : (a.heap.arrays t).lookup (.str key) with
      | some w => exact ⟨hT.refcount rc, rfl⟩
      | none => exact ⟨(hT.add_str key .null).refcount rc, rfl⟩
  | append =>
    simp only [Array.apply, nextFreeStep]
    obtain ⟨t1, rc, _, hp, _, _, hm⟩ := append_spec h
    refine ⟨t1, hp, ?_⟩
    have hcast : toLong (toUlong (a.heap.arrays t).nNextFreeElement) =
        (a.heap.arrays t).nNextFreeElement :=
      toLong_toUlong _ (by have := hT.1; omega) (by have := hT.2.1; unfold ZEND_LONG_MAX at this; omega)
    simp only [zend_hash_next_index_insert, zend_hash_index_exists] at hm
    cases hl : (a.heap.arrays t).lookup (.idx (toUlong (a.heap.arrays t).nNextFreeElement)) with
    | some w =>
      simp only [hl, Option.isSome_some, if_true] at hm
      rw [hm.2]
      have := hT.present _ w hl
      rw [hcast] at this
      exact ⟨hT.refcount rc, this.symm⟩
    | none =>
      simp only [hl, Option.isSome_none, Bool.false_eq_true, if_false] at hm
      rw [hm.2]
      refine ⟨(hT.add_index _ _ (toUlong_lt _)).refcount rc, ?_⟩
      have := add_index_next (a.heap.arrays t) (toUlong (a.heap.arrays t).nNextFreeElement) .null
        (toUlong_lt _) hT.1
      rw [hcast] at this
      exact this
  | unset_long idx =>
    simp only [Array.apply, nextFreeStep]
    obtain ⟨t1, rc, _, hp, _, harr, _, _⟩ := unset_long_spec h idx
    exact ⟨t1, hp, by rw [harr]; exact (hT.delete _).refcount rc, by rw [harr]; rfl⟩
  | unset_string key =>
    simp only [Array.apply, nextFreeStep]
    cases hk : ZEND_HANDLE_NUMERIC key with
    | some hval =>
      have he : a.unset_string key = a.unset_long (toLong hval) := by
        simp [Array.unset_string, hk]
      rw [he]
      obtain ⟨t1, rc, _, hp, _, harr, _, _⟩ := unset_long_spec h (toLong hval)
      exact ⟨t1, hp, by rw [harr]; exact (hT.delete _).refcount rc, by rw [harr]; rfl⟩
    | none =>
      obtain ⟨t1, rc, _, hp, _, _, _, hcase⟩ := unset_string_spec h key hk
      refine ⟨t1, hp, ?_⟩
      rcases hcase with ⟨_, c, _, harr, _⟩ | ⟨_, harr, _⟩
      · rw [harr]; exact ⟨hT.refcount rc, rfl⟩
      · rw [harr]; exact ⟨(hT.delete _).refcount rc, rfl⟩

theorem run_inv (ops : List WriteOp) : ∀ {a : Array} {z : ZvalPtr} {t : Nat},
    a.PointsTo z t → TableInv (a.heap.arrays t) →
    ∃ t1, (a.run ops).PointsTo z t1 ∧ TableInv ((a.run ops).heap.arrays t1) ∧
      ((a.run ops).heap.arrays t1).nNextFreeElement =
        ops.foldl nextFreeStep (a.heap.arrays t).nNextFreeElement := by
  induction ops with
  | nil => intro a z t h hT; exact ⟨t, h, hT, rfl⟩
  | cons op ops ih =>
    intro a z t h hT
    obtain ⟨t1, hp1, hT1, hn1⟩ := apply_inv h hT op
    obtain ⟨t2, hp2, hT2, hn2⟩ := ih hp1 hT1
    refine ⟨t2, hp2, hT2, ?_⟩
    simp only [Array.run, List.foldl_cons] at hn2 ⊢
    rw [hn2, hn1]

theorem new_inv (h : Heap) : TableInv ((Array.new h).heap.arrays h.next_array) := by
  rw [new_table]
  refine ⟨le_refl _, by decide, ?_⟩
  intro k hk
  simp [zend_array.keys] at hk


/-- C4, as amended: `append` inserts at the table's next free index, which depends on
the writes made so far and not on the keys still present.  For the array reached from
a new array by any sequence of `at`, `append` and `unset`: `nNextFreeElement` equals
`nextFree` of the sequence (0 at first, raised to `k + 1`, at most `ZEND_LONG_MAX`,
by every insertion at an integer key `k` not below it, never lowered by `unset`);
when that index is free, `append` returns a handle to a slot at exactly that key, and
it is free whenever it is below `ZEND_LONG_MAX`.  So the first `append` lands at 0,
and after appending 0, 1, 2 the next `append` lands at 3 whether key 1 or key 2 was
unset in between. -/
theorem C4_append_lands_at_next_free (h : Heap) (ops : List WriteOp) :
    ((Array.new h).run ops).storage.nNextFreeElement = nextFree ops ∧
    (((Array.new h).run ops).contains_long (nextFree ops) = .ok false →
      ∃ t1, ((Array.new h).run ops).append.2 =
          .ok (.bucket t1 (.idx (toUlong (nextFree ops)))) ∧
        ((Array.new h).run ops).append.1.contains_long (nextFree ops) = .ok true) ∧
    (nextFree ops < ZEND_LONG_MAX →
      ((Array.new h).run ops).contains_long (nextFree ops) = .ok false) ∧
    nextFree [] = 0 ∧
    nextFree [.append, .append, .append, .unset_long 1] = 3 ∧
    nextFree [.append, .append, .append, .unset_long 2] = 3 := by
  obtain ⟨t1, hp, hT, hn⟩ := run_inv ops (new_pointsTo h) (new_inv h)
  rw [new_table] at hn
  have hnf : (((Array.new h).run ops).heap.arrays t1).nNextFreeElement = nextFree ops := hn
  refine ⟨by rw [hp.storage]; exact hnf, ?_, ?_, by decide, by decide, by decide⟩
  · intro hfree
    rw [contains_long_eq hp] at hfree
    have hl : (((Array.new h).run ops).heap.arrays t1).lookup (.idx (toUlong (nextFree ops)))
        = none := by
      cases hl : (((Array.new h).run ops).heap.arrays t1).lookup
          (.idx (toUlong (nextFree ops))) with
      | none => rfl
      | some w => rw [hl] at hfree; exact absurd hfree (by simp)
    obtain ⟨t2, rc, _, hp2, _, _, hm⟩ := append_spec hp
    simp only [zend_hash_next_index_insert, zend_hash_index_exists, hnf, hl,
      Option.isSome_none, Bool.false_eq_true, if_false] at hm
    refine ⟨t2, hm.1, ?_⟩
    rw [contains_long_eq hp2, hm.2, lookup_refcount]
    simp only [zend_array.lookup] at hl
    simp [zend_array.lookup, zend_hash_index_add_new, lookupFirst_append_single, hl]
  · intro hlt
    rw [contains_long_eq hp]
    cases hl : (((Array.new h).run ops).heap.arrays t1).lookup
        (.idx (toUlong (nextFree ops))) with
    | none => rfl
    | some w =>
      exfalso
      have hb := hT.present _ w hl
      have h0 := hT.1
      have h1 := hT.2.1
      rw [hnf] at hb h0 h1
      rw [toLong_toUlong _ (by omega) (by unfold ZEND_LONG_MAX at h1; omega)] at hb
      unfold bump at hb
      rw [if_pos (le_refl _), if_pos hlt] at hb
      omega

theorem C4_append_lands_at_next_free_witness :
    nextFree [.append, .append, .append, .unset_long 2] < ZEND_LONG_MAX ∧
    ∃ t1, ((Array.new Heap.empty).run [.append, .append, .append, .unset_long 2]).append.2 =
      .ok (.bucket t1 (.idx (toUlong (nextFree [.append, .append, .append, .unset_long 2])))) :=
  ⟨by decide,
   ((C4_append_lands_at_next_free Heap.empty [.append, .append, .append, .unset_long 2]).2.1
      ((C4_append_lands_at_next_free Heap.empty
        [.append, .append, .append, .unset_long 2]).2.2.1 (by decide))).imp fun _ h => h.1⟩

/-- C4, counterexample: keys 0, 1, 2 are appended to a new array and key 2 is unset.
The largest key present is 1, so the spec's formula gives 2; `append` lands at 3. -/
theorem C4_counterexample :
    ((Array.new Heap.empty).run [.append, .append, .append, .unset_long 2]).contains_long 1
      = .ok true ∧
    ((Array.new Heap.empty).run [.append, .append, .append, .unset_long 2]).contains_long 2
      = .ok false ∧
    specAppendIndex ((Array.new Heap.empty).run
      [.append, .append, .append, .unset_long 2]).storage = 2 ∧
    ((Array.new Heap.empty).run [.append, .append, .append, .unset_long 2]).append.2
      = .ok (.bucket 1 (.idx 3)) := by
  decide!


/-! ## Keys given as a `Value` -/

/-- C5 (the code as written): for a key of type Integer, `at(Value)`, `contains(Value)`
and `unset(Value)` pass `Z_LVAL(this->m_z)`, the payload of the Array's own value, and
never look at the payload `n` of the key.  On a new array, whose value is the pointer to
its table (address 1 in the empty heap), `at` with the Integer key 5 creates the slot
at key 1: afterwards `contains(5)` fails and `contains(1)` holds. -/
theorem C5_integer_key_reads_container (dv : Nat → Int) (a : Array) (n : Int) (fuel : Nat) :
    Array.at_value dv a (.long n) (fuel + 1) = some (a.at_long (Z_LVAL a.m_z)) ∧
    Array.contains_value dv a (.long n) (fuel + 1) = some (a.contains_long (Z_LVAL a.m_z)) ∧
    Array.unset_value dv a (.long n) (fuel + 1) = some (a.unset_long (Z_LVAL a.m_z)) ∧
    (Array.at_value (fun _ => 0) (Array.new Heap.empty) (.long 5) 1).map
      (fun r => r.1.contains_long 5) = some (.ok false) ∧
    (Array.at_value (fun _ => 0) (Array.new Heap.empty) (.long 5) 1).map
      (fun r => r.1.contains_long 1) = some (.ok true) :=
  ⟨rfl, rfl, rfl, by decide!, by decide!⟩

theorem at_value_loop_reference (dv : Nat → Int) (a : Array) (r : Nat) (fuel : Nat) :
    ∀ z, Array.at_value_loop dv a (.reference r) fuel z = none := by
  induction fuel with
  | zero => intro z; rfl
  | succ fuel ih => intro z; simp only [Array.at_value_loop, Value.type]; exact ih _

theorem contains_value_loop_reference (dv : Nat → Int) (a : Array) (r : Nat) (fuel : Nat) :
    ∀ z, Array.contains_value_loop dv a (.reference r) fuel z = none := by
  induction fuel with
  | zero => intro z; rfl
  | succ fuel ih => intro z; simp only [Array.contains_value_loop, Value.type]; exact ih _

theorem unset_value_loop_reference (dv : Nat → Int) (a : Array) (r : Nat) (fuel : Nat) :
    ∀ z, Array.unset_value_loop dv a (.reference r) fuel z = none := by
  induction fuel with
  | zero => intro z; rfl
  | succ fuel ih => intro z; simp only [Array.unset_value_loop, Value.type]; exact ih _

/-- C6 (the code as written): for a key of type Reference the loops of `at(Value)`,
`contains(Value)` and `unset(Value)` never leave: whatever the fuel, it runs out with
the loop still running.  The `switch` tests `key.type()`, which stays Reference; the
dereference step only moves the local `z`. -/
theorem C6_reference_key_never_returns (dv : Nat → Int) (a : Array) (r : Nat) (fuel : Nat) :
    Array.at_value dv a (.reference r) fuel = none ∧
    Array.contains_value dv a (.reference r) fuel = none ∧
    Array.unset_value dv a (.reference r) fuel = none :=
  ⟨at_value_loop_reference dv a r fuel _, contains_value_loop_reference dv a r fuel _,
   unset_value_loop_reference dv a r fuel _⟩

theorem at_long_result (a : Array) (idx : Int) :
    (a.at_long idx).2 ≠ .error .IllegalKeyType ∧
    (a.isArray = true → ∃ p, (a.at_long idx).2 = .ok p) := by
  constructor
  · unfold Array.at_long
    cases hd : derefAndCheck a .m_z with
    | error e => rw [derefAndCheck_error a _ e hd]; simp
    | ok z => simp only; split <;> simp
  · intro ha
    obtain ⟨z, t, hp⟩ := Array.PointsTo.of_isArray a ha
    obtain ⟨t1, _, _, hres, _⟩ := at_long_spec hp idx
    exact ⟨_, hres⟩

theorem at_string_result (a : Array) (key : List Nat) :
    (a.at_string key).2 ≠ .error .IllegalKeyType ∧
    (a.isArray = true → ∃ p, (a.at_string key).2 = .ok p) := by
  cases hk : ZEND_HANDLE_NUMERIC key with
  | some hval => rw [at_string_numeric a key hval hk]; exact at_long_result a _
  | none =>
    constructor
    · simp only [Array.at_string, hk]
      cases hd : derefAndCheck a .m_z with
      | error e => rw [derefAndCheck_error a _ e hd]; simp
      | ok z =>
        simp only
        split
        · split <;> simp
        · simp
        · simp
    · intro ha
      obtain ⟨z, t, hp⟩ := Array.PointsTo.of_isArray a ha
      by_cases hind : ∃ c, (a.heap.arrays t).lookup (.str key) = some (.indirect c)
      · obtain ⟨c, hl⟩ := hind
        obtain ⟨_, _, _, _, _, _, hres, _⟩ := at_string_spec_indirect hp key hk c hl
        exact ⟨_, hres⟩
      · obtain ⟨_, _, _, _, _, _, hres, _⟩ :=
          at_string_spec_direct hp key hk (fun c hc => hind ⟨c, hc⟩)
        exact ⟨_, hres⟩

theorem contains_long_result (a : Array) (idx : Int) :
    a.contains_long idx ≠ .error .IllegalKeyType ∧
    (a.isArray = true → ∃ b, a.contains_long idx = .ok b) := by
  constructor
  · unfold Array.contains_long
    cases hd : derefAndCheck a .m_z with
    | error e => rw [derefAndCheck_error a _ e hd]; simp
    | ok z => simp
  · intro ha
    obtain ⟨z, t, hp⟩ := Array.PointsTo.of_isArray a ha
    exact ⟨_, contains_long_eq hp idx⟩

theorem contains_string_result (a : Array) (key : List Nat) :
    a.contains_string key ≠ .error .IllegalKeyType ∧
    (a.isArray = true → ∃ b, a.contains_string key = .ok b) := by
  cases hk : ZEND_HANDLE_NUMERIC key with
  | some hval => rw [(at_string_eq_at_long a key hval hk).2]; exact contains_long_result a _
  | none =>
    constructor
    · simp only [Array.contains_string, hk]
      cases hd : derefAndCheck a .m_z with
      | error e => rw [derefAndCheck_error a _ e hd]; simp
      | ok z => simp
    · intro ha
      obtain ⟨z, t, hp⟩ := Array.PointsTo.of_isArray a ha
      exact ⟨_, contains_string_eq hp key hk⟩

theorem unset_long_result (a : Array) (idx : Int) :
    (a.unset_long idx).2 ≠ .error .IllegalKeyType ∧
    (a.isArray = true → (a.unset_long idx).2 = .ok ()) := by
  constructor
  · unfold Array.unset_long
    cases hd : derefAndCheck a .m_z with
    | error e => rw [derefAndCheck_error a _ e hd]; simp
    | ok z => simp
  · intro ha
    obtain ⟨z, t, hp⟩ := Array.PointsTo.of_isArray a ha
    obtain ⟨_, _, _, _, hres, _⟩ := unset_long_spec hp idx
    exact hres

theorem unset_string_result (a : Array) (key : List Nat) :
    (a.unset_string key).2 ≠ .error .IllegalKeyType ∧
    (a.isArray = true → (a.unset_string key).2 = .ok ()) := by
  cases hk : ZEND_HANDLE_NUMERIC key with
  | some hval =>
    have he : a.unset_string key = a.unset_long (toLong hval) := by
      simp [Array.unset_string, hk]
    rw [he]; exact unset_long_result a _
  | none =>
    constructor
    · simp only [Array.unset_string, hk]
      cases hd : derefAndCheck a .m_z with
      | error e => rw [derefAndCheck_error a _ e hd]; simp
      | ok z => simp only; split <;> simp
    · intro ha
      obtain ⟨z, t, hp⟩ := Array.PointsTo.of_isArray a ha
      obtain ⟨_, _, _, _, hres, _⟩ := unset_string_spec hp key hk
      exact hres


/-- C7: a key of type Array or Object makes `at(Value)`, `contains(Value)` and
`unset(Value)` throw "Illegal offset type" (with the Array left as it was), in the
first turn of the loop.  For a key of type String, Integer, Double, True, False, Null,
Undefined or Resource each of the three returns from the first turn of the loop, never
with "Illegal offset type", and without any failure when the Array is array-shaped. -/
theorem C7_illegal_key_sources (dv : Nat → Int) (a : Array) (key : Zval) (fuel : Nat) :
    (Value.type key = .Array ∨ Value.type key = .Object →
      Array.at_value dv a key (fuel + 1) = some (a, .error .IllegalKeyType) ∧
      Array.contains_value dv a key (fuel + 1) = some (.error .IllegalKeyType) ∧
      Array.unset_value dv a key (fuel + 1) = some (a, .error .IllegalKeyType)) ∧
    (Value.type key = .String ∨ Value.type key = .Integer ∨ Value.type key = .Double ∨
      Value.type key = .True ∨ Value.type key = .False ∨ Value.type key = .Null ∨
      Value.type key = .Undefined ∨ Value.type key = .Resource →
      (∃ r, Array.at_value dv a key (fuel + 1) = some r ∧ r.2 ≠ .error .IllegalKeyType ∧
        (a.isArray = true → ∃ p, r.2 = .ok p)) ∧
      (∃ r, Array.contains_value dv a key (fuel + 1) = some r ∧ r ≠ .error .IllegalKeyType ∧
        (a.isArray = true → ∃ b, r = .ok b)) ∧
      (∃ r, Array.unset_value dv a key (fuel + 1) = some r ∧ r.2 ≠ .error .IllegalKeyType ∧
        (a.isArray = true → r.2 = .ok ()))) := by
  have hl : ∀ idx : Int,
      (∃ r, some (a.at_long idx) = some r ∧ r.2 ≠ .error .IllegalKeyType ∧
        (a.isArray = true → ∃ p, r.2 = .ok p)) ∧
      (∃ r, some (a.contains_long idx) = some r ∧ r ≠ .error .IllegalKeyType ∧
        (a.isArray = true → ∃ b, r = .ok b)) ∧
      (∃ r, some (a.unset_long idx) = some r ∧ r.2 ≠ .error .IllegalKeyType ∧
        (a.isArray = true → r.2 = .ok ())) := fun idx =>
    ⟨⟨_, rfl, at_long_result a idx⟩, ⟨_, rfl, contains_long_result a idx⟩,
     ⟨_, rfl, unset_long_result a idx⟩⟩
  have hs : ∀ k : List Nat,
      (∃ r, some (a.at_string k) = some r ∧ r.2 ≠ .error .IllegalKeyType ∧
        (a.isArray = true → ∃ p, r.2 = .ok p)) ∧
      (∃ r, some (a.contains_string k) = some r ∧ r ≠ .error .IllegalKeyType ∧
        (a.isArray = true → ∃ b, r = .ok b)) ∧
      (∃ r, some (a.unset_string k) = some r ∧ r.2 ≠ .error .IllegalKeyType ∧
        (a.isArray = true → r.2 = .ok ())) := fun k =>
    ⟨⟨_, rfl, at_string_result a k⟩, ⟨_, rfl, contains_string_result a k⟩,
     ⟨_, rfl, unset_string_result a k⟩⟩
  cases key <;> refine ⟨fun h => ?_, fun h => ?_⟩ <;> simp [Value.type] at h <;>
    first
    | exact ⟨rfl, rfl, rfl⟩
    | exact hl _
    | exact hs _

theorem C7_illegal_key_sources_witness :
    Array.at_value (fun _ => 0) (Array.new Heap.empty) (.object 3) 1 =
      some (Array.new Heap.empty, .error .IllegalKeyType) ∧
    ∃ r, Array.unset_value (fun _ => 0) (Array.new Heap.empty) (.string (bytes "x")) 1 = some r ∧
      r.2 ≠ .error .IllegalKeyType ∧
      ((Array.new Heap.empty).isArray = true → r.2 = .ok ()) :=
  ⟨((C7_illegal_key_sources (fun _ => 0) (Array.new Heap.empty) (.object 3) 0).1
      (Or.inr rfl)).1,
   ((C7_illegal_key_sources (fun _ => 0) (Array.new Heap.empty) (.string (bytes "x")) 0).2
      (Or.inl rfl)).2.2⟩


/-! ## Size -/

/-- What `at` does to the keys of the table: nothing when the key is present, else the
key is added at the tail. -/
theorem at_key_keys {a : Array} {z : ZvalPtr} {t : Nat} (h : a.PointsTo z t) (k : KeyArg) :
    ∃ t1, (a.at_key k).1.PointsTo z t1 ∧
      ((a.at_key k).1.heap.arrays t1).keys =
        if k.canon ∈ (a.heap.arrays t).keys then (a.heap.arrays t).keys
        else (a.heap.arrays t).keys ++ [k.canon] := by
  have hlong : ∀ idx : Int, ∃ t1, (a.at_long idx).1.PointsTo z t1 ∧
      ((a.at_long idx).1.heap.arrays t1).keys =
        if Key.idx (toUlong idx) ∈ (a.heap.arrays t).keys then (a.heap.arrays t).keys
        else (a.heap.arrays t).keys ++ [Key.idx (toUlong idx)] := by
    intro idx
    obtain ⟨t1, rc, _, _, hp, harr, _, _⟩ := at_long_spec h idx
    refine ⟨t1, hp, ?_⟩
    rw [harr]
    cases hl : (a.heap.arrays t).lookup (.idx (toUlong idx)) with
    | some w =>
      have : Key.idx (toUlong idx) ∈ (a.heap.arrays t).keys := by
        rw [zend_array.keys, ← lookupFirst_isSome_iff]
        simp only [zend_array.lookup] at hl; rw [hl]; rfl
      rw [if_pos this]; rfl
    | none =>
      have : Key.idx (toUlong idx) ∉ (a.heap.arrays t).keys := by
        rw [zend_array.keys, ← lookupFirst_eq_none_iff]; exact hl
      rw [if_neg this]
      simp [zend_array.keys, zend_hash_index_add_new]
  cases k with
  | int n => exact hlong n
  | str s =>
    simp only [Array.at_key, KeyArg.canon]
    cases hk : ZEND_HANDLE_NUMERIC s with
    | some hval => rw [at_string_numeric a s hval hk]; exact hlong _
    | none =>
      obtain ⟨t1, rc, _, hp, harr, _, _⟩ := at_string_spec h s hk
      refine ⟨t1, hp, ?_⟩
      rw [harr]
      cases hl : (a.heap.arrays t).lookup (.str s) with
      | some w =>
        have : Key.str s ∈ (a.heap.arrays t).keys := by
          rw [zend_array.keys, ← lookupFirst_isSome_iff]
          simp only [zend_array.lookup] at hl; rw [hl]; rfl
        simp only [this, if_true]; rfl
      | none =>
        have : Key.str s ∉ (a.heap.arrays t).keys := by
          rw [zend_array.keys, ← lookupFirst_eq_none_iff]; exact hl
        simp only [this, if_false]
        simp [zend_array.keys, zend_hash_add_new]

theorem insertAll_keys (keys : List KeyArg) : ∀ {a : Array} {z : ZvalPtr} {t : Nat},
    a.PointsTo z t → (∀ k ∈ keys, k.canon ∉ (a.heap.arrays t).keys) →
    (keys.map KeyArg.canon).Nodup →
    ∃ t1, (a.insertAll keys).PointsTo z t1 ∧
      ((a.insertAll keys).heap.arrays t1).keys =
        (a.heap.arrays t).keys ++ keys.map KeyArg.canon := by
  induction keys with
  | nil => intro a z t h _ _; exact ⟨t, h, by simp [Array.insertAll]⟩
  | cons k ks ih =>
    intro a z t h hfresh hnd
    obtain ⟨t1, hp1, hk1⟩ := at_key_keys h k
    rw [if_neg (hfresh k (List.mem_cons_self _ _))] at hk1
    have hnd' : k.canon ∉ ks.map KeyArg.canon ∧ (ks.map KeyArg.canon).Nodup :=
      List.nodup_cons.mp hnd
    obtain ⟨t2, hp2, hk2⟩ := ih hp1
      (by
        intro k' hk' hmem
        rw [hk1, List.mem_append, List.mem_singleton] at hmem
        rcases hmem with hmem | hmem
        · exact hfresh k' (List.mem_cons_of_mem _ hk') hmem
        · exact hnd'.1 (hmem ▸ List.mem_map_of_mem _ hk'))
      hnd'.2
    refine ⟨t2, hp2, ?_⟩
    simp only [Array.insertAll, List.foldl_cons] at hk2 ⊢
    rw [hk2, hk1]
    simp

/-- C8, as amended: size counts the keys that are distinct after canonicalisation.
After `at(key)` for each key of a sequence on a new array, where the keys are pairwise
distinct once every integer is read as its index and every canonical integer string as
the integer it denotes, `size()` is the length of the sequence. -/
theorem C8_size_counts_canonical_keys (h : Heap) (keys : List KeyArg)
    (hd : (keys.map KeyArg.canon).Nodup) :
    ((Array.new h).insertAll keys).size = .ok keys.length := by
  obtain ⟨t1, hp, hk⟩ := insertAll_keys keys (new_pointsTo h)
    (by intro k _; rw [new_table]; simp [zend_array.keys]) hd
  rw [size_eq hp]
  have := congrArg List.length hk
  rw [new_table] at this
  simp only [zend_array.keys, List.length_map, List.map_nil, List.nil_append] at this
  rw [this]

theorem C8_size_counts_canonical_keys_witness :
    ([KeyArg.int (-1), KeyArg.str (bytes "x"), KeyArg.int 42, KeyArg.str (bytes "042")].map
      KeyArg.canon).Nodup ∧
    ((Array.new Heap.empty).insertAll
      [KeyArg.int (-1), KeyArg.str (bytes "x"), KeyArg.int 42, KeyArg.str (bytes "042")]).size
      = .ok 4 :=
  ⟨by decide, C8_size_counts_canonical_keys Heap.empty _ (by decide)⟩

/-- C8, counterexample: the integer 42 and the string "42" are distinct keys, and after
`at(42)` and `at("42")` on a new array the size is 1. -/
theorem C8_counterexample :
    [KeyArg.int 42, KeyArg.str (bytes "42")].Nodup ∧
    ((Array.new Heap.empty).insertAll [KeyArg.int 42, KeyArg.str (bytes "42")]).size = .ok 1 := by
  decide!


/-! ## `at` creates exactly the requested slot -/

theorem canon_numeric (s : List Nat) (hval : Nat) (hk : ZEND_HANDLE_NUMERIC s = some hval) :
    (KeyArg.str s).canon = (KeyArg.int (toLong hval)).canon := by
  simp [KeyArg.canon, hk]

theorem canon_not_numeric (s : List Nat) (hk : ZEND_HANDLE_NUMERIC s = none) :
    (KeyArg.str s).canon = .str s := by
  simp [KeyArg.canon, hk]

theorem contains_key_eq {a : Array} {z : ZvalPtr} {t : Nat} (h : a.PointsTo z t) (k : KeyArg) :
    a.contains_key k = .ok ((a.heap.arrays t).lookup k.canon).isSome := by
  cases k with
  | int n => exact contains_long_eq h n
  | str s =>
    cases hk : ZEND_HANDLE_NUMERIC s with
    | some hval =>
      rw [canon_numeric s hval hk]
      simp only [Array.contains_key, (at_string_eq_at_long a s hval hk).2]
      exact contains_long_eq h _
    | none =>
      rw [canon_not_numeric s hk]
      exact contains_string_eq h s hk

theorem valueOf_eq {a : Array} {z : ZvalPtr} {t : Nat} (h : a.PointsTo z t) (k : KeyArg) :
    readThrough (a.at_key k) = .ok (a.valueOf k) := by
  cases k with
  | int n =>
    simp only [Array.at_key, Array.valueOf, KeyArg.canon, h.storage]
    exact read_at_long_eq h n
  | str s =>
    cases hk : ZEND_HANDLE_NUMERIC s with
    | some hval =>
      simp only [Array.at_key, Array.valueOf, KeyArg.canon, hk, h.storage,
        at_string_numeric a s hval hk]
      exact read_at_long_eq h _
    | none =>
      simp only [Array.at_key, Array.valueOf, KeyArg.canon, hk, h.storage]
      exact read_at_string_eq h s hk

/-- What `at` does to the buckets and the cells.  A key that is present leaves the
buckets as they are; a key that is absent gets a bucket holding NULL at the tail.  Cells
only change by an UNDEF cell becoming NULL. -/
theorem at_key_spec {a : Array} {z : ZvalPtr} {t : Nat} (h : a.PointsTo z t) (k : KeyArg) :
    ∃ t1 p, (a.at_key k).2 = .ok p ∧ (a.at_key k).1.PointsTo z t1 ∧
      ((a.at_key k).1.heap.arrays t1).arData =
        (match (a.heap.arrays t).lookup k.canon with
          | some _ => (a.heap.arrays t).arData
          | none => (a.heap.arrays t).arData ++ [⟨k.canon, .null⟩]) ∧
      (∀ c, (a.at_key k).1.heap.cells c = a.heap.cells c ∨
        (a.heap.cells c = .undef ∧ (a.at_key k).1.heap.cells c = .null)) ∧
      ((a.heap.arrays t).lookup k.canon = none → (a.at_key k).1.heap.cells = a.heap.cells) := by
  have hlong : ∀ idx : Int, ∃ t1 p, (a.at_long idx).2 = .ok p ∧ (a.at_long idx).1.PointsTo z t1 ∧
      ((a.at_long idx).1.heap.arrays t1).arData =
        (match (a.heap.arrays t).lookup (.idx (toUlong idx)) with
          | some _ => (a.heap.arrays t).arData
          | none => (a.heap.arrays t).arData ++ [⟨.idx (toUlong idx), .null⟩]) ∧
      (∀ c, (a.at_long idx).1.heap.cells c = a.heap.cells c ∨
        (a.heap.cells c = .undef ∧ (a.at_long idx).1.heap.cells c = .null)) ∧
      ((a.heap.arrays t).lookup (.idx (toUlong idx)) = none →
        (a.at_long idx).1.heap.cells = a.heap.cells) := by
    intro idx
    obtain ⟨t1, rc, _, hres, hp, harr, hc, _⟩ := at_long_spec h idx
    refine ⟨t1, _, hres, hp, ?_, fun c => Or.inl (by rw [hc]), fun _ => hc⟩
    rw [harr]
    cases (a.heap.arrays t).lookup (.idx (toUlong idx)) <;> rfl
  cases k with
  | int n => exact hlong n
  | str s =>
    cases hk : ZEND_HANDLE_NUMERIC s with
    | some hval =>
      rw [canon_numeric s hval hk]
      simp only [Array.at_key, at_string_numeric a s hval hk]
      exact hlong _
    | none =>
      rw [canon_not_numeric s hk]
      simp only [Array.at_key]
      by_cases hind : ∃ c, (a.heap.arrays t).lookup (.str s) = some (.indirect c)
      · obtain ⟨c, hl⟩ := hind
        obtain ⟨t1, rc, _, hp, harr, _, hres, hcells⟩ := at_string_spec_indirect h s hk c hl
        refine ⟨t1, _, hres, hp, by rw [harr, hl], ?_, fun hn => by rw [hl] at hn; cases hn⟩
        intro c'
        rw [hcells]
        by_cases hu : a.heap.cells c = .undef
        · rw [if_pos hu]
          by_cases hc : c' = c
          · subst hc; right; exact ⟨hu, by simp⟩
          · left; simp [Function.update, hc]
        · rw [if_neg hu]; left; rfl
      · obtain ⟨t1, rc, _, hp, harr, _, hres, hcells⟩ :=
          at_string_spec_direct h s hk (fun c hc => hind ⟨c, hc⟩)
        refine ⟨t1, _, hres, hp, ?_, fun c => Or.inl (by rw [hcells]), fun _ => hcells⟩
        rw [harr]
        cases (a.heap.arrays t).lookup (.str s) <;> rfl


theorem readSlot_congr (cells cells' : Nat → Zval) (x : Option Zval)
    (hc : ∀ c, cells' c = cells c ∨ (cells c = .undef ∧ cells' c = .null)) :
    readSlot cells' x = readSlot cells x := by
  cases x with
  | none => rfl
  | some w =>
    cases w with
    | indirect c =>
      simp only [readSlot]
      rcases hc c with he | ⟨hu, hn⟩
      · rw [he]
      · simp [hu, hn]
    | _ => rfl

theorem valueOf_congr {a b : Array} {z z' : ZvalPtr} {t t' : Nat} (ha : a.PointsTo z t)
    (hb : b.PointsTo z' t') (k : KeyArg)
    (hl : (b.heap.arrays t').lookup k.canon = (a.heap.arrays t).lookup k.canon)
    (hc : ∀ c, b.heap.cells c = a.heap.cells c ∨
      (a.heap.cells c = .undef ∧ b.heap.cells c = .null)) : b.valueOf k = a.valueOf k := by
  simp only [Array.valueOf, ha.storage, hb.storage]
  cases hk : k.canon with
  | idx h => rw [hk] at hl; simp only [hl]
  | str s => rw [hk] at hl; simp only [hl]; exact readSlot_congr _ _ _ hc

/-- C9: mutable access creates exactly the requested slot.  On an array-shaped Array
`at(k)` returns a handle, the handle reads the value held for `k`, and afterwards
`contains(k)` holds.  If `k` was absent, one bucket holding NULL is added at the tail:
the size grows by one and every other key keeps its presence and its value.  If `k` was
present, the buckets, the size and the presence and value of every key are unchanged.
In the spec's scenario the size is 3, keys 0, 1 and "x" are present and key 1 holds
20. -/
theorem C9_at_creates_exactly_the_requested_slot (a : Array) (k : KeyArg)
    (ha : a.isArray = true) :
    (∃ p, (a.at_key k).2 = .ok p) ∧
    (a.at_key k).1.contains_key k = .ok true ∧
    readThrough (a.at_key k) = .ok (a.valueOf k) ∧
    (a.contains_key k = .ok false →
      (a.at_key k).1.storage.arData = a.storage.arData ++ [⟨k.canon, .null⟩] ∧
      (∃ n, a.size = .ok n ∧ (a.at_key k).1.size = .ok (n + 1)) ∧
      ∀ k' : KeyArg, k'.canon ≠ k.canon →
        (a.at_key k).1.contains_key k' = a.contains_key k' ∧
        (a.at_key k).1.valueOf k' = a.valueOf k') ∧
    (a.contains_key k = .ok true →
      (a.at_key k).1.storage.arData = a.storage.arData ∧
      (a.at_key k).1.size = a.size ∧
      ∀ k' : KeyArg,
        (a.at_key k).1.contains_key k' = a.contains_key k' ∧
        (a.at_key k).1.valueOf k' = a.valueOf k') ∧
    (exampleScenario.size = .ok 3 ∧ exampleScenario.contains_long 0 = .ok true ∧
      exampleScenario.contains_long 1 = .ok true ∧
      exampleScenario.contains_string (bytes "x") = .ok true ∧
      readThrough (exampleScenario.at_long 1) = .ok (.long 20)) := by
  obtain ⟨z, t, hp⟩ := Array.PointsTo.of_isArray a ha
  obtain ⟨t1, p, hres, hp1, harr, hcells, hcells0⟩ := at_key_spec hp k
  have hlk : ∀ key, ((a.at_key k).1.heap.arrays t1).lookup key =
      lookupFirst key ((a.at_key k).1.heap.arrays t1).arData := fun _ => rfl
  refine ⟨⟨p, hres⟩, ?_, valueOf_eq hp k, ?_, ?_, by decide!⟩
  · rw [contains_key_eq hp1, hlk, harr]
    cases hl : (a.heap.arrays t).lookup k.canon with
    | some w => simp only [zend_array.lookup] at hl; simp [hl]
    | none =>
      simp only [zend_array.lookup] at hl
      simp [lookupFirst_append_single, hl]
  · intro habs
    rw [contains_key_eq hp] at habs
    have hl : (a.heap.arrays t).lookup k.canon = none := by
      cases hl : (a.heap.arrays t).lookup k.canon with
      | none => rfl
      | some w => rw [hl] at habs; exact absurd habs (by simp)
    rw [hl] at harr
    have hother : ∀ key, key ≠ k.canon →
        ((a.at_key k).1.heap.arrays t1).lookup key = (a.heap.arrays t).lookup key := by
      intro key hne
      rw [hlk, harr, lookupFirst_append_single]
      simp only [zend_array.lookup, Ne.symm hne, if_false]
      cases lookupFirst key (a.heap.arrays t).arData <;> rfl
    refine ⟨by rw [hp1.storage, hp.storage]; exact harr,
      ⟨_, size_eq hp, by rw [size_eq hp1, harr]; simp⟩, fun k' hne => ⟨?_, ?_⟩⟩
    · rw [contains_key_eq hp1, contains_key_eq hp, hother _ hne]
    · exact valueOf_congr hp hp1 k' (hother _ hne) (fun c => Or.inl (by rw [hcells0 hl]))
  · intro hpres
    rw [contains_key_eq hp] at hpres
    have hl : ∃ w, (a.heap.arrays t).lookup k.canon = some w := by
      cases hl : (a.heap.arrays t).lookup k.canon with
      | none => rw [hl] at hpres; exact absurd hpres (by simp)
      | some w => exact ⟨w, rfl⟩
    obtain ⟨w, hl⟩ := hl
    rw [hl] at harr
    have hsame : ∀ key,
        ((a.at_key k).1.heap.arrays t1).lookup key = (a.heap.arrays t).lookup key := by
      intro key; rw [hlk, harr]; rfl
    refine ⟨by rw [hp1.storage, hp.storage]; exact harr,
      by rw [size_eq hp1, size_eq hp, harr], fun k' => ⟨?_, ?_⟩⟩
    · rw [contains_key_eq hp1, contains_key_eq hp, hsame]
    · exact valueOf_congr hp hp1 k' (hsame _) hcells

theorem C9_at_creates_exactly_the_requested_slot_witness :
    (Array.new Heap.empty).isArray = true ∧
    ((Array.new Heap.empty).at_key (.str (bytes "x"))).1.contains_key (.str (bytes "x"))
      = .ok true :=
  ⟨by decide,
   (C9_at_creates_exactly_the_requested_slot (Array.new Heap.empty) (.str (bytes "x"))
      (by decide)).2.1⟩


/-! ## `unset` removes one entry or nothing -/

theorem Array.PointsTo.tableAddr {a : Array} {z : ZvalPtr} {t : Nat} (h : a.PointsTo z t) :
    a.tableAddr = t := by
  simp [Array.tableAddr, h.1, h.2, Z_ARR]

/-- Two integers in the `zend_long` range are stored under the same bucket key only when
they are equal; a canonical integer string is stored under the key of its integer; a
string that is not canonical is stored under itself. -/
theorem canon_facts :
    (∀ n m : Int, ZEND_LONG_MIN ≤ n → n ≤ ZEND_LONG_MAX → ZEND_LONG_MIN ≤ m →
      m ≤ ZEND_LONG_MAX → (KeyArg.int n).canon = (KeyArg.int m).canon → n = m) ∧
    (∀ n : Int, ZEND_LONG_MIN ≤ n → n ≤ ZEND_LONG_MAX →
      (KeyArg.str (decimal n)).canon = (KeyArg.int n).canon) ∧
    (∀ s : List Nat, ¬ IsCanonicalIntString s → (KeyArg.str s).canon = .str s) := by
  refine ⟨?_, ?_, ?_⟩
  · intro n m h1 h2 h3 h4 he
    simp only [KeyArg.canon, Key.idx.injEq] at he
    unfold toUlong at he
    unfold ZEND_LONG_MIN at h1 h3
    unfold ZEND_LONG_MAX at h2 h4
    omega
  · intro n h1 h2
    rw [canon_numeric _ _ (handle_numeric_decimal n h1 h2), toLong_toUlong n h1 h2]
  · intro s hs
    exact canon_not_numeric s (not_canonical s hs)

/-- An Array that holds a Reference keeps it through every write: the writes go through
the reference cell, `m_z` is not repointed. -/
theorem apply_keeps_reference (a : Array) (r : Nat) (hm : a.m_z = .reference r) (op : WriteOp) :
    (a.apply op).m_z = .reference r := by
  have hsep : ∀ z, derefAndCheck a .m_z = .ok z → (SEPARATE_ARRAY a z).m_z = .reference r := by
    intro z hz
    rcases derefAndCheck_cases a z hz with ⟨_, t, ht⟩ | ⟨r', t, rfl, hr, _⟩
    · rw [hm] at ht; cases ht
    · unfold SEPARATE_ARRAY
      simp only
      split
      · simp [Array.store, hm]
      · exact hm
  cases op with
  | at_long idx =>
    simp only [Array.apply, Array.at_long]
    cases hd : derefAndCheck a .m_z with
    | error e => exact hm
    | ok z => simp only; split <;> exact hsep z hd
  | at_string key =>
    simp only [Array.apply, Array.at_string]
    cases hk : ZEND_HANDLE_NUMERIC key with
    | some hval =>
      simp only [Array.at_long]
      cases hd : derefAndCheck a .m_z with
      | error e => exact hm
      | ok z => simp only; split <;> exact hsep z hd
    | none =>
      cases hd : derefAndCheck a .m_z with
      | error e => exact hm
      | ok z =>
        simp only
        split
        · split <;> exact hsep z hd
        · exact hsep z hd
        · exact hsep z hd
  | append =>
    simp only [Array.apply, Array.append]
    cases hd : derefAndCheck a .m_z with
    | error e => exact hm
    | ok z => simp only; split <;> exact hsep z hd
  | unset_long idx =>
    simp only [Array.apply, Array.unset_long]
    cases hd : derefAndCheck a .m_z with
    | error e => exact hm
    | ok z => exact hsep z hd
  | unset_string key =>
    simp only [Array.apply, Array.unset_string]
    cases hk : ZEND_HANDLE_NUMERIC key with
    | some hval =>
      simp only [Array.unset_long]
      cases hd : derefAndCheck a .m_z with
      | error e => exact hm
      | ok z => exact hsep z hd
    | none =>
      cases hd : derefAndCheck a .m_z with
      | error e => exact hm
      | ok z => simp only; split <;> exact hsep z hd

/-- A copy of an Array that holds a Reference shares the reference cell: after any write
through the copy, the original (its `m_z` in the heap the write left) is the very Array
the copy has become, so it shows every change. -/
theorem copy_of_reference_aliases (A : Array) (r : Nat) (hm : A.m_z = .reference r)
    (op : WriteOp) : (⟨(A.copy.apply op).heap, A.m_z⟩ : Array) = A.copy.apply op := by
  have hc : A.copy.m_z = .reference r := by simp [Array.copy, ZVAL_COPY, hm]
  have := apply_keeps_reference A.copy r hc op
  rw [hm, ← this]

/-! ## Boolean and null keys -/

/-- C13: a key of type True acts on integer key 1, a key of type False on integer key 0,
and a key of type Null or Undefined on the empty string, in `at(Value)`,
`contains(Value)` and `unset(Value)` alike: each is the call of the integer or string
overload with that key, made in the first turn of the loop.  The empty string is not
numeric, so it is looked up as a string key, and 1 and 0 as the indexes 1 and 0. -/
theorem C13_boolean_and_null_key_coercion (dv : Nat → Int) (a : Array) (fuel : Nat) :
    (Array.at_value dv a .true_ (fuel + 1) = some (a.at_key (.int 1)) ∧
     Array.contains_value dv a .true_ (fuel + 1) = some (a.contains_key (.int 1)) ∧
     Array.unset_value dv a .true_ (fuel + 1) = some (a.unset_key (.int 1))) ∧
    (Array.at_value dv a .false_ (fuel + 1) = some (a.at_key (.int 0)) ∧
     Array.contains_value dv a .false_ (fuel + 1) = some (a.contains_key (.int 0)) ∧
     Array.unset_value dv a .false_ (fuel + 1) = some (a.unset_key (.int 0))) ∧
    (Array.at_value dv a .null (fuel + 1) = some (a.at_key (.str [])) ∧
     Array.contains_value dv a .null (fuel + 1) = some (a.contains_key (.str [])) ∧
     Array.unset_value dv a .null (fuel + 1) = some (a.unset_key (.str []))) ∧
    (Array.at_value dv a .undef (fuel + 1) = some (a.at_key (.str [])) ∧
     Array.contains_value dv a .undef (fuel + 1) = some (a.contains_key (.str [])) ∧
     Array.unset_value dv a .undef (fuel + 1) = some (a.unset_key (.str []))) ∧
    (KeyArg.int 1).canon = .idx 1 ∧ (KeyArg.int 0).canon = .idx 0 ∧
    (KeyArg.str []).canon = .str [] :=
  ⟨⟨rfl, rfl, rfl⟩, ⟨rfl, rfl, rfl⟩, ⟨rfl, rfl, rfl⟩, ⟨rfl, rfl, rfl⟩,
   by decide, by decide, by decide⟩

/-! ## An Array that is not array-shaped -/

theorem isArray_iff (a : Array) :
    a.isArray = true ↔
      (∃ t, a.m_z = .array t) ∨ (∃ r t, a.m_z = .reference r ∧ (a.heap.refs r).val = .array t) := by
  constructor
  · intro h
    obtain ⟨z, t, hp⟩ := Array.PointsTo.of_isArray a h
    rcases derefAndCheck_cases a z hp.1 with ⟨_, t', ht⟩ | ⟨r, t', _, hr, hv⟩
    · exact Or.inl ⟨t', ht⟩
    · exact Or.inr ⟨r, t', hr, hv⟩
  · rintro (⟨t, ht⟩ | ⟨r, t, hr, hv⟩)
    · exact (pointsTo_direct a t ht).isArray
    · simp [Array.isArray, derefAndCheck, Array.load, hr, hv]

theorem derefAndCheck_of_not_isArray (a : Array) (h : a.isArray = false) :
    derefAndCheck a .m_z = .error .TypeMismatch := by
  unfold Array.isArray at h
  cases hd : derefAndCheck a .m_z with
  | ok z => rw [hd] at h; exact absurd h (by simp)
  | error e => rw [derefAndCheck_error a _ e hd]

theorem append_result (a : Array) :
    a.append.2 ≠ .error .IllegalKeyType ∧
    (a.isArray = true → a.append.2 ≠ .error .TypeMismatch) := by
  constructor
  · unfold Array.append
    cases hd : derefAndCheck a .m_z with
    | error e => rw [derefAndCheck_error a _ e hd]; simp
    | ok z => simp only; split <;> simp
  · intro ha
    obtain ⟨z, t, hp⟩ := Array.PointsTo.of_isArray a ha
    obtain ⟨t1, rc, _, _, _, _, hm⟩ := append_spec hp
    cases hn : zend_hash_next_index_insert (a.heap.arrays t) .null with
    | none => rw [hn] at hm; rw [hm.1]; simp
    | some r => rw [hn] at hm; rw [hm.1]; simp

/-- C18: on an Array whose value, after one Reference is followed, is no array, `size`,
`contains`, `at`, `append` and `unset` with an integer or string key all throw
"Not an array" and leave the Array and the heap as they were; a moved-from Array, whose
value is UNDEF, is such an Array.  On an Array whose value is an array, directly or
behind one Reference, none of them throws "Not an array": `size`, `contains`, `at` and
`unset` return, `append` returns or throws for an occupied slot. -/
theorem C18_type_mismatch_on_non_array (a : Array) (k : KeyArg) :
    (a.isArray = false →
      a.size = .error .TypeMismatch ∧
      a.contains_key k = .error .TypeMismatch ∧
      a.at_key k = (a, .error .TypeMismatch) ∧
      a.append = (a, .error .TypeMismatch) ∧
      a.unset_key k = (a, .error .TypeMismatch)) ∧
    (a.isArray = true →
      (∃ n, a.size = .ok n) ∧ (∃ b, a.contains_key k = .ok b) ∧
      (∃ p, (a.at_key k).2 = .ok p) ∧ a.append.2 ≠ .error .TypeMismatch ∧
      (a.unset_key k).2 = .ok ()) ∧
    (a.isArray = true ↔
      (∃ t, a.m_z = .array t) ∨
      (∃ r t, a.m_z = .reference r ∧ (a.heap.refs r).val = .array t)) ∧
    (Array.move a).2.isArray = false ∧ (Array.move a).1 = a := by
  refine ⟨fun h => ?_, fun h => ?_, isArray_iff a, ?_, rfl⟩
  · have hd := derefAndCheck_of_not_isArray a h
    have hl : ∀ idx, a.at_long idx = (a, .error .TypeMismatch) := by
      intro idx; simp [Array.at_long, hd]
    have hc : ∀ idx, a.contains_long idx = .error .TypeMismatch := by
      intro idx; simp [Array.contains_long, hd]
    have hu : ∀ idx, a.unset_long idx = (a, .error .TypeMismatch) := by
      intro idx; simp [Array.unset_long, hd]
    refine ⟨by simp [Array.size, hd], ?_, ?_, by simp [Array.append, hd], ?_⟩
    · cases k with
      | int n => exact hc n
      | str s =>
        simp only [Array.contains_key, Array.contains_string]
        cases ZEND_HANDLE_NUMERIC s with
        | some hval => exact hc _
        | none => simp [hd]
    · cases k with
      | int n => exact hl n
      | str s =>
        simp only [Array.at_key, Array.at_string]
        cases ZEND_HANDLE_NUMERIC s with
        | some hval => exact hl _
        | none => simp [hd]
    · cases k with
      | int n => exact hu n
      | str s =>
        simp only [Array.unset_key, Array.unset_string]
        cases ZEND_HANDLE_NUMERIC s with
        | some hval => exact hu _
        | none => simp [hd]
  · obtain ⟨z, t, hp⟩ := Array.PointsTo.of_isArray a h
    refine ⟨⟨_, size_eq hp⟩, ⟨_, contains_key_eq hp k⟩, ?_, (append_result a).2 h, ?_⟩
    · obtain ⟨_, p, hres, _⟩ := at_key_spec hp k
      exact ⟨p, hres⟩
    · cases k with
      | int n => exact (unset_long_result a n).2 h
      | str s => exact (unset_string_result a s).2 h
  · simp [Array.move, Array.isArray, derefAndCheck, Array.load]

theorem C18_type_mismatch_on_non_array_witness :
    (Array.move (Array.new Heap.empty)).2.isArray = false ∧
    (Array.move (Array.new Heap.empty)).2.append =
      ((Array.move (Array.new Heap.empty)).2, .error .TypeMismatch) ∧
    (Array.new Heap.empty).isArray = true ∧
    ((Array.new Heap.empty).unset_key (.str (bytes "x"))).2 = .ok () :=
  ⟨by decide,
   ((C18_type_mismatch_on_non_array (Array.move (Array.new Heap.empty)).2 (.int 0)).1
      (by decide)).2.2.2.1,
   by decide,
   ((C18_type_mismatch_on_non_array (Array.new Heap.empty) (.str (bytes "x"))).2.1
      (by decide)).2.2.2.2⟩

/-! ## `contains` is read-only -/

/-- C11: `contains` is read-only.  The Array and the heap after `contains(key)` are the
Array and the heap before it, whether or not the table is shared: the size, the buckets,
the reference count of the table and the table reached are unchanged.  With an integer
or string key on an array-shaped Array it returns a boolean, which says whether the
table holds a bucket under the canonical key. -/
theorem C11_contains_is_read_only (dv : Nat → Int) (a : Array) (k : KeyArg) :
    (a.contains_call k).1 = a ∧
    (a.contains_call k).1.size = a.size ∧
    (a.contains_call k).1.storage = a.storage ∧
    (a.contains_call k).1.tableAddr = a.tableAddr ∧
    (∀ (key : Zval) (fuel : Nat) (r : Array × Except Error Bool),
      a.contains_value_call dv key fuel = some r → r.1 = a) ∧
    (a.isArray = true →
      (a.contains_call k).2 = .ok (a.storage.lookup k.canon).isSome) := by
  refine ⟨rfl, rfl, rfl, rfl, ?_, ?_⟩
  · intro key fuel r hr
    simp only [Array.contains_value_call, Option.map_eq_some'] at hr
    obtain ⟨_, _, rfl⟩ := hr
    rfl
  · intro ha
    obtain ⟨z, t, hp⟩ := Array.PointsTo.of_isArray a ha
    simp only [Array.contains_call, hp.storage]
    exact contains_key_eq hp k

theorem C11_contains_is_read_only_witness :
    (Array.new Heap.empty).copy.isArray = true ∧
    ((Array.new Heap.empty).copy.contains_call (.int 3)).2 =
      .ok ((Array.new Heap.empty).copy.storage.lookup (KeyArg.int 3).canon).isSome ∧
    ((Array.new Heap.empty).copy.contains_call (.int 3)).1.storage.refcount = 2 :=
  ⟨by decide,
   (C11_contains_is_read_only (fun _ => 0) (Array.new Heap.empty).copy (.int 3)).2.2.2.2.2
     (by decide),
   by decide⟩

/-! ## Failed calls -/

theorem Array.SameView.refl (a : Array) : a.SameView a :=
  ⟨rfl, fun _ => rfl, fun _ => rfl, fun _ => rfl, fun _ => rfl⟩

/-- Separation for an Array that reaches a shared table through a Reference: the
reference cell is repointed to a duplicate at the first fresh address and the old table
loses one count. -/
theorem SEPARATE_ARRAY_refval_shared (a : Array) (r t : Nat)
    (hv : (a.heap.refs r).val = .array t) (hrc : 1 < (a.heap.arrays t).refcount) :
    SEPARATE_ARRAY a (.refval r) =
      { heap :=
          { a.heap with
            arrays := Function.update
              (Function.update a.heap.arrays t
                { a.heap.arrays t with refcount := (a.heap.arrays t).refcount - 1 })
              a.heap.next_array { a.heap.arrays t with refcount := 1 }
            refs := Function.update a.heap.refs r
              { a.heap.refs r with val := .array a.heap.next_array }
            next_array := a.heap.next_array + 1 }
        m_z := a.m_z } := by
  simp only [SEPARATE_ARRAY, Array.load, hv, Z_ARR]
  rw [if_pos (by omega)]
  simp [Array.store, zend_array_dup, Heap.setArray, Heap.setRef]

/-- Separation is not observable: any Array of the heap that reaches an allocated table
shows the same after another Array has separated from its table. -/
theorem separate_view {a : Array} {z : ZvalPtr} {t : Nat} (hp : a.PointsTo z t) (m : Zval)
    (z' : ZvalPtr) (t' : Nat) (hb : (⟨a.heap, m⟩ : Array).PointsTo z' t')
    (halloc : t' < a.heap.next_array) :
    Array.SameView ⟨(SEPARATE_ARRAY a z).heap, m⟩ ⟨a.heap, m⟩ := by
  by_cases hrc : (a.heap.arrays t).refcount ≤ 1
  · rw [SEPARATE_ARRAY_unshared hp hrc]
    exact Array.SameView.refl _
  · have hne : t' ≠ a.heap.next_array := by omega
    have hold : ∀ (arrays' : Nat → zend_array),
        arrays' = Function.update
          (Function.update a.heap.arrays t
            { a.heap.arrays t with refcount := (a.heap.arrays t).refcount - 1 })
          a.heap.next_array { a.heap.arrays t with refcount := 1 } →
        (arrays' t').arData = (a.heap.arrays t').arData := by
      intro arrays' he
      rw [he]
      by_cases htt : t' = t
      · subst htt; simp [Function.update, hne]
      · simp [Function.update, hne, htt]
    rcases derefAndCheck_cases a z hp.1 with ⟨rfl, t0, ht0⟩ | ⟨r, t0, rfl, hmr, hrv⟩
    · have ht : t0 = t := by
        have := hp.2; simp only [Array.load, ht0] at this; exact Zval.array.inj this
      subst ht
      rw [SEPARATE_ARRAY_direct_shared a t0 ht0 (by omega)]
      exact sameView_of_buckets hb (hb.frame _ rfl rfl) (hold _ rfl) (fun c => Or.inl rfl)
    · have ht : t0 = t := by
        have := hp.2; simp only [Array.load, hrv] at this; exact Zval.array.inj this
      subst ht
      rw [SEPARATE_ARRAY_refval_shared a r t0 hrv (by omega)]
      rcases derefAndCheck_cases _ z' hb.1 with ⟨rfl, t1, ht1⟩ | ⟨r', t1, rfl, hmr', hrv'⟩
      · simp only at ht1
        exact sameView_of_buckets hb (pointsTo_direct _ t' (by
          have := hb.2; simp only [Array.load] at this; exact this)) (hold _ rfl)
          (fun c => Or.inl rfl)
      · simp only at hmr' hrv'
        have ht1 : t1 = t' := by
          have := hb.2; simp only [Array.load, hrv'] at this; exact Zval.array.inj this
        subst ht1
        by_cases hrr : r' = r
        · subst hrr
          have htt : t1 = t0 := by rw [hrv] at hrv'; exact (Zval.array.inj hrv').symm
          subst htt
          refine @sameView_of_buckets _ _ _ (.refval r') _ a.heap.next_array hb ?_ ?_
            (fun c => Or.inl rfl)
          · constructor <;> simp [derefAndCheck, Array.load, hmr']
          · simp
        · refine @sameView_of_buckets _ _ _ (.refval r') _ t1 hb ?_ (hold _ rfl)
            (fun c => Or.inl rfl)
          constructor <;> simp [derefAndCheck, Array.load, hmr', Function.update, hrr, hrv']

theorem at_long_fail (a : Array) (idx : Int) (e : Error) (h : (a.at_long idx).2 = .error e) :
    a.at_long idx = (a, .error .TypeMismatch) := by
  cases ha : a.isArray with
  | true =>
    obtain ⟨p, hp⟩ := (at_long_result a idx).2 ha
    rw [hp] at h; cases h
  | false => simp [Array.at_long, derefAndCheck_of_not_isArray a ha]

theorem at_string_fail (a : Array) (key : List Nat) (e : Error)
    (h : (a.at_string key).2 = .error e) : a.at_string key = (a, .error .TypeMismatch) := by
  cases ha : a.isArray with
  | true =>
    obtain ⟨p, hp⟩ := (at_string_result a key).2 ha
    rw [hp] at h; cases h
  | false =>
    have hd := derefAndCheck_of_not_isArray a ha
    simp only [Array.at_string]
    cases ZEND_HANDLE_NUMERIC key with
    | some hval => simp [Array.at_long, hd]
    | none => simp [hd]

theorem unset_long_fail (a : Array) (idx : Int) (e : Error)
    (h : (a.unset_long idx).2 = .error e) : a.unset_long idx = (a, .error .TypeMismatch) := by
  cases ha : a.isArray with
  | true => rw [(unset_long_result a idx).2 ha] at h; cases h
  | false => simp [Array.unset_long, derefAndCheck_of_not_isArray a ha]

theorem unset_string_fail (a : Array) (key : List Nat) (e : Error)
    (h : (a.unset_string key).2 = .error e) : a.unset_string key = (a, .error .TypeMismatch) := by
  cases ha : a.isArray with
  | true => rw [(unset_string_result a key).2 ha] at h; cases h
  | false =>
    have hd := derefAndCheck_of_not_isArray a ha
    simp only [Array.unset_string]
    cases ZEND_HANDLE_NUMERIC key with
    | some hval => simp [Array.unset_long, hd]
    | none => simp [hd]

/-- A failed `append` either threw "Not an array" and left everything as it was, or threw
for an occupied slot after separation and nothing else. -/
theorem append_fail (a : Array) (e : Error) (h : a.append.2 = .error e) :
    a.append = (a, .error .TypeMismatch) ∨
    ∃ z t, a.PointsTo z t ∧ a.append = (SEPARATE_ARRAY a z, .error .SlotOccupied) := by
  cases ha : a.isArray with
  | false => left; simp [Array.append, derefAndCheck_of_not_isArray a ha]
  | true =>
    right
    obtain ⟨z, t, hp⟩ := Array.PointsTo.of_isArray a ha
    refine ⟨z, t, hp, ?_⟩
    unfold Array.append at h ⊢
    rw [hp.1] at h ⊢
    simp only at h ⊢
    split at h
    · rename_i hn; simp only [hn]
    · cases h

theorem at_value_fail (dv : Nat → Int) (a : Array) (key : Zval) (fuel : Nat)
    (r : Array × Except Error ZvalPtr) (e : Error) (hr : a.at_value dv key fuel = some r)
    (he : r.2 = .error e) : r.1 = a := by
  cases fuel with
  | zero => simp [Array.at_value, Array.at_value_loop] at hr
  | succ fuel =>
    have hl : ∀ idx, r = a.at_long idx → r.1 = a := by
      intro idx h; subst h; rw [at_long_fail a idx e he]
    have hs : ∀ k, r = a.at_string k → r.1 = a := by
      intro k h; subst h; rw [at_string_fail a k e he]
    cases key <;> simp only [Array.at_value, Array.at_value_loop, Value.type] at hr
    case reference ref =>
      rw [at_value_loop_reference] at hr; cases hr
    all_goals first
      | exact hl _ (Option.some.inj hr).symm
      | exact hs _ (Option.some.inj hr).symm
      | (rw [← Option.some.inj hr])

theorem unset_value_fail (dv : Nat → Int) (a : Array) (key : Zval) (fuel : Nat)
    (r : Array × Except Error Unit) (e : Error) (hr : a.unset_value dv key fuel = some r)
    (he : r.2 = .error e) : r.1 = a := by
  cases fuel with
  | zero => simp [Array.unset_value, Array.unset_value_loop] at hr
  | succ fuel =>
    have hl : ∀ idx, r = a.unset_long idx → r.1 = a := by
      intro idx h; subst h; rw [unset_long_fail a idx e he]
    have hs : ∀ k, r = a.unset_string k → r.1 = a := by
      intro k h; subst h; rw [unset_string_fail a k e he]
    cases key <;> simp only [Array.unset_value, Array.unset_value_loop, Value.type] at hr
    case reference ref =>
      rw [unset_value_loop_reference] at hr; cases hr
    all_goals first
      | exact hl _ (Option.some.inj hr).symm
      | exact hs _ (Option.some.inj hr).symm
      | (rw [← Option.some.inj hr])

/-- C12: atomicity on failure.  When `at`, `append` or `unset` with an integer or string
key fails, the Array shows the same as before the call, and so does every Array of the
heap that reaches an allocated table; unless the failure is that of an occupied slot,
the Array and the heap are untouched.  `at(Value)` and `unset(Value)` that fail leave
the Array and the heap untouched, and so does every call of `contains`. -/
theorem C12_atomicity_on_failure (dv : Nat → Int) (a : Array) :
    (∀ (op : WriteOp) (e : Error), a.applyResult op = .error e →
      (a.apply op).SameView a ∧
      (e ≠ .SlotOccupied → a.apply op = a) ∧
      ∀ (m : Zval) (z' : ZvalPtr) (t' : Nat), (⟨a.heap, m⟩ : Array).PointsTo z' t' →
        t' < a.heap.next_array → Array.SameView ⟨(a.apply op).heap, m⟩ ⟨a.heap, m⟩) ∧
    (∀ (key : Zval) (fuel : Nat) (r : Array × Except Error ZvalPtr) (e : Error),
      a.at_value dv key fuel = some r → r.2 = .error e → r.1 = a) ∧
    (∀ (key : Zval) (fuel : Nat) (r : Array × Except Error Unit) (e : Error),
      a.unset_value dv key fuel = some r → r.2 = .error e → r.1 = a) ∧
    (∀ k : KeyArg, (a.contains_call k).1 = a) ∧
    (∀ (key : Zval) (fuel : Nat) (r : Array × Except Error Bool),
      a.contains_value_call dv key fuel = some r → r.1 = a) := by
  have hsame : ∀ b : Array, b = a →
      b.SameView a ∧ (∀ e : Error, e ≠ .SlotOccupied → b = a) ∧
      ∀ (m : Zval) (z' : ZvalPtr) (t' : Nat), (⟨a.heap, m⟩ : Array).PointsTo z' t' →
        t' < a.heap.next_array → Array.SameView ⟨b.heap, m⟩ ⟨a.heap, m⟩ := by
    intro b hb; subst hb
    exact ⟨Array.SameView.refl _, fun _ _ => rfl, fun _ _ _ _ _ => Array.SameView.refl _⟩
  have hmap : ∀ {α : Type} (x : Except Error α) (e : Error),
      x.map (fun _ => ()) = .error e → x = .error e := by
    intro α x e h
    cases x with
    | ok v => cases h
    | error e' => simp only [Except.map] at h; rw [Except.error.inj h]
  refine ⟨?_, at_value_fail dv a, unset_value_fail dv a, fun _ => rfl, ?_⟩
  · intro op e h
    cases op with
    | at_long idx =>
      have := hsame (a.at_long idx).1 (by rw [at_long_fail a idx e (hmap _ e h)])
      exact ⟨this.1, this.2.1 e, this.2.2⟩
    | at_string key =>
      have := hsame (a.at_string key).1 (by rw [at_string_fail a key e (hmap _ e h)])
      exact ⟨this.1, this.2.1 e, this.2.2⟩
    | unset_long idx =>
      have := hsame (a.unset_long idx).1 (by rw [unset_long_fail a idx e h])
      exact ⟨this.1, this.2.1 e, this.2.2⟩
    | unset_string key =>
      have := hsame (a.unset_string key).1 (by rw [unset_string_fail a key e h])
      exact ⟨this.1, this.2.1 e, this.2.2⟩
    | append =>
      have h' := hmap _ e h
      rcases append_fail a e h' with hf | ⟨z, t, hp, hf⟩
      · have := hsame a.append.1 (by rw [hf])
        exact ⟨this.1, this.2.1 e, this.2.2⟩
      · have he : e = .SlotOccupied := by
          rw [hf] at h'; exact (Except.error.inj h').symm
        simp only [Array.apply, hf]
        obtain ⟨t1, rc, _, hp1, harr, hc, _, _⟩ := SEPARATE_ARRAY_spec hp
        refine ⟨sameView_of_buckets hp hp1 (by rw [harr]) (fun c => Or.inl (by rw [hc])),
          fun hne => absurd he hne, fun m z' t' hb halloc => separate_view hp m z' t' hb halloc⟩
  · intro key fuel r hr
    simp only [Array.contains_value_call, Option.map_eq_some'] at hr
    obtain ⟨_, _, rfl⟩ := hr
    rfl

theorem C12_atomicity_on_failure_witness :
    ((Array.new Heap.empty).apply (.at_long 9223372036854775807)).applyResult .append =
      .error .SlotOccupied ∧
    (((Array.new Heap.empty).apply (.at_long 9223372036854775807)).apply .append).SameView
      ((Array.new Heap.empty).apply (.at_long 9223372036854775807)) :=
  ⟨by decide!,
   ((C12_atomicity_on_failure (fun _ => 0)
      ((Array.new Heap.empty).apply (.at_long 9223372036854775807))).1 .append .SlotOccupied
      (by decide!)).1⟩

/-! ## When `append` fails -/

/-- On an array built from a new array, `append` returns exactly when no bucket sits at
the next free index, and such a bucket can only sit there when that index is
`ZEND_LONG_MAX`. -/
theorem append_after_run (h : Heap) (ops : List WriteOp) :
    (((Array.new h).run ops).contains_long (nextFree ops) = .ok false →
      ∃ p, ((Array.new h).run ops).append.2 = .ok p) ∧
    (((Array.new h).run ops).contains_long (nextFree ops) = .ok true →
      ((Array.new h).run ops).append.2 = .error .SlotOccupied ∧
      nextFree ops = ZEND_LONG_MAX) := by
  obtain ⟨t1, hp, hT, hn⟩ := run_inv ops (new_pointsTo h) (new_inv h)
  rw [new_table] at hn
  have hnf : (((Array.new h).run ops).heap.arrays t1).nNextFreeElement = nextFree ops := hn
  obtain ⟨t2, rc, _, _, _, _, hm⟩ := append_spec hp
  simp only [zend_hash_next_index_insert, zend_hash_index_exists, hnf] at hm
  rw [contains_long_eq hp]
  constructor
  · intro hfree
    cases hl : (((Array.new h).run ops).heap.arrays t1).lookup
        (.idx (toUlong (nextFree ops))) with
    | some w => rw [hl] at hfree; exact absurd hfree (by simp)
    | none =>
      simp only [hl, Option.isSome_none, Bool.false_eq_true, if_false] at hm
      exact ⟨_, hm.1⟩
  · intro hocc
    cases hl : (((Array.new h).run ops).heap.arrays t1).lookup
        (.idx (toUlong (nextFree ops))) with
    | none => rw [hl] at hocc; exact absurd hocc (by simp)
    | some w =>
      simp only [hl, Option.isSome_some, if_true] at hm
      refine ⟨hm.1, ?_⟩
      have hb := hT.present _ w hl
      have h0 := hT.1
      have h1 := hT.2.1
      rw [hnf] at hb h0 h1
      rw [toLong_toUlong _ (by omega) (by unfold ZEND_LONG_MAX at h1; omega)] at hb
      unfold bump at hb
      rw [if_pos (le_refl _)] at hb
      by_cases hlt : nextFree ops < ZEND_LONG_MAX
      · rw [if_pos hlt] at hb; omega
      · omega

/-- C15, as amended: on an array built from a new array by `at`, `append` and `unset`
with integer or string keys, a following `append` returns whenever the next free index
is below `ZEND_LONG_MAX`; whenever it throws, it throws for an occupied slot, the next
free index is `ZEND_LONG_MAX` and key `ZEND_LONG_MAX` is present. -/
theorem C15_append_fails_only_at_the_cap (h : Heap) (ops : List WriteOp) :
    (nextFree ops < ZEND_LONG_MAX → ∃ p, ((Array.new h).run ops).append.2 = .ok p) ∧
    (∀ e, ((Array.new h).run ops).append.2 = .error e →
      e = .SlotOccupied ∧ nextFree ops = ZEND_LONG_MAX ∧
      ((Array.new h).run ops).contains_long ZEND_LONG_MAX = .ok true) := by
  obtain ⟨hfree, hocc⟩ := append_after_run h ops
  obtain ⟨t1, hp, _, _⟩ := run_inv ops (new_pointsTo h) (new_inv h)
  have hcases : ((Array.new h).run ops).contains_long (nextFree ops) = .ok false ∨
      ((Array.new h).run ops).contains_long (nextFree ops) = .ok true := by
    rw [contains_long_eq hp]
    cases (((Array.new h).run ops).heap.arrays t1).lookup (.idx (toUlong (nextFree ops))) with
    | none => left; rfl
    | some w => right; rfl
  constructor
  · intro hlt
    rcases hcases with hc | hc
    · exact hfree hc
    · have := (hocc hc).2; omega
  · intro e he
    rcases hcases with hc | hc
    · obtain ⟨p, hp'⟩ := hfree hc
      rw [hp'] at he; cases he
    · obtain ⟨hs, hmax⟩ := hocc hc
      rw [hs] at he
      refine ⟨(Except.error.inj he).symm, hmax, ?_⟩
      rw [← hmax]; exact hc

theorem C15_append_fails_only_at_the_cap_witness :
    nextFree [.at_long 5, .append, .unset_long 6] < ZEND_LONG_MAX ∧
    ∃ p, ((Array.new Heap.empty).run [.at_long 5, .append, .unset_long 6]).append.2 = .ok p :=
  ⟨by decide,
   (C15_append_fails_only_at_the_cap Heap.empty [.at_long 5, .append, .unset_long 6]).1
     (by decide)⟩

/-- C15, counterexample: after `at(9223372036854775807)` on a new array, `append` throws
for an occupied slot. -/
theorem C15_counterexample :
    ((Array.new Heap.empty).run [.at_long 9223372036854775807]).isArray = true ∧
    ((Array.new Heap.empty).run [.at_long 9223372036854775807]).append.2
      = .error .SlotOccupied := by
  decide!

/-! ## INDIRECT slots and the kind of key -/

/-- With an integer key `at` hands out the bucket itself, whatever it holds, and touches
no cell. -/
theorem at_long_indirect {a : Array} {z : ZvalPtr} {t : Nat} (h : a.PointsTo z t) (idx : Int)
    (w : Zval) (hl : (a.heap.arrays t).lookup (.idx (toUlong idx)) = some w) :
    ∃ t1, (a.at_long idx).2 = .ok (.bucket t1 (.idx (toUlong idx))) ∧
      (a.at_long idx).1.load (.bucket t1 (.idx (toUlong idx))) = w ∧
      (a.at_long idx).1.heap.cells = a.heap.cells := by
  obtain ⟨t1, rc, _, hr, _, ha, hc, _⟩ := at_long_spec h idx
  rw [hl] at ha
  refine ⟨t1, hr, ?_, hc⟩
  simp only [Array.load, ha, lookup_refcount, hl, Option.getD_some]

/-- C16, as amended: on an array-shaped Array, for a key whose slot is INDIRECT, `at`
returns.  For a string key that is not numeric the handle is the cell the slot points
to, a cell that was UNDEF holds NULL afterwards, and no other cell changes.  For an
integer key and for a numeric string key the handle is the bucket itself, which still
holds the INDIRECT value, and no cell changes. -/
theorem C16_indirect_resolved_for_non_numeric_strings (a : Array) (k : KeyArg) (c : Nat)
    (ha : a.isArray = true) (hs : a.storage.lookup k.canon = some (.indirect c)) :
    ∃ p, (a.at_key k).2 = .ok p ∧
      (match k.canon with
       | .str _ =>
           p = .cell c ∧ (a.at_key k).1.heap.cells c ≠ .undef ∧
           (a.at_key k).1.heap.cells c =
             (if a.heap.cells c = .undef then .null else a.heap.cells c) ∧
           ∀ c1, c1 ≠ c → (a.at_key k).1.heap.cells c1 = a.heap.cells c1
       | .idx h =>
           (∃ t, p = .bucket t (.idx h)) ∧ (a.at_key k).1.load p = .indirect c ∧
           (a.at_key k).1.heap.cells = a.heap.cells) := by
  obtain ⟨z, t, hp⟩ := Array.PointsTo.of_isArray a ha
  rw [hp.storage] at hs
  have hint : ∀ n : Int, (a.heap.arrays t).lookup (.idx (toUlong n)) = some (.indirect c) →
      ∃ p, (a.at_long n).2 = .ok p ∧
        (∃ t1, p = .bucket t1 (.idx (toUlong n))) ∧ (a.at_long n).1.load p = .indirect c ∧
          (a.at_long n).1.heap.cells = a.heap.cells := by
    intro n hl
    obtain ⟨t1, hr, hload, hc⟩ := at_long_indirect hp n _ hl
    exact ⟨_, hr, ⟨t1, rfl⟩, hload, hc⟩
  cases k with
  | int n => exact hint n hs
  | str s =>
    cases hk : ZEND_HANDLE_NUMERIC s with
    | some hval =>
      simp only [KeyArg.canon, hk] at hs ⊢
      simp only [Array.at_key, at_string_numeric a s hval hk]
      exact hint _ hs
    | none =>
      simp only [KeyArg.canon, hk] at hs ⊢
      obtain ⟨t1, rc, _, _, _, _, hr, hc⟩ := at_string_spec_indirect hp s hk c hs
      refine ⟨_, hr, rfl, ?_, ?_, ?_⟩
      · simp only [Array.at_key, hc]
        by_cases hu : a.heap.cells c = .undef
        · simp [hu]
        · simp [hu]
      · simp only [Array.at_key, hc]
        by_cases hu : a.heap.cells c = .undef
        · simp [hu]
        · simp [hu]
      · intro c1 hne
        simp only [Array.at_key, hc]
        by_cases hu : a.heap.cells c = .undef
        · simp [hu, Function.update, hne]
        · simp [hu]

theorem C16_indirect_resolved_for_non_numeric_strings_witness :
    exampleGlobals.isArray = true ∧
    exampleGlobals.storage.lookup (KeyArg.str (bytes "x")).canon = some (.indirect 0) ∧
    ∃ p, (exampleGlobals.at_key (.str (bytes "x"))).2 = .ok p ∧
      (match (KeyArg.str (bytes "x")).canon with
       | .str _ =>
           p = .cell 0 ∧ (exampleGlobals.at_key (.str (bytes "x"))).1.heap.cells 0 ≠ .undef ∧
           (exampleGlobals.at_key (.str (bytes "x"))).1.heap.cells 0 =
             (if exampleGlobals.heap.cells 0 = .undef then .null
              else exampleGlobals.heap.cells 0) ∧
           ∀ c1, c1 ≠ 0 → (exampleGlobals.at_key (.str (bytes "x"))).1.heap.cells c1 =
             exampleGlobals.heap.cells c1
       | .idx h =>
           (∃ t, p = .bucket t (.idx h)) ∧
           (exampleGlobals.at_key (.str (bytes "x"))).1.load p = .indirect 0 ∧
           (exampleGlobals.at_key (.str (bytes "x"))).1.heap.cells = exampleGlobals.heap.cells) :=
  ⟨by decide!, by decide!,
   C16_indirect_resolved_for_non_numeric_strings exampleGlobals (.str (bytes "x")) 0
     (by decide!) (by decide!)⟩

/-- C16, counterexample: the slot of the integer key 5 is INDIRECT and its cell is UNDEF;
`at(5)` and `at("5")` return the bucket, which reads as the INDIRECT value, and the
cell is still UNDEF. -/
theorem C16_counterexample :
    exampleIndirectIndex.isArray = true ∧
    exampleIndirectIndex.storage.lookup (KeyArg.int 5).canon = some (.indirect 0) ∧
    exampleIndirectIndex.storage.lookup (KeyArg.str (bytes "5")).canon = some (.indirect 0) ∧
    exampleIndirectIndex.heap.cells 0 = .undef ∧
    (exampleIndirectIndex.at_long 5).2 = .ok (.bucket 0 (.idx 5)) ∧
    readThrough (exampleIndirectIndex.at_long 5) = .ok (.indirect 0) ∧
    (exampleIndirectIndex.at_long 5).1.heap.cells 0 = .undef ∧
    (exampleIndirectIndex.at_string (bytes "5")).2 = .ok (.bucket 0 (.idx 5)) ∧
    readThrough (exampleIndirectIndex.at_string (bytes "5")) = .ok (.indirect 0) ∧
    (exampleIndirectIndex.at_string (bytes "5")).1.heap.cells 0 = .undef := by
  decide!

/-! ## Which routine `unset` deletes with -/

/-- The engine call recorded by `unset_long_call` is the one `unset(zend_long)` makes. -/
theorem unset_long_call_run {a : Array} {z : ZvalPtr} {t : Nat} (hp : a.PointsTo z t)
    (idx : Int) :
    a.unset_long_call idx =
      (SEPARATE_ARRAY a z,
       .ok (.hash_index_del (SEPARATE_ARRAY a z).tableAddr (toUlong idx))) ∧
    a.unset_long idx =
      (⟨(DeleteRoutine.hash_index_del (SEPARATE_ARRAY a z).tableAddr (toUlong idx)).run
          (SEPARATE_ARRAY a z).heap, (SEPARATE_ARRAY a z).m_z⟩, .ok ()) := by
  obtain ⟨t1, _, _, hp1, _⟩ := SEPARATE_ARRAY_spec hp
  rw [hp1.tableAddr]
  constructor
  · simp only [Array.unset_long_call, hp.1, hp1.2, Z_ARR]
  · simp only [Array.unset_long, hp.1, hp1.2, Z_ARR, DeleteRoutine.run]

/-- The engine call recorded by `unset_string_call` is the one `unset(zend_string*)`
makes for a string that is not numeric. -/
theorem unset_string_call_run {a : Array} {z : ZvalPtr} {t : Nat} (hp : a.PointsTo z t)
    (key : List Nat) (hk : ZEND_HANDLE_NUMERIC key = none) :
    a.unset_string_call key =
      (SEPARATE_ARRAY a z,
       .ok (if (SEPARATE_ARRAY a z).tableAddr = (SEPARATE_ARRAY a z).heap.symbol_table
            then .delete_global_variable key
            else .hash_del (SEPARATE_ARRAY a z).tableAddr key)) ∧
    a.unset_string key =
      (⟨(if (SEPARATE_ARRAY a z).tableAddr = (SEPARATE_ARRAY a z).heap.symbol_table
            then DeleteRoutine.delete_global_variable key
            else DeleteRoutine.hash_del (SEPARATE_ARRAY a z).tableAddr key).run
          (SEPARATE_ARRAY a z).heap, (SEPARATE_ARRAY a z).m_z⟩, .ok ()) := by
  obtain ⟨t1, _, _, hp1, _⟩ := SEPARATE_ARRAY_spec hp
  rw [hp1.tableAddr]
  by_cases hs : t1 = (SEPARATE_ARRAY a z).heap.symbol_table
  · constructor
    · simp only [Array.unset_string_call, hk, hp.1, hp1.2, Z_ARR, if_pos hs]
    · simp only [Array.unset_string, hk, hp.1, hp1.2, Z_ARR, if_pos hs, DeleteRoutine.run]
  · constructor
    · simp only [Array.unset_string_call, hk, hp.1, hp1.2, Z_ARR, if_neg hs]
    · simp only [Array.unset_string, hk, hp.1, hp1.2, Z_ARR, if_neg hs, DeleteRoutine.run]

/-- C17, as amended: on an array-shaped Array `unset` first separates the Array from
shared storage (nothing happens when the storage is not shared) and then makes one engine
call.  For an integer key and for a numeric string key the call is the generic
`zend_hash_index_del` on the table, also when the table is the variable-binding table;
for a string key that is not numeric it is `zend_delete_global_variable` when the table
is the variable-binding table and the generic `zend_hash_del` otherwise.  `unset` with a
`Value` key returns in the first turn of its loop with the call of the string overload
for a String (its string), a Null and an Undefined (the empty string), and of the integer
overload for a True (1), a False (0) and a Resource (its handle), so the same routine is
used as for that string or integer key. -/
theorem C17_deletion_routine_by_key_kind (dv : Nat → Int) (a : Array) (k : KeyArg)
    (key : Zval) (fuel : Nat) (ha : a.isArray = true) :
    (∃ a1 r, a.unset_call k = (a1, .ok r) ∧
      a.unset_key k = (⟨r.run a1.heap, a1.m_z⟩, .ok ()) ∧
      (a.storage.refcount ≤ 1 → a1 = a) ∧
      r = (match k.canon with
           | .idx h => DeleteRoutine.hash_index_del a1.tableAddr h
           | .str s =>
               if a1.tableAddr = a1.heap.symbol_table then .delete_global_variable s
               else .hash_del a1.tableAddr s)) ∧
    ((Value.type key = .String ∧ k = .str (Z_STR key)) ∨
      ((Value.type key = .Null ∨ Value.type key = .Undefined) ∧ k = .str ZSTR_EMPTY_ALLOC) ∨
      (Value.type key = .True ∧ k = .int 1) ∨
      (Value.type key = .False ∧ k = .int 0) ∨
      (Value.type key = .Resource ∧ k = .int (Z_RES_HANDLE key)) →
      a.unset_value_call dv key (fuel + 1) = some (a.unset_call k) ∧
      a.unset_value dv key (fuel + 1) = some (a.unset_key k) ∧
      ∃ a1 r, a.unset_value_call dv key (fuel + 1) = some (a1, .ok r) ∧
        a.unset_value dv key (fuel + 1) = some (⟨r.run a1.heap, a1.m_z⟩, .ok ()) ∧
        (a.storage.refcount ≤ 1 → a1 = a) ∧
        r = (match k.canon with
             | .idx h => DeleteRoutine.hash_index_del a1.tableAddr h
             | .str s =>
                 if a1.tableAddr = a1.heap.symbol_table then .delete_global_variable s
                 else .hash_del a1.tableAddr s)) := by
  obtain ⟨z, t, hp⟩ := Array.PointsTo.of_isArray a ha
  have hsep : a.storage.refcount ≤ 1 → SEPARATE_ARRAY a z = a := by
    intro hrc
    rw [hp.storage] at hrc
    exact SEPARATE_ARRAY_unshared hp hrc
  have hkey : ∃ a1 r, a.unset_call k = (a1, .ok r) ∧
      a.unset_key k = (⟨r.run a1.heap, a1.m_z⟩, .ok ()) ∧
      (a.storage.refcount ≤ 1 → a1 = a) ∧
      r = (match k.canon with
           | .idx h => DeleteRoutine.hash_index_del a1.tableAddr h
           | .str s =>
               if a1.tableAddr = a1.heap.symbol_table then .delete_global_variable s
               else .hash_del a1.tableAddr s) := by
    cases k with
    | int n =>
      obtain ⟨h1, h2⟩ := unset_long_call_run hp n
      exact ⟨_, _, h1, h2, hsep, rfl⟩
    | str s =>
      cases hk : ZEND_HANDLE_NUMERIC s with
      | some hval =>
        obtain ⟨h1, h2⟩ := unset_long_call_run hp (toLong hval)
        refine ⟨SEPARATE_ARRAY a z,
          .hash_index_del (SEPARATE_ARRAY a z).tableAddr (toUlong (toLong hval)),
          ?_, ?_, hsep, ?_⟩
        · simp only [Array.unset_call, Array.unset_string_call, hk]; exact h1
        · simp only [Array.unset_key, Array.unset_string, hk]; exact h2
        · simp only [KeyArg.canon, hk]
      | none =>
        obtain ⟨h1, h2⟩ := unset_string_call_run hp s hk
        refine ⟨_, _, h1, h2, hsep, ?_⟩
        simp only [KeyArg.canon, hk]
  refine ⟨hkey, fun hdisp => ?_⟩
  have hcalls : a.unset_value_call dv key (fuel + 1) = some (a.unset_call k) ∧
      a.unset_value dv key (fuel + 1) = some (a.unset_key k) := by
    rcases hdisp with ⟨ht, rfl⟩ | ⟨ht | ht, rfl⟩ | ⟨ht, rfl⟩ | ⟨ht, rfl⟩ | ⟨ht, rfl⟩ <;>
      exact ⟨by simp only [Array.unset_value_call, Array.unset_value_call_loop, ht,
                  Array.unset_call],
             by simp only [Array.unset_value, Array.unset_value_loop, ht, Array.unset_key]⟩
  obtain ⟨a1, r, h1, h2, h3, h4⟩ := hkey
  exact ⟨hcalls.1, hcalls.2, a1, r, by rw [hcalls.1, h1], by rw [hcalls.2, h2], h3, h4⟩

theorem C17_deletion_routine_by_key_kind_witness :
    exampleGlobals.isArray = true ∧
    (∃ a1 r, exampleGlobals.unset_call (.str (bytes "x")) = (a1, .ok r) ∧
      exampleGlobals.unset_key (.str (bytes "x")) = (⟨r.run a1.heap, a1.m_z⟩, .ok ()) ∧
      (exampleGlobals.storage.refcount ≤ 1 → a1 = exampleGlobals) ∧
      r = (match (KeyArg.str (bytes "x")).canon with
           | .idx h => DeleteRoutine.hash_index_del a1.tableAddr h
           | .str s =>
               if a1.tableAddr = a1.heap.symbol_table then .delete_global_variable s
               else .hash_del a1.tableAddr s)) ∧
    Value.type (.string (bytes "x")) = .String ∧
    (∃ a1 r, exampleGlobals.unset_value_call (fun _ => 0) (.string (bytes "x")) 1 =
        some (a1, .ok r) ∧
      exampleGlobals.unset_value (fun _ => 0) (.string (bytes "x")) 1 =
        some (⟨r.run a1.heap, a1.m_z⟩, .ok ()) ∧
      (exampleGlobals.storage.refcount ≤ 1 → a1 = exampleGlobals) ∧
      r = (match (KeyArg.str (bytes "x")).canon with
           | .idx h => DeleteRoutine.hash_index_del a1.tableAddr h
           | .str s =>
               if a1.tableAddr = a1.heap.symbol_table then .delete_global_variable s
               else .hash_del a1.tableAddr s)) :=
  ⟨by decide!,
   (C17_deletion_routine_by_key_kind (fun _ => 0) exampleGlobals (.str (bytes "x"))
      (.string (bytes "x")) 0 (by decide!)).1,
   by decide,
   ((C17_deletion_routine_by_key_kind (fun _ => 0) exampleGlobals (.str (bytes "x"))
      (.string (bytes "x")) 0 (by decide!)).2 (Or.inl ⟨by decide, rfl⟩)).2.2⟩

/-- C17, counterexample: the Array's storage is the variable-binding table, not shared;
`unset(123)` and `unset("123")`, also with the key given as a `Value` holding the string
"123" or True, delete with the generic `zend_hash_index_del`, while `unset("x")` deletes
with `zend_delete_global_variable`. -/
theorem C17_counterexample :
    exampleGlobals.isArray = true ∧
    exampleGlobals.tableAddr = exampleGlobals.heap.symbol_table ∧
    exampleGlobals.storage.refcount = 1 ∧
    (exampleGlobals.unset_long_call 123).2 = .ok (.hash_index_del 0 123) ∧
    (exampleGlobals.unset_string_call (bytes "123")).2 = .ok (.hash_index_del 0 123) ∧
    (exampleGlobals.unset_string_call (bytes "x")).2 =
      .ok (.delete_global_variable (bytes "x")) ∧
    (exampleGlobals.unset_long 123).1.heap.arrays 0 =
      zend_hash_index_del (exampleGlobals.heap.arrays 0) 123 ∧
    (exampleIndirectIndex.unset_long_call 5).2 = .ok (.hash_index_del 0 5) ∧
    exampleIndirectIndex.contains_long 5 = .ok true ∧
    (exampleIndirectIndex.unset_long 5).1.contains_long 5 = .ok false ∧
    (exampleGlobals.unset_value_call (fun _ => 0) (.string (bytes "123")) 1).map (fun r => r.2) =
      some (.ok (.hash_index_del 0 123)) ∧
    (exampleGlobals.unset_value_call (fun _ => 0) .true_ 1).map (fun r => r.2) =
      some (.ok (.hash_index_del 0 1)) := by
  decide!

/-! ## The argument list of `Function` -/

/-- An insertion at an index within the vector: the length grows by one, the value sits
at the index, the entries before it keep their index and the entries from it on move up
by one. -/
theorem vector_insert_spec {α : Type} (v : List α) (pos : Nat) (x : α) (h : pos ≤ v.length) :
    ∃ w, vector_insert v pos x = some w ∧ w.length = v.length + 1 ∧ w[pos]? = some x ∧
      (∀ i, i < pos → w[i]? = v[i]?) ∧ (∀ i, pos ≤ i → w[i + 1]? = v[i]?) := by
  refine ⟨_, if_pos h, ?_, ?_, ?_, ?_⟩
  · simp [List.length_append, List.length_take, List.length_drop]; omega
  · rw [List.getElem?_append_right (by simp [List.length_take, h])]
    simp [List.length_take, h]
  · intro i hi
    rw [List.getElem?_append_left (by simp [List.length_take]; omega)]
    rw [List.getElem?_take_of_lt hi]
  · intro i hi
    rw [List.getElem?_append_right (by simp [List.length_take]; omega)]
    have : i + 1 - (List.take pos v).length = (i - pos) + 1 := by
      simp [List.length_take, h]; omega
    rw [this, List.getElem?_cons_succ, List.getElem?_drop]
    congr 1; omega

theorem addRequiredArgument_spec (d : FunctionPrivate) (arg : zend_internal_arg_info)
    (hinv : d.num_args + 1 ≤ d.m_arginfo.length) :
    Function.addRequiredArgument d arg =
      some ⟨(d.num_args + 1) % 2 ^ 32,
        d.m_arginfo.take (d.num_args + 1) ++ arg :: d.m_arginfo.drop (d.num_args + 1),
        d.m_arginfo.take (d.num_args + 1) ++ arg :: d.m_arginfo.drop (d.num_args + 1)⟩ := by
  have hv : vector_insert d.m_arginfo (d.num_args + 1) arg =
      some (d.m_arginfo.take (d.num_args + 1) ++ arg :: d.m_arginfo.drop (d.num_args + 1)) :=
    if_pos hinv
  unfold Function.addRequiredArgument
  rw [hv]

/-- At the largest `uint32_t` the count of required arguments wraps to 0. -/
theorem addRequiredArgument_wraps (d : FunctionPrivate) (arg : zend_internal_arg_info)
    (hn : d.num_args = 4294967295) (hinv : d.num_args + 1 ≤ d.m_arginfo.length) :
    (Function.addRequiredArgument d arg).map (fun d1 => d1.num_args) = some 0 := by
  rw [addRequiredArgument_spec d arg hinv]
  show some ((d.num_args + 1) % 2 ^ 32) = some 0
  rw [hn]
  norm_num

theorem fullFunction_inv : fullFunction.num_args + 1 ≤ fullFunction.m_arginfo.length := by
  show 4294967295 + 1 ≤ (List.replicate 4294967296 (exampleArgument "")).length
  rw [List.length_replicate]

/-- The layout after a sequence of calls: the entries up to the last required argument,
the arguments added as required, the entries that were behind, the arguments added as
optional. -/
theorem addArguments_spec (ops : List ArgumentOp) :
    ∀ d : FunctionPrivate, d.num_args + 1 ≤ d.m_arginfo.length →
      d.num_args + (requiredArguments ops).length < 2 ^ 32 →
      ∃ d1, Function.addArguments d ops = some d1 ∧
        d1.num_args = d.num_args + (requiredArguments ops).length ∧
        d1.m_arginfo = d.m_arginfo.take (d.num_args + 1) ++ requiredArguments ops ++
          d.m_arginfo.drop (d.num_args + 1) ++ optionalArguments ops := by
  induction ops with
  | nil =>
    intro d _ _
    exact ⟨d, rfl, rfl, by simp [requiredArguments, optionalArguments]⟩
  | cons op ops ih =>
    intro d hinv hmax
    cases op with
    | required arg =>
      simp only [requiredArguments, List.length_cons] at hmax ⊢
      have hmod : (d.num_args + 1) % 2 ^ 32 = d.num_args + 1 := Nat.mod_eq_of_lt (by omega)
      have hlen : (d.m_arginfo.take (d.num_args + 1)).length = d.num_args + 1 := by
        rw [List.length_take]; omega
      obtain ⟨d1, h1, h2, h3⟩ := ih
        ⟨d.num_args + 1,
          d.m_arginfo.take (d.num_args + 1) ++ arg :: d.m_arginfo.drop (d.num_args + 1),
          d.m_arginfo.take (d.num_args + 1) ++ arg :: d.m_arginfo.drop (d.num_args + 1)⟩
        (by simp only [List.length_append, List.length_cons, hlen]; omega)
        (by show d.num_args + 1 + _ < _; omega)
      refine ⟨d1, ?_, ?_, ?_⟩
      · simp only [Function.addArguments, addRequiredArgument_spec d arg hinv, hmod]
        exact h1
      · rw [h2]; show d.num_args + 1 + _ = _; omega
      · rw [h3]
        show List.take (d.num_args + 1 + 1) _ ++ _ ++ List.drop (d.num_args + 1 + 1) _ ++ _ = _
        have ht : List.take (d.num_args + 1 + 1)
            (d.m_arginfo.take (d.num_args + 1) ++ arg :: d.m_arginfo.drop (d.num_args + 1)) =
            d.m_arginfo.take (d.num_args + 1) ++ [arg] := by
          rw [List.take_append_eq_append_take, hlen]
          simp [List.take_of_length_le, hlen]
        have hd : List.drop (d.num_args + 1 + 1)
            (d.m_arginfo.take (d.num_args + 1) ++ arg :: d.m_arginfo.drop (d.num_args + 1)) =
            d.m_arginfo.drop (d.num_args + 1) := by
          rw [List.drop_append_eq_append_drop, hlen]
          simp [List.drop_of_length_le, hlen]
        rw [ht, hd]
        simp [optionalArguments]
    | optional arg =>
      simp only [requiredArguments, optionalArguments] at hmax ⊢
      obtain ⟨d1, h1, h2, h3⟩ := ih (Function.addOptionalArgument d arg)
        (by simp only [Function.addOptionalArgument, List.length_append, List.length_singleton]
            omega)
        hmax
      refine ⟨d1, h1, h2, ?_⟩
      rw [h3]
      show List.take (d.num_args + 1) (d.m_arginfo ++ [arg]) ++ _ ++
        List.drop (d.num_args + 1) (d.m_arginfo ++ [arg]) ++ _ = _
      rw [List.take_append_of_le_length hinv, List.drop_append_of_le_length hinv]
      simp

/-- C19, as amended: when `num_args + 1 ≤ length(m_arginfo)` holds and `num_args` is below
the largest `uint32_t`, `addRequiredArgument` returns, inserts the argument at index
`num_args + 1`, which is within the vector, adds one to `num_args` and one to the
length, keeps the entries 0 to `num_args` where they are and moves the later entries up
by one.  `addOptionalArgument` appends the argument, leaves `num_args` and adds one to
the length.  Both keep `num_args + 1 ≤ length(m_arginfo)` and leave `arg_info` on the
vector.  After any sequence of such calls that adds fewer required arguments than the
counter has room for, the list is: the entries up to the last required argument, the
arguments added as required, the entries that were behind, the arguments added as
optional. -/
theorem C19_argument_list_layout (d : FunctionPrivate) (arg : zend_internal_arg_info)
    (hinv : d.num_args + 1 ≤ d.m_arginfo.length) (hmax : d.num_args < 4294967295) :
    (∃ d1, Function.addRequiredArgument d arg = some d1 ∧
      d.num_args + 1 ≤ d.m_arginfo.length ∧
      d1.num_args = d.num_args + 1 ∧
      d1.m_arginfo.length = d.m_arginfo.length + 1 ∧
      d1.m_arginfo[d.num_args + 1]? = some arg ∧
      (∀ i, i ≤ d.num_args → d1.m_arginfo[i]? = d.m_arginfo[i]?) ∧
      (∀ i, d.num_args + 1 ≤ i → d1.m_arginfo[i + 1]? = d.m_arginfo[i]?) ∧
      d1.arg_info = d1.m_arginfo ∧
      d1.num_args + 1 ≤ d1.m_arginfo.length) ∧
    ((Function.addOptionalArgument d arg).num_args = d.num_args ∧
      (Function.addOptionalArgument d arg).m_arginfo = d.m_arginfo ++ [arg] ∧
      (Function.addOptionalArgument d arg).m_arginfo.length = d.m_arginfo.length + 1 ∧
      (Function.addOptionalArgument d arg).arg_info =
        (Function.addOptionalArgument d arg).m_arginfo ∧
      (Function.addOptionalArgument d arg).num_args + 1 ≤
        (Function.addOptionalArgument d arg).m_arginfo.length) ∧
    (∀ ops : List ArgumentOp, d.num_args + (requiredArguments ops).length < 2 ^ 32 →
      ∃ d1, Function.addArguments d ops = some d1 ∧
        d1.num_args = d.num_args + (requiredArguments ops).length ∧
        d1.m_arginfo = d.m_arginfo.take (d.num_args + 1) ++ requiredArguments ops ++
          d.m_arginfo.drop (d.num_args + 1) ++ optionalArguments ops ∧
        d1.num_args + 1 ≤ d1.m_arginfo.length) := by
  refine ⟨?_, ?_, ?_⟩
  · obtain ⟨w, hw, hlen, hat, hbefore, hafter⟩ :=
      vector_insert_spec d.m_arginfo (d.num_args + 1) arg hinv
    have hmod : (d.num_args + 1) % 2 ^ 32 = d.num_args + 1 := Nat.mod_eq_of_lt (by omega)
    refine ⟨⟨d.num_args + 1, w, w⟩, ?_, hinv, rfl, hlen, hat, ?_, hafter, rfl, ?_⟩
    · simp only [Function.addRequiredArgument, hw, hmod]
    · intro i hi
      exact hbefore i (by omega)
    · show d.num_args + 1 + 1 ≤ w.length
      omega
  · refine ⟨rfl, rfl, ?_, rfl, ?_⟩
    · simp [Function.addOptionalArgument]
    · simp only [Function.addOptionalArgument, List.length_append, List.length_singleton]
      omega
  · intro ops hops
    obtain ⟨d1, h1, h2, h3⟩ := addArguments_spec ops d hinv hops
    refine ⟨d1, h1, h2, h3, ?_⟩
    rw [h2, h3]
    have hlen : (d.m_arginfo.take (d.num_args + 1)).length = d.num_args + 1 := by
      rw [List.length_take]; omega
    simp only [List.length_append, hlen]
    omega

theorem C19_argument_list_layout_witness :
    exampleFunction.num_args + 1 ≤ exampleFunction.m_arginfo.length ∧
    exampleFunction.num_args < 4294967295 ∧
    ∃ d1, Function.addArguments exampleFunction
        [.optional (exampleArgument "y"), .required (exampleArgument "b")] = some d1 ∧
      d1.num_args = exampleFunction.num_args +
        (requiredArguments
          [.optional (exampleArgument "y"), .required (exampleArgument "b")]).length ∧
      d1.m_arginfo = exampleFunction.m_arginfo.take (exampleFunction.num_args + 1) ++
          requiredArguments [.optional (exampleArgument "y"), .required (exampleArgument "b")] ++
          exampleFunction.m_arginfo.drop (exampleFunction.num_args + 1) ++
          optionalArguments [.optional (exampleArgument "y"), .required (exampleArgument "b")] ∧
      d1.num_args + 1 ≤ d1.m_arginfo.length :=
  ⟨by decide, by decide,
   (C19_argument_list_layout exampleFunction (exampleArgument "b") (by decide) (by decide)).2.2
     [.optional (exampleArgument "y"), .required (exampleArgument "b")] (by decide)⟩

/-- C19, counterexample: `num_args` is 4294967295 and the vector holds 4294967296 entries,
so `num_args + 1 ≤ length(m_arginfo)` holds; `addRequiredArgument` inserts at the end and
leaves `num_args` at 0, not at one more. -/
theorem C19_counterexample :
    fullFunction.num_args + 1 ≤ fullFunction.m_arginfo.length ∧
    fullFunction.num_args = 4294967295 ∧
    (Function.addRequiredArgument fullFunction (exampleArgument "b")).map
      (fun d1 => d1.num_args) = some 0 ∧
    (Function.addRequiredArgument fullFunction (exampleArgument "b")).map
      (fun d1 => d1.num_args) ≠ some (fullFunction.num_args + 1) := by
  have h := addRequiredArgument_wraps fullFunction (exampleArgument "b") rfl fullFunction_inv
  refine ⟨fullFunction_inv, rfl, h, ?_⟩
  rw [h]
  show some 0 ≠ some (4294967295 + 1)
  simp

/-! ## Construction from a handle -/

end phpcxx
